import Mathlib

/-!
# Robin Hood hash table (`src/hash_table.h`)

A shallow embedding of the open-addressing hash map of `src/hash_table.h`
(linear probing without wraparound, Robin Hood displacement on insertion,
backward-shift deletion, capacity doubling) and proofs about it.

Modelling conventions.
* `size_t` quantities (`size_`, `capacity_`, `cost`, slot indices, hash values)
  are natural numbers; no arithmetic of the program is performed modulo `2^64`.
  The two decrements of unsigned counters are never executed at `0`:
  `--data_[i]->cost` in `shift_back` is guarded by `cost > 0`, and `--size_`
  in `erase` runs only after an occupied slot was found (`erase_present`
  shows that the size before is the size after plus one).
* The slot array `data_` (a `unique_ptr<optional<map_entry>[]>`) is a list of
  optional entries; `slot t i` reads cell `i`, and reads outside the list give
  the empty cell.
* The hash functor is a parameter `hash : K → Nat`.
* `insert_entry` and `resize` call each other; they are modelled with a fuel
  argument bounding loop iterations and nesting, and return `none` when it is
  exhausted.  Statements about them say that enough fuel gives a result and
  that every result, with whatever fuel, has the stated property.
* The operations named `..._checked` repeat the methods in `Except Fault`, with
  every slot access tested against the length of the array, every `i - 1`
  against `i = 0`, `--size_` against `size_ = 0` and every `% capacity_`
  against `capacity_ = 0`; they are shown to return what the unchecked
  operations return.
-/

namespace HashTable

/-- The struct `map_entry`: the stored pair and its displacement cost. -/
structure map_entry (K V : Type) where
  key : K
  value : V
  cost : Nat
deriving DecidableEq

/-- The private state of `HashMap`: slot array, `size_` and `capacity_`. -/
structure HashMap (K V : Type) where
  data_ : List (Option (map_entry K V))
  size_ : Nat
  capacity_ : Nat
deriving DecidableEq

variable {K V : Type}

/-- Cell `i` of a slot array; empty outside the array. -/
def cell (d : List (Option (map_entry K V))) (i : Nat) : Option (map_entry K V) :=
  (d[i]?).getD none

/-- Cell `i` of the slot array of a table (`data_[i]`). -/
def slot (t : HashMap K V) (i : Nat) : Option (map_entry K V) :=
  cell t.data_ i

/-- The constructor `HashMap(Hash)`: one empty slot, `capacity_ = INIT_SIZE = 1`. -/
def empty : HashMap K V :=
  { data_ := [none], size_ := 0, capacity_ := 1 }

/-- The loop of `find_place`: advance `h` until it equals `capacity_`, or the
slot is empty, or the slot holds `key`.  The first argument bounds the number
of iterations. -/
def find_place_loop [DecidableEq K] (t : HashMap K V) (key : K) : Nat → Nat → Nat
  | 0, h => h
  | n + 1, h =>
    if h = t.capacity_ then h
    else match slot t h with
      | none => h
      | some e => if e.key = key then h else find_place_loop t key n (h + 1)

/-- The method `find_place`: probe from `hash(key) % capacity_`, no wraparound. -/
def find_place [DecidableEq K] (hash : K → Nat) (t : HashMap K V) (key : K) : Nat :=
  find_place_loop t key (t.capacity_ + 1) (hash key % t.capacity_)

/-- The body of the loop of `shift_back` at index `i`, whose slot holds `e`:
`--data_[i]->cost; data_[i - 1] = data_[i]; data_[i].reset();`. -/
def shift_step (t : HashMap K V) (i : Nat) (e : map_entry K V) : HashMap K V :=
  let e1 : map_entry K V := { e with cost := e.cost - 1 }
  { t with data_ := ((t.data_.set i (some e1)).set (i - 1) (some e1)).set i none }

/-- The loop of `shift_back`: while `i < capacity_` and slot `i` is occupied
with positive cost, run the body and advance.  The first argument bounds the
number of iterations. -/
def shift_back_loop : Nat → HashMap K V → Nat → HashMap K V
  | 0, t, _ => t
  | n + 1, t, i =>
    if i < t.capacity_ then
      match slot t i with
      | none => t
      | some e => if 0 < e.cost then shift_back_loop n (shift_step t i e) (i + 1) else t
    else t

/-- The method `shift_back`. -/
def shift_back (t : HashMap K V) (ind : Nat) : HashMap K V :=
  shift_back_loop (t.capacity_ - ind) t ind

/-- The body of the `for` loop of `resize`: every occupied old slot, in array
order, is passed to `insert_entry` (given here as `ins`). -/
def reinsert (ins : HashMap K V → map_entry K V → Option (HashMap K V)) :
    List (Option (map_entry K V)) → HashMap K V → Option (HashMap K V)
  | [], t => some t
  | none :: rest, t => reinsert ins rest t
  | some e :: rest, t =>
    match ins t e with
    | none => none
    | some t1 => reinsert ins rest t1

/-- The method `resize`, relative to the insertion procedure `ins`: a fresh
array of twice the capacity, `size_ = 0`, then re-insertion of the old slots. -/
def resize_with (ins : HashMap K V → map_entry K V → Option (HashMap K V))
    (t : HashMap K V) : Option (HashMap K V) :=
  reinsert ins (t.data_.take t.capacity_)
    { data_ := List.replicate (t.capacity_ * 2) none, size_ := 0,
      capacity_ := t.capacity_ * 2 }

/-- The `for` loop of `insert_entry`, at probe index `h` with candidate
`entry`.  `none` means the fuel did not suffice. -/
def insert_loop (hash : K → Nat) : Nat → HashMap K V → map_entry K V → Nat →
    Option (HashMap K V)
  | 0, _, _, _ => none
  | fuel + 1, t, entry, h =>
    let afterResize : Option (HashMap K V × map_entry K V × Nat) :=
      if h = t.capacity_ then
        match resize_with
            (fun t1 e1 => insert_loop hash fuel t1 { e1 with cost := 0 }
              (hash e1.key % t1.capacity_)) t with
        | none => none
        | some t1 => some (t1, { entry with cost := 0 }, hash entry.key % t1.capacity_)
      else some (t, entry, h)
    match afterResize with
    | none => none
    | some (t, entry, h) =>
      match slot t h with
      | none => some { t with size_ := t.size_ + 1, data_ := t.data_.set h (some entry) }
      | some occ =>
        if occ.cost < entry.cost then
          insert_loop hash fuel { t with data_ := t.data_.set h (some entry) }
            { occ with cost := occ.cost + 1 } (h + 1)
        else
          insert_loop hash fuel t { entry with cost := entry.cost + 1 } (h + 1)

/-- The method `insert_entry`. -/
def insert_entry (hash : K → Nat) (fuel : Nat) (t : HashMap K V) (entry : map_entry K V) :
    Option (HashMap K V) :=
  insert_loop hash fuel t { entry with cost := 0 } (hash entry.key % t.capacity_)

/-- The method `resize`. -/
def resize (hash : K → Nat) (fuel : Nat) (t : HashMap K V) : Option (HashMap K V) :=
  resize_with (insert_entry hash fuel) t

/-- The skipping loop shared by the iterator constructors and `operator++`:
advance `ind` while `ind < capacity_` and slot `ind` is empty.  The first
argument bounds the number of iterations. -/
def skip_empty (t : HashMap K V) : Nat → Nat → Nat
  | 0, ind => ind
  | n + 1, ind =>
    if ind < t.capacity_ then
      match slot t ind with
      | none => skip_empty t n (ind + 1)
      | some _ => ind
    else ind

/-- The constructor `iterator(HashMap*, size_t ind)`; an iterator into a given
table is represented by its index. -/
def iterator_at (t : HashMap K V) (ind : Nat) : Nat :=
  skip_empty t (t.capacity_ - ind) ind

/-- The method `begin()`. -/
def begin_ (t : HashMap K V) : Nat := iterator_at t 0

/-- The method `end()`. -/
def end_ (t : HashMap K V) : Nat := iterator_at t t.capacity_

/-- The iterator `operator++`. -/
def iterator_next (t : HashMap K V) (ind : Nat) : Nat :=
  skip_empty t (t.capacity_ - (ind + 1)) (ind + 1)

/-- The iterator `operator*`: the pair stored in the slot the iterator points
to (`none` where the program would dereference an empty slot). -/
def deref (t : HashMap K V) (it : Nat) : Option (K × V) :=
  (slot t it).map fun e => (e.key, e.value)

/-- The test `ind == capacity_ || !data_[ind] || !(data_[ind]->key() == key)`
used by `find`, `operator[]` and `at`. -/
def misses [DecidableEq K] (t : HashMap K V) (key : K) (ind : Nat) : Bool :=
  decide (ind = t.capacity_) ||
    match slot t ind with
    | none => true
    | some e => !decide (e.key = key)

/-- The method `find`. -/
def find [DecidableEq K] (hash : K → Nat) (t : HashMap K V) (key : K) : Nat :=
  let ind := find_place hash t key
  iterator_at t (if misses t key ind then t.capacity_ else ind)

/-- The method `insert`: nothing happens when `find` hits, otherwise the pair
is handed to `insert_entry`. -/
def insert [DecidableEq K] (hash : K → Nat) (fuel : Nat) (t : HashMap K V) (p : K × V) :
    Option (HashMap K V) :=
  if find hash t p.1 ≠ end_ t then some t
  else insert_entry hash fuel t { key := p.1, value := p.2, cost := 0 }

/-- The method `erase`. -/
def erase [DecidableEq K] (hash : K → Nat) (t : HashMap K V) (key : K) : HashMap K V :=
  let ind := find_place hash t key
  if misses t key ind then t
  else shift_back { t with size_ := t.size_ - 1, data_ := t.data_.set ind none } (ind + 1)

/-- The method `operator[]`: the table after the call and the index of the slot
whose value is returned by reference. -/
def index [DecidableEq K] [Inhabited V] (hash : K → Nat) (fuel : Nat) (t : HashMap K V)
    (key : K) : Option (HashMap K V × Nat) :=
  let ind := find_place hash t key
  let r := if misses t key ind then insert hash fuel t (key, default) else some t
  match r with
  | none => none
  | some t1 => some (t1, find_place hash t1 key)

/-- Assignment through the reference returned by `operator[]`:
`data_[ind]->value() = v`. -/
def assign (t : HashMap K V) (ind : Nat) (v : V) : HashMap K V :=
  match slot t ind with
  | none => t
  | some e => { t with data_ := t.data_.set ind (some { e with value := v }) }

/-- The exception thrown by `at` (`std::out_of_range`). -/
inductive Error where
  | out_of_range
deriving DecidableEq

/-- The method `at`; the table is passed `const` and is not returned.  The
result `Except.ok none` stands for reading the value of an empty slot. -/
def at_ [DecidableEq K] (hash : K → Nat) (t : HashMap K V) (key : K) :
    Except Error (Option V) :=
  let ind := find_place hash t key
  if misses t key ind then Except.error Error.out_of_range
  else
    let ind1 := find_place hash t key
    Except.ok ((slot t ind1).map fun e => e.value)

/-- The method `clear`. -/
def clear (t : HashMap K V) : HashMap K V :=
  { t with size_ := 0,
           data_ := (List.range t.capacity_).foldl (fun d i => d.set i none) t.data_ }

/-- Number of occupied cells of a slot array. -/
def occupied (d : List (Option (map_entry K V))) : Nat :=
  d.countP fun x => x.isSome

/-- The tables reachable from the empty table by `insert`, `erase`,
`operator[]` (with or without an assignment through the returned reference)
and `clear`. -/
inductive Reachable [DecidableEq K] [Inhabited V] (hash : K → Nat) : HashMap K V → Prop
  | empty : Reachable hash HashTable.empty
  | insert {t t1 : HashMap K V} {f : Nat} {p : K × V} :
      Reachable hash t → HashTable.insert hash f t p = some t1 → Reachable hash t1
  | erase {t : HashMap K V} (k : K) : Reachable hash t → Reachable hash (HashTable.erase hash t k)
  | index {t t1 : HashMap K V} {f : Nat} {k : K} {i : Nat} :
      Reachable hash t → HashTable.index hash f t k = some (t1, i) → Reachable hash t1
  | assign {t t1 : HashMap K V} {f : Nat} {k : K} {i : Nat} (v : V) :
      Reachable hash t → HashTable.index hash f t k = some (t1, i) →
      Reachable hash (HashTable.assign t1 i v)
  | clear {t : HashMap K V} : Reachable hash t → Reachable hash (HashTable.clear t)

/-- The constructors `HashMap(initializer_list)` and `HashMap(begin, end)`
applied to a list of pairs, continued from table `t`: `insert` of every pair
in turn. -/
def insert_list [DecidableEq K] (hash : K → Nat) (fuel : Nat) :
    HashMap K V → List (K × V) → Option (HashMap K V)
  | t, [] => some t
  | t, p :: ps =>
    match insert hash fuel t p with
    | none => none
    | some t1 => insert_list hash fuel t1 ps

/-- A sequence of `erase` calls, one for every key of the list in turn. -/
def erase_list [DecidableEq K] (hash : K → Nat) : HashMap K V → List K → HashMap K V
  | t, [] => t
  | t, k :: ks => erase_list hash (erase hash t k) ks

/-- Decidable test whether some slot of the table holds key `k`. -/
def contains_key [DecidableEq K] (t : HashMap K V) (k : K) : Bool :=
  t.data_.any fun o =>
    match o with
    | none => false
    | some e => decide (e.key = k)

/-- The pair `(k, v)` is held by some slot of the table. -/
def Stored (t : HashMap K V) (k : K) (v : V) : Prop :=
  ∃ i c, slot t i = some { key := k, value := v, cost := c }

/-- Some slot of the table holds key `k`. -/
def HasKey (t : HashMap K V) (k : K) : Prop :=
  ∃ i e, slot t i = some e ∧ e.key = k

/-- The representation invariant of the table: the array has `capacity_ ≥ 1`
cells, `size_` counts the occupied ones, every stored cost is the distance to
the home index, probe paths have no holes, home indices are sorted, and keys
are unique. -/
structure Inv (hash : K → Nat) (t : HashMap K V) : Prop where
  len : t.data_.length = t.capacity_
  cap_pos : 0 < t.capacity_
  size_eq : t.size_ = occupied t.data_
  home : ∀ i e, slot t i = some e → e.cost ≤ i ∧ i - e.cost = hash e.key % t.capacity_
  dense : ∀ i e, slot t i = some e → ∀ j, i - e.cost ≤ j → j ≤ i → slot t j ≠ none
  sorted : ∀ i j ei ej, slot t i = some ei → slot t j = some ej → i < j →
    i - ei.cost ≤ j - ej.cost
  uniq : ∀ i j ei ej, slot t i = some ei → slot t j = some ej → ei.key = ej.key → i = j

/-- The invariant of the table while `shift_back` runs: slot `g` is the gap,
and probe paths have no hole other than the gap. -/
structure HoleInv (hash : K → Nat) (t : HashMap K V) (g : Nat) : Prop where
  len : t.data_.length = t.capacity_
  hole : slot t g = none
  hole_lt : g < t.capacity_
  size_eq : t.size_ = occupied t.data_
  home : ∀ i e, slot t i = some e → e.cost ≤ i ∧ i - e.cost = hash e.key % t.capacity_
  dense : ∀ i e, slot t i = some e → ∀ j, i - e.cost ≤ j → j ≤ i → j ≠ g → slot t j ≠ none
  sorted : ∀ i j ei ej, slot t i = some ei → slot t j = some ej → i < j →
    i - ei.cost ≤ j - ej.cost
  uniq : ∀ i j ei ej, slot t i = some ei → slot t j = some ej → ei.key = ej.key → i = j

/-- Table `t1` arises from `t` by moving entries towards lower indices: same
capacity and size, the same stored pairs, none at a higher index. -/
structure Shifted (t t1 : HashMap K V) : Prop where
  cap_eq : t1.capacity_ = t.capacity_
  size_eq : t1.size_ = t.size_
  back : ∀ i e, slot t1 i = some e →
    ∃ i0 c0, i ≤ i0 ∧ slot t i0 = some { key := e.key, value := e.value, cost := c0 }
  forth : ∀ i e, slot t i = some e →
    ∃ i1 c1, i1 ≤ i ∧ slot t1 i1 = some { key := e.key, value := e.value, cost := c1 }

/-- The state of the probe loop of `insert_entry` at index `h` with candidate
`e`: the table is valid, the candidate's cost is its distance from home, the
slots from its home up to `h` are occupied, no entry before `h` has a larger
home index, and the candidate's key is not in the table. -/
structure ScanInv (hash : K → Nat) (t : HashMap K V) (e : map_entry K V) (h : Nat) : Prop where
  inv : Inv hash t
  h_le : h ≤ t.capacity_
  cost_le : e.cost ≤ h
  home : h - e.cost = hash e.key % t.capacity_
  filled : ∀ j, h - e.cost ≤ j → j < h → slot t j ≠ none
  before : ∀ i ei, slot t i = some ei → i < h → i - ei.cost ≤ h - e.cost
  fresh : ∀ i ei, slot t i = some ei → ei.key ≠ e.key

/-- What `insert_entry` achieves on table `t` with entry `e`, giving `t1`. -/
structure Post (hash : K → Nat) (t : HashMap K V) (e : map_entry K V) (t1 : HashMap K V) :
    Prop where
  inv : Inv hash t1
  cap : ∃ n, t1.capacity_ = t.capacity_ * 2 ^ n
  size : t1.size_ = t.size_ + 1
  stored : ∀ k v, Stored t1 k v ↔ (Stored t k v ∨ (k = e.key ∧ v = e.value))

/-- The part of the loop body of `insert_entry` after the capacity test
(lines `if (!data_[h])` to `++entry->cost`), followed by the remaining
iterations run with fuel `f`. -/
def probe_body (hash : K → Nat) (f : Nat) (t : HashMap K V) (entry : map_entry K V) (h : Nat) :
    Option (HashMap K V) :=
  match slot t h with
  | none => some { t with size_ := t.size_ + 1, data_ := t.data_.set h (some entry) }
  | some occ =>
    if occ.cost < entry.cost then
      insert_loop hash f { t with data_ := t.data_.set h (some entry) }
        { occ with cost := occ.cost + 1 } (h + 1)
    else
      insert_loop hash f t { entry with cost := entry.cost + 1 } (h + 1)

/-- All hash values of stored keys are at most `M`. -/
def HashBound (hash : K → Nat) (M : Nat) (t : HashMap K V) : Prop :=
  ∀ i e, slot t i = some e → hash e.key ≤ M

/-- The call `f` returns `t1` whenever it is given enough fuel. -/
def Eventually (f : Nat → Option (HashMap K V)) (t1 : HashMap K V) : Prop :=
  ∃ N, ∀ n, N ≤ n → f n = some t1

/-- The loop of `insert_entry` with its `resize` branch cut off: `true` when
the probe index reaches `capacity_` (the test `h == capacity_` succeeds),
`false` when an empty slot is reached first.  The first argument bounds the
number of iterations. -/
def probe_overflows : Nat → HashMap K V → map_entry K V → Nat → Bool
  | 0, _, _, _ => true
  | n + 1, t, entry, h =>
    if h = t.capacity_ then true
    else match slot t h with
      | none => false
      | some occ =>
        if occ.cost < entry.cost then
          probe_overflows n { t with data_ := t.data_.set h (some entry) }
            { occ with cost := occ.cost + 1 } (h + 1)
        else
          probe_overflows n t { entry with cost := entry.cost + 1 } (h + 1)

/-- Whether the probe scan of `insert_entry` for key `k`, started on table
`t`, reaches index `capacity_`. -/
def insert_overflows (hash : K → Nat) (t : HashMap K V) (k : K) (v : V) : Bool :=
  probe_overflows (t.capacity_ + 1) t { key := k, value := v, cost := 0 }
    (hash k % t.capacity_)

/-- The loop `for (it = begin(); it != end(); ++it)` continued from iterator
`it`, allowed at most `n` increments: the iterators visited before `end()`,
or `none` when `end()` is not reached within `n` increments. -/
def traverse (t : HashMap K V) : Nat → Nat → Option (List Nat)
  | 0, it => if it = end_ t then some [] else none
  | n + 1, it =>
    if it = end_ t then some []
    else (traverse t n (iterator_next t it)).map fun l => it :: l

/-- The indices of the occupied slots from index `i` on, in ascending order. -/
def occupied_from (t : HashMap K V) (i : Nat) : List Nat :=
  (List.range' i (t.capacity_ - i)).filter fun j => (slot t j).isSome

/-- The indices of the occupied slots, in ascending order. -/
def occupied_indices (t : HashMap K V) : List Nat :=
  (List.range t.capacity_).filter fun j => (slot t j).isSome

/-- The pairs with keys `2^1 - 1, 2^2 - 1, ..., 2^n - 1`, in this order; `v i`
is the value that comes with the key `2^(i+1) - 1`. -/
def pow_pairs (v : Nat → V) (n : Nat) : List (Nat × V) :=
  (List.range n).map fun i => (2 ^ (i + 1) - 1, v i)

/-- A valid table under the identity hash with capacity `2^n` and size `n`,
in which every entry sits in the slot numbered by its key with cost 0, and the
last slot holds key `2^n - 1`. -/
structure PowTable (n : Nat) (t : HashMap Nat V) : Prop where
  inv : Inv (fun k : Nat => k) t
  cap : t.capacity_ = 2 ^ n
  size : t.size_ = n
  diag : ∀ i e, slot t i = some e → e.key = i ∧ e.cost = 0
  last : ∃ w, slot t (2 ^ n - 1) = some { key := 2 ^ n - 1, value := w, cost := 0 }

/-- What can go wrong in an execution: a slot access outside the array, an
unsigned subtraction below zero, `% capacity_` with `capacity_ = 0`, reading
the value of an empty `optional`; `out_of_fuel` belongs to the model. -/
inductive Fault where
  | out_of_bounds
  | underflow
  | zero_modulus
  | empty_optional
  | out_of_fuel
deriving DecidableEq

/-- A checked read of `data_[i]`. -/
def read_slot (t : HashMap K V) (i : Nat) : Except Fault (Option (map_entry K V)) :=
  if i < t.data_.length then Except.ok (slot t i) else Except.error Fault.out_of_bounds

/-- A checked write to `data_[i]`. -/
def write_slot (t : HashMap K V) (i : Nat) (x : Option (map_entry K V)) :
    Except Fault (HashMap K V) :=
  if i < t.data_.length then Except.ok { t with data_ := t.data_.set i x }
  else Except.error Fault.out_of_bounds

/-- The expression `hash(key) % capacity_`, checked. -/
def home_index (hash : K → Nat) (t : HashMap K V) (key : K) : Except Fault Nat :=
  if t.capacity_ = 0 then Except.error Fault.zero_modulus
  else Except.ok (hash key % t.capacity_)

/-- The loop of `find_place` with every slot access checked. -/
def find_place_loop_checked [DecidableEq K] (t : HashMap K V) (key : K) :
    Nat → Nat → Except Fault Nat
  | 0, _ => Except.error Fault.out_of_fuel
  | n + 1, h =>
    if h = t.capacity_ then Except.ok h
    else match read_slot t h with
      | Except.error x => Except.error x
      | Except.ok none => Except.ok h
      | Except.ok (some e) =>
        if e.key = key then Except.ok h else find_place_loop_checked t key n (h + 1)

/-- The method `find_place`, checked. -/
def find_place_checked [DecidableEq K] (hash : K → Nat) (t : HashMap K V) (key : K) :
    Except Fault Nat :=
  match home_index hash t key with
  | Except.error x => Except.error x
  | Except.ok h => find_place_loop_checked t key (t.capacity_ + 1) h

/-- The body of the loop of `shift_back`, checked: the write to `data_[i]`,
the subtraction `i - 1`, the write to `data_[i - 1]` and the reset of
`data_[i]`. -/
def shift_step_checked (t : HashMap K V) (i : Nat) (e : map_entry K V) :
    Except Fault (HashMap K V) :=
  let e1 : map_entry K V := { e with cost := e.cost - 1 }
  match write_slot t i (some e1) with
  | Except.error x => Except.error x
  | Except.ok t1 =>
    if i = 0 then Except.error Fault.underflow
    else match write_slot t1 (i - 1) (some e1) with
      | Except.error x => Except.error x
      | Except.ok t2 => write_slot t2 i none

/-- The loop of `shift_back`, checked. -/
def shift_back_loop_checked : Nat → HashMap K V → Nat → Except Fault (HashMap K V)
  | 0, t, i => if i < t.capacity_ then Except.error Fault.out_of_fuel else Except.ok t
  | n + 1, t, i =>
    if i < t.capacity_ then
      match read_slot t i with
      | Except.error x => Except.error x
      | Except.ok none => Except.ok t
      | Except.ok (some e) =>
        if 0 < e.cost then
          match shift_step_checked t i e with
          | Except.error x => Except.error x
          | Except.ok t1 => shift_back_loop_checked n t1 (i + 1)
        else Except.ok t
    else Except.ok t

/-- The method `shift_back`, checked. -/
def shift_back_checked (t : HashMap K V) (ind : Nat) : Except Fault (HashMap K V) :=
  shift_back_loop_checked (t.capacity_ - ind) t ind

/-- The `for` loop of `resize`, checked, relative to the insertion `ins`. -/
def reinsert_checked (ins : HashMap K V → map_entry K V → Except Fault (HashMap K V)) :
    List (Option (map_entry K V)) → HashMap K V → Except Fault (HashMap K V)
  | [], t => Except.ok t
  | none :: rest, t => reinsert_checked ins rest t
  | some e :: rest, t =>
    match ins t e with
    | Except.error x => Except.error x
    | Except.ok t1 => reinsert_checked ins rest t1

/-- The method `resize`, checked, relative to the insertion `ins`: the reads
`old_data[i]` for `i < old_capacity` must lie inside the old array. -/
def resize_with_checked (ins : HashMap K V → map_entry K V → Except Fault (HashMap K V))
    (t : HashMap K V) : Except Fault (HashMap K V) :=
  if t.capacity_ ≤ t.data_.length then
    reinsert_checked ins (t.data_.take t.capacity_)
      { data_ := List.replicate (t.capacity_ * 2) none, size_ := 0,
        capacity_ := t.capacity_ * 2 }
  else Except.error Fault.out_of_bounds

/-- The part of the loop body of `insert_entry` after the capacity test,
checked, with the remaining iterations given as `continue_`. -/
def probe_body_checked
    (continue_ : HashMap K V → map_entry K V → Nat → Except Fault (HashMap K V))
    (t : HashMap K V) (entry : map_entry K V) (h : Nat) : Except Fault (HashMap K V) :=
  match read_slot t h with
  | Except.error x => Except.error x
  | Except.ok none =>
    match write_slot { t with size_ := t.size_ + 1 } h (some entry) with
    | Except.error x => Except.error x
    | Except.ok t1 => Except.ok t1
  | Except.ok (some occ) =>
    if occ.cost < entry.cost then
      match write_slot t h (some entry) with
      | Except.error x => Except.error x
      | Except.ok t1 => continue_ t1 { occ with cost := occ.cost + 1 } (h + 1)
    else continue_ t { entry with cost := entry.cost + 1 } (h + 1)

/-- The `for` loop of `insert_entry`, checked. -/
def insert_loop_checked (hash : K → Nat) :
    Nat → HashMap K V → map_entry K V → Nat → Except Fault (HashMap K V)
  | 0, _, _, _ => Except.error Fault.out_of_fuel
  | fuel + 1, t, entry, h =>
    if h = t.capacity_ then
      match resize_with_checked
          (fun t1 e1 =>
            match home_index hash t1 e1.key with
            | Except.error x => Except.error x
            | Except.ok h1 => insert_loop_checked hash fuel t1 { e1 with cost := 0 } h1) t with
      | Except.error x => Except.error x
      | Except.ok t1 =>
        match home_index hash t1 entry.key with
        | Except.error x => Except.error x
        | Except.ok h1 =>
          probe_body_checked (insert_loop_checked hash fuel) t1 { entry with cost := 0 } h1
    else probe_body_checked (insert_loop_checked hash fuel) t entry h

/-- The method `insert_entry`, checked. -/
def insert_entry_checked (hash : K → Nat) (fuel : Nat) (t : HashMap K V)
    (entry : map_entry K V) : Except Fault (HashMap K V) :=
  match home_index hash t entry.key with
  | Except.error x => Except.error x
  | Except.ok h => insert_loop_checked hash fuel t { entry with cost := 0 } h

/-- The skipping loop of the iterators, checked. -/
def skip_empty_checked (t : HashMap K V) : Nat → Nat → Except Fault Nat
  | 0, ind => if ind < t.capacity_ then Except.error Fault.out_of_fuel else Except.ok ind
  | n + 1, ind =>
    if ind < t.capacity_ then
      match read_slot t ind with
      | Except.error x => Except.error x
      | Except.ok none => skip_empty_checked t n (ind + 1)
      | Except.ok (some _) => Except.ok ind
    else Except.ok ind

/-- The test `ind == capacity_ || !data_[ind] || !(data_[ind]->key() == key)`,
checked. -/
def misses_checked [DecidableEq K] (t : HashMap K V) (key : K) (ind : Nat) :
    Except Fault Bool :=
  if ind = t.capacity_ then Except.ok true
  else match read_slot t ind with
    | Except.error x => Except.error x
    | Except.ok none => Except.ok true
    | Except.ok (some e) => Except.ok (!decide (e.key = key))

/-- The method `find`, checked. -/
def find_checked [DecidableEq K] (hash : K → Nat) (t : HashMap K V) (key : K) :
    Except Fault Nat :=
  match find_place_checked hash t key with
  | Except.error x => Except.error x
  | Except.ok ind =>
    match misses_checked t key ind with
    | Except.error x => Except.error x
    | Except.ok m =>
      skip_empty_checked t (t.capacity_ - (if m then t.capacity_ else ind))
        (if m then t.capacity_ else ind)

/-- The method `insert`, checked. -/
def insert_checked [DecidableEq K] (hash : K → Nat) (fuel : Nat) (t : HashMap K V)
    (p : K × V) : Except Fault (HashMap K V) :=
  match find_checked hash t p.1 with
  | Except.error x => Except.error x
  | Except.ok it =>
    match skip_empty_checked t (t.capacity_ - t.capacity_) t.capacity_ with
    | Except.error x => Except.error x
    | Except.ok e =>
      if it ≠ e then Except.ok t
      else insert_entry_checked hash fuel t { key := p.1, value := p.2, cost := 0 }

/-- The method `erase`, checked; `--size_` must not be executed at 0. -/
def erase_checked [DecidableEq K] (hash : K → Nat) (t : HashMap K V) (key : K) :
    Except Fault (HashMap K V) :=
  match find_place_checked hash t key with
  | Except.error x => Except.error x
  | Except.ok ind =>
    match misses_checked t key ind with
    | Except.error x => Except.error x
    | Except.ok true => Except.ok t
    | Except.ok false =>
      if t.size_ = 0 then Except.error Fault.underflow
      else match write_slot { t with size_ := t.size_ - 1 } ind none with
        | Except.error x => Except.error x
        | Except.ok t1 => shift_back_checked t1 (ind + 1)

/-- The method `operator[]`, checked: the final `data_[ind]->value()` needs
`ind` inside the array and the slot occupied. -/
def index_checked [DecidableEq K] [Inhabited V] (hash : K → Nat) (fuel : Nat)
    (t : HashMap K V) (key : K) : Except Fault (HashMap K V × Nat) :=
  match find_place_checked hash t key with
  | Except.error x => Except.error x
  | Except.ok ind =>
    match misses_checked t key ind with
    | Except.error x => Except.error x
    | Except.ok m =>
      match (if m then insert_checked hash fuel t (key, default) else Except.ok t) with
      | Except.error x => Except.error x
      | Except.ok t1 =>
        match find_place_checked hash t1 key with
        | Except.error x => Except.error x
        | Except.ok ind1 =>
          match read_slot t1 ind1 with
          | Except.error x => Except.error x
          | Except.ok none => Except.error Fault.empty_optional
          | Except.ok (some _) => Except.ok (t1, ind1)

/-! ## Cells and counting -/

theorem cell_set (d : List (Option (map_entry K V))) (i j : Nat) (x : Option (map_entry K V)) :
    cell (d.set i x) j = if i = j ∧ i < d.length then x else cell d j := by
  unfold cell
  rw [List.getElem?_set]
  by_cases hij : i = j
  · subst hij
    by_cases hl : i < d.length
    · simp [hl]
    · have : d[i]? = none := List.getElem?_eq_none (by omega)
      simp [hl, this]
  · simp [hij]

theorem cell_of_length_le (d : List (Option (map_entry K V))) (i : Nat) (h : d.length ≤ i) :
    cell d i = none := by
  unfold cell
  simp [List.getElem?_eq_none h]

theorem cell_replicate (n i : Nat) :
    cell (List.replicate n (none : Option (map_entry K V))) i = none := by
  unfold cell
  by_cases h : i < n
  · simp [h]
  · simp [h]

theorem cell_cons_succ (x : Option (map_entry K V)) (d : List (Option (map_entry K V)))
    (i : Nat) : cell (x :: d) (i + 1) = cell d i := by
  simp [cell]

theorem cell_cons_zero (x : Option (map_entry K V)) (d : List (Option (map_entry K V))) :
    cell (x :: d) 0 = x := by
  simp [cell]

theorem occupied_set (d : List (Option (map_entry K V))) (i : Nat)
    (x : Option (map_entry K V)) (h : i < d.length) :
    occupied (d.set i x) + (if (cell d i).isSome then 1 else 0)
      = occupied d + (if x.isSome then 1 else 0) := by
  induction d generalizing i with
  | nil => simp at h
  | cons a d ih =>
    cases i with
    | zero =>
      simp only [List.set_cons_zero, occupied, List.countP_cons, cell_cons_zero]
      omega
    | succ i =>
      have hi : i < d.length := by simpa using h
      have := ih i hi
      simp only [List.set_cons_succ, occupied, List.countP_cons, cell_cons_succ] at this ⊢
      omega

theorem occupied_le_length (d : List (Option (map_entry K V))) : occupied d ≤ d.length :=
  List.countP_le_length _

/-- A fully occupied index range is no longer than the number of occupied cells. -/
theorem occupied_ge_range (d : List (Option (map_entry K V))) (a b : Nat)
    (hb : b ≤ d.length) (h : ∀ j, a ≤ j → j < b → cell d j ≠ none) :
    b - a ≤ occupied d := by
  induction d generalizing a b with
  | nil => simp at hb; omega
  | cons x d ih =>
    cases b with
    | zero => omega
    | succ b =>
      have hb1 : b ≤ d.length := by simpa using hb
      cases a with
      | zero =>
        have h0 : x ≠ none := by simpa [cell_cons_zero] using h 0 (le_refl 0) (by omega)
        have := ih 0 b hb1 (fun j _ hj => by
          have := h (j + 1) (by omega) (by omega)
          simpa [cell_cons_succ] using this)
        have hx : x.isSome = true := by
          cases x with
          | none => exact absurd rfl h0
          | some _ => rfl
        simp only [occupied, List.countP_cons, hx] at this ⊢
        simp
        omega
      | succ a =>
        have := ih a b hb1 (fun j hj1 hj2 => by
          have := h (j + 1) (by omega) (by omega)
          simpa [cell_cons_succ] using this)
        simp only [occupied, List.countP_cons] at this ⊢
        omega

/-! ## Slots of a table -/

theorem slot_lt_of_some {hash : K → Nat} {t : HashMap K V} (hI : Inv hash t) {i : Nat}
    {e : map_entry K V} (h : slot t i = some e) : i < t.capacity_ := by
  by_contra hc
  have : slot t i = none := cell_of_length_le _ _ (by rw [hI.len]; omega)
  rw [this] at h
  cases h

theorem slot_cap {hash : K → Nat} {t : HashMap K V} (hI : Inv hash t) :
    slot t t.capacity_ = none :=
  cell_of_length_le _ _ (by rw [hI.len])

/-! ## The probe engine -/

/-- If every slot of `[h, i)` is occupied by another key and slot `i` holds
`key`, the probe loop started at `h` stops at `i`. -/
theorem find_place_loop_hit [DecidableEq K] (t : HashMap K V) (key : K) (i : Nat)
    (e : map_entry K V) (hi : slot t i = some e) (hk : e.key = key) (hc : i ≠ t.capacity_) :
    ∀ n h, h ≤ i → i - h < n →
      (∀ j, h ≤ j → j < i → j ≠ t.capacity_ ∧ ∃ e1, slot t j = some e1 ∧ e1.key ≠ key) →
      find_place_loop t key n h = i := by
  intro n
  induction n with
  | zero => intro h _ hn; omega
  | succ n ih =>
    intro h hle hn hmid
    by_cases hhi : h = i
    · subst hhi
      simp [find_place_loop, hc, hi, hk]
    · have hlt : h < i := by omega
      obtain ⟨hc1, e1, he1, hk1⟩ := hmid h (le_refl _) hlt
      have := ih (h + 1) (by omega) (by omega) (fun j hj1 hj2 => hmid j (by omega) hj2)
      simp [find_place_loop, hc1, he1, hk1, this]

/-- The probe loop stops at an index where `misses` holds, when no slot holds
`key`. -/
theorem find_place_loop_miss [DecidableEq K] (t : HashMap K V) (key : K)
    (hno : ∀ i e, slot t i = some e → e.key ≠ key) :
    ∀ n h, h ≤ t.capacity_ → t.capacity_ - h < n →
      misses t key (find_place_loop t key n h) = true := by
  intro n
  induction n with
  | zero => intro h _ hn; omega
  | succ n ih =>
    intro h hle hn
    by_cases hc : h = t.capacity_
    · simp [find_place_loop, hc, misses]
    · cases hs : slot t h with
      | none => simp [find_place_loop, hc, hs, misses]
      | some e1 =>
        have hk1 := hno h e1 hs
        have := ih (h + 1) (by omega) (by omega)
        simp [find_place_loop, hc, hs, hk1, this]

theorem find_place_hit [DecidableEq K] {hash : K → Nat} {t : HashMap K V} (hI : Inv hash t)
    {i : Nat} {e : map_entry K V} (hi : slot t i = some e) :
    find_place hash t e.key = i := by
  have hlt := slot_lt_of_some hI hi
  obtain ⟨hc, hh⟩ := hI.home i e hi
  unfold find_place
  rw [← hh]
  apply find_place_loop_hit t e.key i e hi rfl (by omega)
  · omega
  · omega
  · intro j hj1 hj2
    refine ⟨by omega, ?_⟩
    have hne := hI.dense i e hi j hj1 (by omega)
    cases hs : slot t j with
    | none => exact absurd hs hne
    | some e1 =>
      refine ⟨e1, rfl, fun hk => ?_⟩
      have := hI.uniq j i e1 e hs hi hk
      omega

theorem find_place_miss [DecidableEq K] {hash : K → Nat} {t : HashMap K V} (hI : Inv hash t)
    {key : K} (hno : ¬ HasKey t key) :
    misses t key (find_place hash t key) = true := by
  unfold find_place
  apply find_place_loop_miss t key (fun i e hs hk => hno ⟨i, e, hs, hk⟩)
  · exact le_of_lt (Nat.mod_lt _ hI.cap_pos)
  · omega

theorem misses_hit [DecidableEq K] {hash : K → Nat} {t : HashMap K V} (hI : Inv hash t)
    {i : Nat} {e : map_entry K V} (hi : slot t i = some e) :
    misses t e.key i = false := by
  have hlt := slot_lt_of_some hI hi
  have : i ≠ t.capacity_ := by omega
  simp [misses, hi, this]

theorem misses_false_hasKey [DecidableEq K] {t : HashMap K V} {key : K} {i : Nat}
    (h : misses t key i = false) : ∃ e, slot t i = some e ∧ e.key = key ∧ i ≠ t.capacity_ := by
  unfold misses at h
  cases hs : slot t i with
  | none => simp [hs] at h
  | some e =>
    simp [hs] at h
    exact ⟨e, rfl, h.2, h.1⟩

/-! ## Iterators -/

theorem skip_empty_of_some (t : HashMap K V) (n i : Nat) (e : map_entry K V)
    (h : slot t i = some e) : skip_empty t n i = i := by
  cases n with
  | zero => rfl
  | succ n => simp [skip_empty, h]

theorem iterator_at_of_some (t : HashMap K V) (i : Nat) (e : map_entry K V)
    (h : slot t i = some e) : iterator_at t i = i :=
  skip_empty_of_some t _ i e h

theorem end_eq (t : HashMap K V) : end_ t = t.capacity_ := by
  simp [end_, iterator_at, skip_empty]

theorem find_hit [DecidableEq K] {hash : K → Nat} {t : HashMap K V} (hI : Inv hash t)
    {i : Nat} {e : map_entry K V} (hi : slot t i = some e) :
    find hash t e.key = i := by
  unfold find
  simp only [find_place_hit hI hi, misses_hit hI hi]
  exact iterator_at_of_some t i e hi

theorem find_miss [DecidableEq K] {hash : K → Nat} {t : HashMap K V} (hI : Inv hash t)
    {key : K} (hno : ¬ HasKey t key) :
    find hash t key = end_ t := by
  unfold find
  simp only [find_place_miss hI hno]
  rfl

theorem find_ne_end_iff [DecidableEq K] {hash : K → Nat} {t : HashMap K V} (hI : Inv hash t)
    (key : K) : find hash t key ≠ end_ t ↔ HasKey t key := by
  constructor
  · intro h
    by_contra hno
    exact h (find_miss hI hno)
  · rintro ⟨i, e, hs, rfl⟩
    rw [find_hit hI hs, end_eq]
    exact Nat.ne_of_lt (slot_lt_of_some hI hs)

/-! ## Backward-shift deletion -/

theorem cell_shift (d : List (Option (map_entry K V))) (g j : Nat) (e1 : map_entry K V)
    (hg : g + 1 < d.length) :
    cell (((d.set (g + 1) (some e1)).set (g + 1 - 1) (some e1)).set (g + 1) none) j
      = if j = g + 1 then none else if j = g then some e1 else cell d j := by
  simp only [cell_set, List.length_set, Nat.add_sub_cancel]
  by_cases h1 : j = g + 1
  · subst h1; simp [hg]
  · by_cases h2 : j = g
    · subst h2; simp; omega
    · have a : ¬ (g + 1 = j) := fun h => h1 h.symm
      have b : ¬ (g = j) := fun h => h2 h.symm
      simp [h1, h2, a, b]

theorem occupied_shift (d : List (Option (map_entry K V))) (g : Nat) (e e1 : map_entry K V)
    (hg : g + 1 < d.length) (hgap : cell d g = none) (he : cell d (g + 1) = some e) :
    occupied (((d.set (g + 1) (some e1)).set (g + 1 - 1) (some e1)).set (g + 1) none)
      = occupied d := by
  simp only [Nat.add_sub_cancel]
  have h1 := occupied_set d (g + 1) (some e1) hg
  have h2 := occupied_set (d.set (g + 1) (some e1)) g (some e1) (by simp; omega)
  have h3 := occupied_set ((d.set (g + 1) (some e1)).set g (some e1)) (g + 1) none
    (by simp; omega)
  have c2 : cell (d.set (g + 1) (some e1)) g = none := by
    rw [cell_set]; simp [hgap]
  have c3 : cell ((d.set (g + 1) (some e1)).set g (some e1)) (g + 1) = some e1 := by
    simp only [cell_set, List.length_set]
    simp [hg]
  rw [he] at h1
  rw [c2] at h2
  rw [c3] at h3
  simp at h1 h2 h3
  omega

/-- Clearing an occupied slot of a valid table opens a gap there. -/
theorem holeInv_of_clear {hash : K → Nat} {t : HashMap K V} (hI : Inv hash t) {p : Nat}
    {e : map_entry K V} (hp : slot t p = some e) :
    HoleInv hash { t with size_ := t.size_ - 1, data_ := t.data_.set p none } p := by
  have hlt := slot_lt_of_some hI hp
  have hlen : p < t.data_.length := by rw [hI.len]; exact hlt
  have hs : ∀ j, slot { t with size_ := t.size_ - 1, data_ := t.data_.set p none } j
      = if j = p then none else slot t j := by
    intro j
    show cell (t.data_.set p none) j = _
    rw [cell_set]
    by_cases hj : j = p
    · subst hj; simp [hlen]
    · have : ¬ (p = j) := fun h => hj h.symm
      simp [hj, this]; rfl
  have hsome : ∀ j e1, slot { t with size_ := t.size_ - 1, data_ := t.data_.set p none } j
      = some e1 → slot t j = some e1 ∧ j ≠ p := by
    intro j e1 h
    rw [hs] at h
    by_cases hj : j = p
    · simp [hj] at h
    · simp [hj] at h; exact ⟨h, hj⟩
  refine ⟨?_, ?_, hlt, ?_, ?_, ?_, ?_, ?_⟩
  · simp [hI.len]
  · rw [hs]; simp
  · have := occupied_set t.data_ p none hlen
    have hc : cell t.data_ p = some e := hp
    rw [hc] at this
    simp at this
    show t.size_ - 1 = occupied (t.data_.set p none)
    rw [hI.size_eq]; omega
  · intro i e1 h
    exact hI.home i e1 (hsome i e1 h).1
  · intro i e1 h j hj1 hj2 hj3
    rw [hs]
    simp only [hj3, if_false]
    exact hI.dense i e1 (hsome i e1 h).1 j hj1 hj2
  · intro i j ei ej h1 h2
    exact hI.sorted i j ei ej (hsome i ei h1).1 (hsome j ej h2).1
  · intro i j ei ej h1 h2
    exact hI.uniq i j ei ej (hsome i ei h1).1 (hsome j ej h2).1

theorem slot_shift_step {hash : K → Nat} {t : HashMap K V} {g : Nat} (_hH : HoleInv hash t g)
    {e : map_entry K V} (he : slot t (g + 1) = some e) (j : Nat) :
    slot (shift_step t (g + 1) e) j
      = if j = g + 1 then none
        else if j = g then some { e with cost := e.cost - 1 } else slot t j := by
  have hg : g + 1 < t.data_.length := by
    by_contra hc
    have : slot t (g + 1) = none := cell_of_length_le _ _ (by omega)
    rw [this] at he; cases he
  exact cell_shift t.data_ g j _ hg

/-- Where an entry of the table after one shift step comes from. -/
theorem shift_step_origin {hash : K → Nat} {t : HashMap K V} {g : Nat}
    (hH : HoleInv hash t g) {e : map_entry K V} (he : slot t (g + 1) = some e)
    (hc : 0 < e.cost) {i : Nat} {x : map_entry K V}
    (hx : slot (shift_step t (g + 1) e) i = some x) :
    ∃ i0 x0, slot t i0 = some x0 ∧ x0.key = x.key ∧ x0.value = x.value ∧
      i0 - x0.cost = i - x.cost ∧ x.cost ≤ i ∧ x0.cost ≤ i0 ∧
      ((i = g ∧ i0 = g + 1 ∧ x0 = e ∧ x.cost + 1 = e.cost) ∨
       (i ≠ g ∧ i ≠ g + 1 ∧ i0 = i ∧ x0 = x)) := by
  rw [slot_shift_step hH he] at hx
  by_cases h1 : i = g + 1
  · simp [h1] at hx
  · by_cases h2 : i = g
    · subst h2
      simp at hx
      subst hx
      have := (hH.home _ e he).1
      refine ⟨i + 1, e, he, rfl, rfl, ?_, ?_, this, Or.inl ⟨rfl, rfl, rfl, ?_⟩⟩
      · simp; omega
      · simp; omega
      · simp; omega
    · simp [h1, h2] at hx
      have := (hH.home _ x hx).1
      exact ⟨i, x, hx, rfl, rfl, rfl, this, this, Or.inr ⟨h2, h1, rfl, rfl⟩⟩

theorem holeInv_step {hash : K → Nat} {t : HashMap K V} {g : Nat} (hH : HoleInv hash t g)
    {e : map_entry K V} (he : slot t (g + 1) = some e) (hc : 0 < e.cost) :
    HoleInv hash (shift_step t (g + 1) e) (g + 1) := by
  have hg : g + 1 < t.data_.length := by
    by_contra hcon
    have : slot t (g + 1) = none := cell_of_length_le _ _ (by omega)
    rw [this] at he; cases he
  have hs := slot_shift_step hH he
  refine ⟨?_, ?_, ?_, ?_, ?_, ?_, ?_, ?_⟩
  · show (((t.data_.set _ _).set _ _).set _ _).length = t.capacity_
    simp [hH.len]
  · rw [hs]; simp
  · show g + 1 < t.capacity_
    rw [← hH.len]; exact hg
  · show t.size_ = occupied _
    rw [hH.size_eq]
    exact (occupied_shift t.data_ g e _ hg hH.hole he).symm
  · intro i x hx
    obtain ⟨i0, x0, h0, hk, _, hhome, hle, _, _⟩ := shift_step_origin hH he hc hx
    have := (hH.home i0 x0 h0).2
    refine ⟨hle, ?_⟩
    show i - x.cost = hash x.key % t.capacity_
    rw [← hk, ← hhome]; exact this
  · intro i x hx j hj1 hj2 hj3
    rw [hs]
    simp only [hj3, if_false]
    by_cases hjg : j = g
    · simp [hjg]
    · simp only [hjg, if_false]
      obtain ⟨i0, x0, h0, _, _, hhome, hle, hle0, hcase⟩ := shift_step_origin hH he hc hx
      apply hH.dense i0 x0 h0 j (by omega) _ hjg
      rcases hcase with ⟨_, h2, _, _⟩ | ⟨_, _, h3, _⟩ <;> omega
  · intro i j ei ej hi hj hij
    obtain ⟨i0, x0, h0, _, _, hhome, hle, hle0, hcase⟩ := shift_step_origin hH he hc hi
    obtain ⟨j0, y0, g0, _, _, ghome, gle, gle0, gcase⟩ := shift_step_origin hH he hc hj
    have := hH.sorted i0 j0 x0 y0 h0 g0
      (by rcases hcase with ⟨_, h2, _, _⟩ | ⟨_, _, h3, _⟩ <;>
          rcases gcase with ⟨_, g2, _, _⟩ | ⟨_, _, g3, _⟩ <;> omega)
    omega
  · intro i j ei ej hi hj hk
    obtain ⟨i0, x0, h0, hk0, _, _, _, _, hcase⟩ := shift_step_origin hH he hc hi
    obtain ⟨j0, y0, g0, gk0, _, _, _, _, gcase⟩ := shift_step_origin hH he hc hj
    have := hH.uniq i0 j0 x0 y0 h0 g0 (by rw [hk0, gk0, hk])
    rcases hcase with ⟨_, h2, _, _⟩ | ⟨_, _, h3, _⟩ <;>
      rcases gcase with ⟨_, g2, _, _⟩ | ⟨_, _, g3, _⟩ <;> omega

/-- When the shift loop stops, the gap breaks no probe path any more. -/
theorem inv_of_holeInv {hash : K → Nat} {t : HashMap K V} {g : Nat} (hH : HoleInv hash t g)
    (hstop : slot t (g + 1) = none ∨ ∃ e, slot t (g + 1) = some e ∧ e.cost = 0) :
    Inv hash t := by
  refine ⟨hH.len, lt_of_le_of_lt (Nat.zero_le _) hH.hole_lt, hH.size_eq, hH.home, ?_,
    hH.sorted, hH.uniq⟩
  intro i x hx j hj1 hj2
  by_cases hjg : j = g
  · exfalso
    subst hjg
    have hne : i ≠ j := by
      intro h; subst h; rw [hH.hole] at hx; cases hx
    rcases hstop with hn | ⟨e0, h0, hc0⟩
    · by_cases hi1 : i = j + 1
      · subst hi1; rw [hn] at hx; cases hx
      · exact hH.dense i x hx (j + 1) (by omega) (by omega) (by omega) hn
    · by_cases hi1 : i = j + 1
      · subst hi1
        rw [h0] at hx
        cases hx
        omega
      · have := hH.sorted (j + 1) i e0 x h0 hx (by omega)
        omega
  · exact hH.dense i x hx j hj1 hj2 hjg

theorem Shifted.refl (t : HashMap K V) : Shifted t t :=
  ⟨rfl, rfl, fun i e h => ⟨i, e.cost, le_refl _, h⟩, fun i e h => ⟨i, e.cost, le_refl _, h⟩⟩

theorem Shifted.trans {t t1 t2 : HashMap K V} (h1 : Shifted t t1) (h2 : Shifted t1 t2) :
    Shifted t t2 := by
  refine ⟨h2.cap_eq.trans h1.cap_eq, h2.size_eq.trans h1.size_eq, ?_, ?_⟩
  · intro i e h
    obtain ⟨i0, c0, hle, hs⟩ := h2.back i e h
    obtain ⟨i1, c1, hle1, hs1⟩ := h1.back i0 _ hs
    exact ⟨i1, c1, le_trans hle hle1, hs1⟩
  · intro i e h
    obtain ⟨i0, c0, hle, hs⟩ := h1.forth i e h
    obtain ⟨i1, c1, hle1, hs1⟩ := h2.forth i0 _ hs
    exact ⟨i1, c1, le_trans hle1 hle, hs1⟩

theorem shifted_step {hash : K → Nat} {t : HashMap K V} {g : Nat} (hH : HoleInv hash t g)
    {e : map_entry K V} (he : slot t (g + 1) = some e) (hc : 0 < e.cost) :
    Shifted t (shift_step t (g + 1) e) := by
  refine ⟨rfl, rfl, ?_, ?_⟩
  · intro i x hx
    obtain ⟨i0, x0, h0, hk, hv, _, _, _, hcase⟩ := shift_step_origin hH he hc hx
    refine ⟨i0, x0.cost, ?_, ?_⟩
    · rcases hcase with ⟨_, h2, _, _⟩ | ⟨_, _, h3, _⟩ <;> omega
    · rw [h0, ← hk, ← hv]
  · intro i x hx
    by_cases h1 : i = g + 1
    · subst h1
      rw [he] at hx
      cases hx
      refine ⟨g, e.cost - 1, by omega, ?_⟩
      rw [slot_shift_step hH he]
      simp
    · have h2 : i ≠ g := by
        intro h; subst h; rw [hH.hole] at hx; cases hx
      refine ⟨i, x.cost, le_refl _, ?_⟩
      rw [slot_shift_step hH he]
      simp [h1, h2, hx]

/-- The shift loop started right after the gap ends in a valid table holding
the same pairs, none further from the front. -/
theorem shift_back_loop_spec {hash : K → Nat} :
    ∀ (n : Nat) (t : HashMap K V) (g : Nat), HoleInv hash t g → t.capacity_ - (g + 1) ≤ n →
      Inv hash (shift_back_loop n t (g + 1)) ∧ Shifted t (shift_back_loop n t (g + 1)) := by
  intro n
  induction n with
  | zero =>
    intro t g hH hn
    have hlt := hH.hole_lt
    have : slot t (g + 1) = none := cell_of_length_le _ _ (by rw [hH.len]; omega)
    exact ⟨inv_of_holeInv hH (Or.inl this), Shifted.refl t⟩
  | succ n ih =>
    intro t g hH hn
    rw [shift_back_loop]
    by_cases hlt : g + 1 < t.capacity_
    · simp only [hlt, if_true]
      cases hs : slot t (g + 1) with
      | none => exact ⟨inv_of_holeInv hH (Or.inl hs), Shifted.refl t⟩
      | some e =>
        by_cases hc : 0 < e.cost
        · simp only [hc, if_true]
          have hH1 := holeInv_step hH hs hc
          have hsh := shifted_step hH hs hc
          have := ih (shift_step t (g + 1) e) (g + 1) hH1 (by
            have : (shift_step t (g + 1) e).capacity_ = t.capacity_ := rfl
            omega)
          exact ⟨this.1, hsh.trans this.2⟩
        · simp only [hc, if_false]
          exact ⟨inv_of_holeInv hH (Or.inr ⟨e, hs, by omega⟩), Shifted.refl t⟩
    · simp only [hlt, if_false]
      have : slot t (g + 1) = none := cell_of_length_le _ _ (by rw [hH.len]; omega)
      exact ⟨inv_of_holeInv hH (Or.inl this), Shifted.refl t⟩

/-- Erasing a key that is not stored changes nothing. -/
theorem erase_absent [DecidableEq K] {hash : K → Nat} {t : HashMap K V} (hI : Inv hash t)
    {k : K} (hno : ¬ HasKey t k) : erase hash t k = t := by
  unfold erase
  simp [find_place_miss hI hno]

/-- The effect of erasing a stored key. -/
theorem erase_present [DecidableEq K] {hash : K → Nat} {t : HashMap K V} (hI : Inv hash t)
    {p : Nat} {e : map_entry K V} (hp : slot t p = some e) :
    Inv hash (erase hash t e.key) ∧
    (erase hash t e.key).capacity_ = t.capacity_ ∧
    (erase hash t e.key).size_ + 1 = t.size_ ∧
    (∀ i x, slot (erase hash t e.key) i = some x →
      x.key ≠ e.key ∧
      ∃ i0 c0, i ≤ i0 ∧ slot t i0 = some { key := x.key, value := x.value, cost := c0 }) ∧
    (∀ i x, slot t i = some x → x.key ≠ e.key →
      ∃ i1 c1, i1 ≤ i ∧
        slot (erase hash t e.key) i1 = some { key := x.key, value := x.value, cost := c1 }) := by
  have hlt := slot_lt_of_some hI hp
  have hlen : p < t.data_.length := by rw [hI.len]; exact hlt
  have hH := holeInv_of_clear hI hp
  have hE : erase hash t e.key
      = shift_back_loop (t.capacity_ - (p + 1))
          { t with size_ := t.size_ - 1, data_ := t.data_.set p none } (p + 1) := by
    unfold erase
    simp only [find_place_hit hI hp, misses_hit hI hp]
    rfl
  have hspec := shift_back_loop_spec (t.capacity_ - (p + 1)) _ p hH (le_refl _)
  rw [← hE] at hspec
  obtain ⟨hInv, hSh⟩ := hspec
  have hs : ∀ j, slot { t with size_ := t.size_ - 1, data_ := t.data_.set p none } j
      = if j = p then none else slot t j := by
    intro j
    show cell (t.data_.set p none) j = _
    rw [cell_set]
    by_cases hj : j = p
    · subst hj; simp [hlen]
    · have : ¬ (p = j) := fun h => hj h.symm
      simp [hj, this]; rfl
  have hocc : 0 < t.size_ := by
    have := occupied_set t.data_ p none hlen
    have hc : cell t.data_ p = some e := hp
    rw [hc] at this
    simp at this
    rw [hI.size_eq]; omega
  refine ⟨hInv, hSh.cap_eq, ?_, ?_, ?_⟩
  · have := hSh.size_eq
    simp only at this
    omega
  · intro i x hx
    obtain ⟨i0, c0, hle, h0⟩ := hSh.back i x hx
    rw [hs] at h0
    by_cases hi0 : i0 = p
    · simp [hi0] at h0
    · simp only [hi0, if_false] at h0
      refine ⟨fun hk => ?_, i0, c0, hle, h0⟩
      exact hi0 (hI.uniq i0 p _ e h0 hp hk)
  · intro i x hx hk
    have hip : i ≠ p := by
      intro h; subst h; rw [hp] at hx; cases hx; exact hk rfl
    have : slot { t with size_ := t.size_ - 1, data_ := t.data_.set p none } i = some x := by
      rw [hs]; simp [hip, hx]
    exact hSh.forth i x this

/-! ## Robin Hood insertion: unfolding the loop -/

theorem insert_loop_place (hash : K → Nat) (f : Nat) (t : HashMap K V) (e : map_entry K V)
    (h : Nat) (hne : h ≠ t.capacity_) (hs : slot t h = none) :
    insert_loop hash (f + 1) t e h
      = some { t with size_ := t.size_ + 1, data_ := t.data_.set h (some e) } := by
  simp [insert_loop, hne, hs]

theorem insert_loop_swap (hash : K → Nat) (f : Nat) (t : HashMap K V) (e occ : map_entry K V)
    (h : Nat) (hne : h ≠ t.capacity_) (hs : slot t h = some occ) (hc : occ.cost < e.cost) :
    insert_loop hash (f + 1) t e h
      = insert_loop hash f { t with data_ := t.data_.set h (some e) }
          { occ with cost := occ.cost + 1 } (h + 1) := by
  simp [insert_loop, hne, hs, hc]

theorem insert_loop_pass (hash : K → Nat) (f : Nat) (t : HashMap K V) (e occ : map_entry K V)
    (h : Nat) (hne : h ≠ t.capacity_) (hs : slot t h = some occ) (hc : ¬ occ.cost < e.cost) :
    insert_loop hash (f + 1) t e h
      = insert_loop hash f t { e with cost := e.cost + 1 } (h + 1) := by
  simp [insert_loop, hne, hs, hc]

theorem insert_loop_overflow_none (hash : K → Nat) (f : Nat) (t : HashMap K V)
    (e : map_entry K V) (hr : resize hash f t = none) :
    insert_loop hash (f + 1) t e t.capacity_ = none := by
  unfold resize insert_entry at hr
  simp [insert_loop, hr]

theorem insert_loop_overflow (hash : K → Nat) (f : Nat) (t t1 : HashMap K V)
    (e : map_entry K V) (hr : resize hash f t = some t1) (hpos : 0 < t1.capacity_) :
    insert_loop hash (f + 1) t e t.capacity_
      = insert_loop hash (f + 1) t1 { e with cost := 0 } (hash e.key % t1.capacity_) := by
  have hne : hash e.key % t1.capacity_ ≠ t1.capacity_ := Nat.ne_of_lt (Nat.mod_lt _ hpos)
  unfold resize insert_entry at hr
  conv => lhs; simp only [insert_loop, hr, if_true]
  conv => rhs; simp only [insert_loop, hne, if_false]

theorem insert_loop_body (hash : K → Nat) (f : Nat) (t : HashMap K V) (e : map_entry K V)
    (h : Nat) (hne : h ≠ t.capacity_) :
    insert_loop hash (f + 1) t e h = probe_body hash f t e h := by
  simp only [insert_loop, hne, if_false, probe_body]

theorem insert_loop_overflow_body (hash : K → Nat) (f : Nat) (t t1 : HashMap K V)
    (e : map_entry K V) (hr : resize hash f t = some t1) :
    insert_loop hash (f + 1) t e t.capacity_
      = probe_body hash f t1 { e with cost := 0 } (hash e.key % t1.capacity_) := by
  unfold resize insert_entry at hr
  simp only [insert_loop, hr, if_true, probe_body]

/-! ## Fuel -/

theorem reinsert_mono {ins ins1 : HashMap K V → map_entry K V → Option (HashMap K V)}
    (hm : ∀ t e r, ins t e = some r → ins1 t e = some r) :
    ∀ (l : List (Option (map_entry K V))) (acc r : HashMap K V),
      reinsert ins l acc = some r → reinsert ins1 l acc = some r := by
  intro l
  induction l with
  | nil => intro acc r h; simpa [reinsert] using h
  | cons x l ih =>
    intro acc r h
    cases x with
    | none =>
      simp only [reinsert] at h ⊢
      exact ih acc r h
    | some e =>
      simp only [reinsert] at h ⊢
      cases hi : ins acc e with
      | none => simp [hi] at h
      | some t1 =>
        simp only [hi] at h
        simp only [hm acc e t1 hi]
        exact ih t1 r h

/-- More fuel does not change a result of the insertion loop. -/
theorem insert_loop_mono (hash : K → Nat) :
    ∀ (f : Nat) (t : HashMap K V) (e : map_entry K V) (h : Nat) (r : HashMap K V),
      insert_loop hash f t e h = some r → insert_loop hash (f + 1) t e h = some r := by
  intro f
  induction f with
  | zero => intro t e h r hr; simp [insert_loop] at hr
  | succ f ih =>
    intro t e h r hr
    have hbody : ∀ (t : HashMap K V) (e : map_entry K V) (h : Nat),
        probe_body hash f t e h = some r → probe_body hash (f + 1) t e h = some r := by
      intro t e h hb
      unfold probe_body at hb ⊢
      cases hs : slot t h with
      | none => simpa [hs] using hb
      | some occ =>
        simp only [hs] at hb ⊢
        by_cases hc : occ.cost < e.cost
        · simp only [hc, if_true] at hb ⊢
          exact ih _ _ _ _ hb
        · simp only [hc, if_false] at hb ⊢
          exact ih _ _ _ _ hb
    by_cases hne : h = t.capacity_
    · subst hne
      cases hres : resize hash f t with
      | none => rw [insert_loop_overflow_none hash f t e hres] at hr; cases hr
      | some t1 =>
        rw [insert_loop_overflow_body hash f t t1 e hres] at hr
        have hres1 : resize hash (f + 1) t = some t1 := by
          unfold resize resize_with at hres ⊢
          exact reinsert_mono (fun t e r h => ih t _ _ r h) _ _ _ hres
        rw [insert_loop_overflow_body hash (f + 1) t t1 e hres1]
        exact hbody _ _ _ hr
    · rw [insert_loop_body hash f t e h hne] at hr
      rw [insert_loop_body hash (f + 1) t e h hne]
      exact hbody _ _ _ hr

theorem insert_loop_mono_le (hash : K → Nat) {f g : Nat} (hfg : f ≤ g) (t : HashMap K V)
    (e : map_entry K V) (h : Nat) (r : HashMap K V) (hr : insert_loop hash f t e h = some r) :
    insert_loop hash g t e h = some r := by
  induction hfg with
  | refl => exact hr
  | step _ ih => exact insert_loop_mono hash _ t e h r ih

theorem insert_entry_mono_le (hash : K → Nat) {f g : Nat} (hfg : f ≤ g) (t : HashMap K V)
    (e : map_entry K V) (r : HashMap K V) (hr : insert_entry hash f t e = some r) :
    insert_entry hash g t e = some r :=
  insert_loop_mono_le hash hfg t _ _ r hr

/-- A result obtained with some fuel is the result obtained with enough fuel. -/
theorem eventually_unique (hash : K → Nat) {t : HashMap K V} {e : map_entry K V} {h : Nat}
    {t1 r : HashMap K V} (hev : Eventually (fun f => insert_loop hash f t e h) t1) {f : Nat}
    (hr : insert_loop hash f t e h = some r) : r = t1 := by
  obtain ⟨N, hN⟩ := hev
  have h1 := insert_loop_mono_le hash (Nat.le_max_left f N) t e h r hr
  have h2 := hN (max f N) (Nat.le_max_right f N)
  simp only at h2
  rw [h1] at h2
  exact Option.some.inj h2

/-! ## Robin Hood insertion: one probe step -/

theorem slot_put (t : HashMap K V) (h s : Nat) (e : map_entry K V) (hlt : h < t.data_.length)
    (j : Nat) :
    slot (⟨t.data_.set h (some e), s, t.capacity_⟩ : HashMap K V) j
      = if j = h then some e else slot t j := by
  show cell (t.data_.set h (some e)) j = _
  rw [cell_set]
  by_cases hj : j = h
  · subst hj; simp [hlt]
  · have : ¬ (h = j) := fun x => hj x.symm
    simp [hj, this]; rfl

/-- Writing the candidate into slot `h` (empty, or holding a richer entry)
gives a valid table. -/
theorem inv_put {hash : K → Nat} {t : HashMap K V} {e : map_entry K V} {h : Nat}
    (hS : ScanInv hash t e h) (hlt : h < t.capacity_) (s : Nat)
    (hs : s = occupied (t.data_.set h (some e)))
    (hrich : ∀ occ, slot t h = some occ → occ.cost < e.cost) :
    Inv hash (⟨t.data_.set h (some e), s, t.capacity_⟩ : HashMap K V) := by
  have hI := hS.inv
  have hlen : h < t.data_.length := by rw [hI.len]; exact hlt
  have hsl := slot_put t h s e hlen
  have horig : ∀ j x, slot (⟨t.data_.set h (some e), s, t.capacity_⟩ : HashMap K V) j = some x →
      (j = h ∧ x = e) ∨ (j ≠ h ∧ slot t j = some x) := by
    intro j x hx
    rw [hsl] at hx
    by_cases hj : j = h
    · simp [hj] at hx; exact Or.inl ⟨hj, hx.symm⟩
    · simp [hj] at hx; exact Or.inr ⟨hj, hx⟩
  have hafter : ∀ j ej, slot t j = some ej → h < j → h - e.cost ≤ j - ej.cost := by
    intro j ej hj hlt1
    cases hh : slot t h with
    | none =>
      have hcj := (hI.home j ej hj).1
      by_contra hcon
      exact hI.dense j ej hj h (by omega) (by omega) hh
    | some occ =>
      have h1 := hrich occ hh
      have h2 := hI.sorted h j occ ej hh hj hlt1
      have h3 := (hI.home h occ hh).1
      omega
  refine ⟨?_, hI.cap_pos, hs, ?_, ?_, ?_, ?_⟩
  · show (t.data_.set h (some e)).length = t.capacity_
    simp [hI.len]
  · intro i x hx
    rcases horig i x hx with ⟨rfl, rfl⟩ | ⟨_, h0⟩
    · exact ⟨hS.cost_le, hS.home⟩
    · exact hI.home i x h0
  · intro i x hx j hj1 hj2
    rw [hsl]
    by_cases hjh : j = h
    · simp [hjh]
    · simp only [hjh, if_false]
      rcases horig i x hx with ⟨rfl, rfl⟩ | ⟨_, h0⟩
      · exact hS.filled j hj1 (by omega)
      · exact hI.dense i x h0 j hj1 hj2
  · intro i j ei ej hi hj hij
    rcases horig i ei hi with ⟨rfl, rfl⟩ | ⟨hi1, hi0⟩ <;>
      rcases horig j ej hj with ⟨rfl, rfl⟩ | ⟨hj1, hj0⟩
    · omega
    · exact hafter j ej hj0 hij
    · exact hS.before i ei hi0 hij
    · exact hI.sorted i j ei ej hi0 hj0 hij
  · intro i j ei ej hi hj hk
    rcases horig i ei hi with ⟨rfl, rfl⟩ | ⟨hi1, hi0⟩ <;>
      rcases horig j ej hj with ⟨rfl, rfl⟩ | ⟨hj1, hj0⟩
    · rfl
    · exact absurd hk.symm (hS.fresh j ej hj0)
    · exact absurd hk (hS.fresh i ei hi0)
    · exact hI.uniq i j ei ej hi0 hj0 hk

/-- The probe state at the start of `insert_entry`. -/
theorem scanInv_start {hash : K → Nat} {t : HashMap K V} (hI : Inv hash t) (e : map_entry K V)
    (hfresh : ¬ HasKey t e.key) :
    ScanInv hash t { e with cost := 0 } (hash e.key % t.capacity_) := by
  refine ⟨hI, le_of_lt (Nat.mod_lt _ hI.cap_pos), Nat.zero_le _, rfl, ?_, ?_, ?_⟩
  · intro j hj1 hj2
    simp at hj1
    omega
  · intro i ei _ hi
    simp
    omega
  · intro i ei hi hk
    exact hfresh ⟨i, ei, hi, hk⟩

/-- The probe state after passing an occupant that is not richer. -/
theorem scanInv_pass {hash : K → Nat} {t : HashMap K V} {e occ : map_entry K V} {h : Nat}
    (hS : ScanInv hash t e h) (hs : slot t h = some occ) (hc : ¬ occ.cost < e.cost) :
    ScanInv hash t { e with cost := e.cost + 1 } (h + 1) := by
  have hI := hS.inv
  have hlt := slot_lt_of_some hI hs
  have hcl := hS.cost_le
  refine ⟨hI, hlt, by simp; omega, ?_, ?_, ?_, hS.fresh⟩
  · show h + 1 - (e.cost + 1) = hash e.key % t.capacity_
    rw [← hS.home]; omega
  · intro j hj1 hj2
    simp at hj1
    by_cases hjh : j = h
    · subst hjh; rw [hs]; simp
    · exact hS.filled j (by omega) (by omega)
  · intro i ei hi hih
    show i - ei.cost ≤ h + 1 - (e.cost + 1)
    by_cases hjh : i = h
    · subst hjh
      rw [hs] at hi
      cases hi
      omega
    · have := hS.before i ei hi (by omega)
      omega

/-- The probe state after evicting a richer occupant. -/
theorem scanInv_swap {hash : K → Nat} {t : HashMap K V} {e occ : map_entry K V} {h : Nat}
    (hS : ScanInv hash t e h) (hs : slot t h = some occ) (hc : occ.cost < e.cost) :
    ScanInv hash (⟨t.data_.set h (some e), t.size_, t.capacity_⟩ : HashMap K V)
      { occ with cost := occ.cost + 1 } (h + 1) := by
  have hI := hS.inv
  have hlt := slot_lt_of_some hI hs
  have hlen : h < t.data_.length := by rw [hI.len]; exact hlt
  have hcl := hS.cost_le
  have hsl := slot_put t h t.size_ e hlen
  have hocc := hI.home h occ hs
  have hsz : t.size_ = occupied (t.data_.set h (some e)) := by
    have := occupied_set t.data_ h (some e) hlen
    have hcell : cell t.data_ h = some occ := hs
    rw [hcell] at this
    simp at this
    rw [hI.size_eq]; omega
  have hI1 := inv_put hS hlt t.size_ hsz (fun o ho => by
    rw [hs] at ho; cases ho; exact hc)
  have horig : ∀ j x, slot (⟨t.data_.set h (some e), t.size_, t.capacity_⟩ : HashMap K V) j
      = some x → (j = h ∧ x = e) ∨ (j ≠ h ∧ slot t j = some x) := by
    intro j x hx
    rw [hsl] at hx
    by_cases hj : j = h
    · simp [hj] at hx; exact Or.inl ⟨hj, hx.symm⟩
    · simp [hj] at hx; exact Or.inr ⟨hj, hx⟩
  refine ⟨hI1, hlt, by simp; omega, ?_, ?_, ?_, ?_⟩
  · show h + 1 - (occ.cost + 1) = hash occ.key % t.capacity_
    rw [← hocc.2]; omega
  · intro j hj1 hj2
    simp at hj1
    rw [hsl]
    by_cases hjh : j = h
    · simp [hjh]
    · simp only [hjh, if_false]
      exact hI.dense h occ hs j (by omega) (by omega)
  · intro i ei hi hih
    show i - ei.cost ≤ h + 1 - (occ.cost + 1)
    rcases horig i ei hi with ⟨rfl, rfl⟩ | ⟨hi1, hi0⟩
    · omega
    · have := hI.sorted i h ei occ hi0 hs (by omega)
      omega
  · intro i ei hi
    show ei.key ≠ occ.key
    rcases horig i ei hi with ⟨rfl, rfl⟩ | ⟨hi1, hi0⟩
    · exact fun hk => hS.fresh i occ hs hk.symm
    · intro hk
      exact hi1 (hI.uniq i h ei occ hi0 hs hk)

/-! ## Stored pairs -/

theorem hasKey_iff_stored (t : HashMap K V) (k : K) : HasKey t k ↔ ∃ v, Stored t k v := by
  constructor
  · rintro ⟨i, e, hs, rfl⟩
    exact ⟨e.value, i, e.cost, hs⟩
  · rintro ⟨v, i, c, hs⟩
    exact ⟨i, _, hs, rfl⟩

theorem stored_of_slot {t : HashMap K V} {i : Nat} {e : map_entry K V} (h : slot t i = some e) :
    Stored t e.key e.value :=
  ⟨i, e.cost, h⟩

theorem stored_place (t : HashMap K V) (h s : Nat) (e : map_entry K V)
    (hlen : h < t.data_.length) (hs : slot t h = none) (k : K) (v : V) :
    Stored (⟨t.data_.set h (some e), s, t.capacity_⟩ : HashMap K V) k v
      ↔ (Stored t k v ∨ (k = e.key ∧ v = e.value)) := by
  have hsl := slot_put t h s e hlen
  constructor
  · rintro ⟨i, c, hi⟩
    rw [hsl] at hi
    by_cases hih : i = h
    · simp only [hih, if_true] at hi
      have := Option.some.inj hi
      right
      rw [this]
      exact ⟨rfl, rfl⟩
    · simp only [hih, if_false] at hi
      exact Or.inl ⟨i, c, hi⟩
  · rintro (⟨i, c, hi⟩ | ⟨rfl, rfl⟩)
    · have hih : i ≠ h := by
        intro hc; subst hc; rw [hs] at hi; cases hi
      exact ⟨i, c, by rw [hsl]; simp [hih, hi]⟩
    · exact ⟨h, e.cost, by rw [hsl]; simp⟩

theorem stored_swap (t : HashMap K V) (h s : Nat) (e occ : map_entry K V)
    (hlen : h < t.data_.length) (hs : slot t h = some occ) (k : K) (v : V) :
    (Stored (⟨t.data_.set h (some e), s, t.capacity_⟩ : HashMap K V) k v
        ∨ (k = occ.key ∧ v = occ.value))
      ↔ (Stored t k v ∨ (k = e.key ∧ v = e.value)) := by
  have hsl := slot_put t h s e hlen
  constructor
  · rintro (⟨i, c, hi⟩ | ⟨rfl, rfl⟩)
    · rw [hsl] at hi
      by_cases hih : i = h
      · simp only [hih, if_true] at hi
        have := Option.some.inj hi
        right
        rw [this]
        exact ⟨rfl, rfl⟩
      · simp only [hih, if_false] at hi
        exact Or.inl ⟨i, c, hi⟩
    · exact Or.inl ⟨h, occ.cost, hs⟩
  · rintro (⟨i, c, hi⟩ | ⟨rfl, rfl⟩)
    · by_cases hih : i = h
      · subst hih
        rw [hs] at hi
        have := Option.some.inj hi
        right
        rw [this]
        exact ⟨rfl, rfl⟩
      · exact Or.inl ⟨i, c, by rw [hsl]; simp [hih, hi]⟩
    · exact Or.inl ⟨h, e.cost, by rw [hsl]; simp⟩

theorem hashBound_of_post {hash : K → Nat} {M : Nat} {t t1 : HashMap K V} {e : map_entry K V}
    (hP : Post hash t e t1) (hB : HashBound hash M t) (he : hash e.key ≤ M) :
    HashBound hash M t1 := by
  intro i x hx
  rcases (hP.stored x.key x.value).1 (stored_of_slot hx) with ⟨j, c, hj⟩ | ⟨hk, _⟩
  · exact hB j { key := x.key, value := x.value, cost := c } hj
  · rw [hk]; exact he

theorem eventually_succ {F G : Nat → Option (HashMap K V)} {t1 : HashMap K V}
    (hFG : ∀ f, F (f + 1) = G f) (hG : Eventually G t1) : Eventually F t1 := by
  obtain ⟨N, hN⟩ := hG
  refine ⟨N + 1, fun n hn => ?_⟩
  obtain ⟨m, rfl⟩ : ∃ m, n = m + 1 := ⟨n - 1, by omega⟩
  rw [hFG]
  exact hN m (by omega)

/-! ## Robin Hood insertion: the probe loop -/

/-- The probe loop is correct and returns, provided the overflow case is. -/
theorem scan_steps (hash : K → Nat) (M D : Nat)
    (hover : ∀ (t : HashMap K V) (e : map_entry K V), ScanInv hash t e t.capacity_ →
      HashBound hash M t → hash e.key ≤ M → M + t.size_ + 2 ≤ t.capacity_ + D →
      ∃ t1, Eventually (fun f => insert_loop hash f t e t.capacity_) t1 ∧ Post hash t e t1) :
    ∀ (n : Nat) (t : HashMap K V) (e : map_entry K V) (h : Nat), t.capacity_ - h ≤ n →
      ScanInv hash t e h → HashBound hash M t → hash e.key ≤ M →
      M + t.size_ + 2 ≤ t.capacity_ + D →
      ∃ t1, Eventually (fun f => insert_loop hash f t e h) t1 ∧ Post hash t e t1 := by
  intro n
  induction n with
  | zero =>
    intro t e h hn hS hB he hD
    have : h = t.capacity_ := by have := hS.h_le; omega
    subst this
    exact hover t e hS hB he hD
  | succ n ih =>
    intro t e h hn hS hB he hD
    by_cases hcap : h = t.capacity_
    · subst hcap
      exact hover t e hS hB he hD
    · have hI := hS.inv
      have hlt : h < t.capacity_ := by have := hS.h_le; omega
      have hlen : h < t.data_.length := by rw [hI.len]; exact hlt
      cases hs : slot t h with
      | none =>
        refine ⟨⟨t.data_.set h (some e), t.size_ + 1, t.capacity_⟩, ⟨1, fun m hm => ?_⟩, ?_⟩
        · obtain ⟨f, rfl⟩ : ∃ f, m = f + 1 := ⟨m - 1, by omega⟩
          exact insert_loop_place hash f t e h hcap hs
        · have hsz : t.size_ + 1 = occupied (t.data_.set h (some e)) := by
            have := occupied_set t.data_ h (some e) hlen
            have hcell : cell t.data_ h = none := hs
            rw [hcell] at this
            simp at this
            rw [hI.size_eq]; omega
          refine ⟨inv_put hS hlt (t.size_ + 1) hsz (fun o ho => by rw [hs] at ho; cases ho),
            ⟨0, by simp⟩, rfl, ?_⟩
          intro k v
          exact stored_place t h (t.size_ + 1) e hlen hs k v
      | some occ =>
        by_cases hc : occ.cost < e.cost
        · have hS1 := scanInv_swap hS hs hc
          have hB1 : HashBound hash M
              (⟨t.data_.set h (some e), t.size_, t.capacity_⟩ : HashMap K V) := by
            intro i x hx
            rw [slot_put t h t.size_ e hlen] at hx
            by_cases hih : i = h
            · simp only [hih, if_true] at hx
              cases hx; exact he
            · simp only [hih, if_false] at hx
              exact hB i x hx
          obtain ⟨t1, hev, hP⟩ := ih _ _ (h + 1) (by show t.capacity_ - (h + 1) ≤ n; omega)
            hS1 hB1 (hB h occ hs) hD
          refine ⟨t1, eventually_succ (fun f => insert_loop_swap hash f t e occ h hcap hs hc) hev,
            hP.inv, hP.cap, hP.size, ?_⟩
          intro k v
          rw [hP.stored k v]
          exact stored_swap t h t.size_ e occ hlen hs k v
        · have hS1 := scanInv_pass hS hs hc
          obtain ⟨t1, hev, hP⟩ := ih t _ (h + 1) (by omega) hS1 hB he hD
          exact ⟨t1, eventually_succ (fun f => insert_loop_pass hash f t e occ h hcap hs hc) hev,
            hP.inv, hP.cap, hP.size, hP.stored⟩

/-! ## Resize -/

theorem cell_eq_some_iff (d : List (Option (map_entry K V))) (i : Nat) (x : map_entry K V) :
    cell d i = some x ↔ d[i]? = some (some x) := by
  unfold cell
  cases h : d[i]? with
  | none => simp
  | some y => simp

theorem mem_iff_cell (d : List (Option (map_entry K V))) (x : map_entry K V) :
    some x ∈ d ↔ ∃ i, cell d i = some x := by
  rw [List.mem_iff_getElem?]
  constructor
  · rintro ⟨i, hi⟩
    exact ⟨i, (cell_eq_some_iff d i x).2 hi⟩
  · rintro ⟨i, hi⟩
    exact ⟨i, (cell_eq_some_iff d i x).1 hi⟩

theorem occupied_replicate (n : Nat) :
    occupied (List.replicate n (none : Option (map_entry K V))) = 0 := by
  induction n with
  | zero => rfl
  | succ n ih =>
    simp only [List.replicate_succ, occupied, List.countP_cons] at ih ⊢
    simp [ih]

/-- A freshly allocated array of positive length is a valid empty table. -/
theorem inv_fresh (hash : K → Nat) (c : Nat) (hc : 0 < c) :
    Inv hash (⟨List.replicate c none, 0, c⟩ : HashMap K V) := by
  have hs : ∀ i, slot (⟨List.replicate c none, 0, c⟩ : HashMap K V) i = none :=
    fun i => cell_replicate c i
  refine ⟨by simp, hc, (occupied_replicate c).symm, ?_, ?_, ?_, ?_⟩
  · intro i e h; rw [hs] at h; cases h
  · intro i e h; rw [hs] at h; cases h
  · intro i j ei ej h; rw [hs] at h; cases h
  · intro i j ei ej h; rw [hs] at h; cases h

/-- Re-inserting a list of slots with pairwise distinct, fresh keys returns and
stores exactly the old and the listed pairs. -/
theorem reinsert_total (hash : K → Nat) (M D : Nat)
    (hins : ∀ (t : HashMap K V) (e : map_entry K V) (h : Nat), ScanInv hash t e h →
      HashBound hash M t → hash e.key ≤ M → M + t.size_ + 2 ≤ t.capacity_ + D →
      ∃ t1, Eventually (fun f => insert_loop hash f t e h) t1 ∧ Post hash t e t1) :
    ∀ (l : List (Option (map_entry K V))) (acc : HashMap K V), Inv hash acc →
      HashBound hash M acc →
      (∀ x, some x ∈ l → hash x.key ≤ M) →
      (∀ (i j : Nat) (xi xj : map_entry K V), l[i]? = some (some xi) → l[j]? = some (some xj) →
        xi.key = xj.key → i = j) →
      (∀ x, some x ∈ l → ¬ HasKey acc x.key) →
      M + acc.size_ + occupied l + 1 ≤ acc.capacity_ + D →
      ∃ t1, Eventually (fun f => reinsert (insert_entry hash f) l acc) t1 ∧ Inv hash t1 ∧
        (∃ n, t1.capacity_ = acc.capacity_ * 2 ^ n) ∧ t1.size_ = acc.size_ + occupied l ∧
        (∀ k v, Stored t1 k v ↔
          (Stored acc k v ∨ ∃ c, some { key := k, value := v, cost := c } ∈ l)) := by
  intro l
  induction l with
  | nil =>
    intro acc hI _ _ _ _ _
    exact ⟨acc, ⟨0, fun _ _ => rfl⟩, hI, ⟨0, by simp⟩, by simp [occupied], by simp⟩
  | cons a rest ih =>
    intro acc hI hB hM hdist hfresh hD
    cases a with
    | none =>
      have hocc : occupied (none :: rest) = occupied rest := by
        simp [occupied]
      rw [hocc] at hD
      obtain ⟨t1, hev, hI1, hcap, hsz, hst⟩ := ih acc hI hB
        (fun x hx => hM x (List.mem_cons_of_mem _ hx))
        (fun i j xi xj hi hj hk => by
          have := hdist (i + 1) (j + 1) xi xj (by simpa using hi) (by simpa using hj) hk
          omega)
        (fun x hx => hfresh x (List.mem_cons_of_mem _ hx)) hD
      refine ⟨t1, ?_, hI1, hcap, by rw [hsz, hocc], ?_⟩
      · obtain ⟨N, hN⟩ := hev
        exact ⟨N, fun n hn => by simpa [reinsert] using hN n hn⟩
      · intro k v
        rw [hst k v]
        simp
    | some x =>
      have hocc : occupied (some x :: rest) = occupied rest + 1 := by
        simp [occupied]
      rw [hocc] at hD
      have hfx : ¬ HasKey acc x.key := hfresh x (List.mem_cons_self _ _)
      have hMx : hash x.key ≤ M := hM x (List.mem_cons_self _ _)
      obtain ⟨acc1, hev1, hP1⟩ := hins acc { x with cost := 0 } (hash x.key % acc.capacity_)
        (scanInv_start hI x hfx) hB hMx (by omega)
      have hB1 : HashBound hash M acc1 := hashBound_of_post hP1 hB hMx
      obtain ⟨n1, hn1⟩ := hP1.cap
      have hcap1 : acc.capacity_ ≤ acc1.capacity_ := by
        rw [hn1]
        exact Nat.le_mul_of_pos_right _ (Nat.pos_pow_of_pos _ (by omega))
      have hsz1 := hP1.size
      obtain ⟨t1, hev, hI1, ⟨n2, hn2⟩, hsz, hst⟩ := ih acc1 hP1.inv hB1
        (fun y hy => hM y (List.mem_cons_of_mem _ hy))
        (fun i j xi xj hi hj hk => by
          have := hdist (i + 1) (j + 1) xi xj (by simpa using hi) (by simpa using hj) hk
          omega)
        (fun y hy hk => by
          obtain ⟨v, hv⟩ := (hasKey_iff_stored acc1 y.key).1 hk
          rcases (hP1.stored y.key v).1 hv with hs | ⟨hkey, _⟩
          · exact hfresh y (List.mem_cons_of_mem _ hy)
              ((hasKey_iff_stored acc y.key).2 ⟨v, hs⟩)
          · obtain ⟨j, hj⟩ := List.mem_iff_getElem?.1 hy
            have := hdist (j + 1) 0 y x (by simpa using hj) (by simp) hkey
            omega)
        (by omega)
      refine ⟨t1, ?_, hI1, ⟨n1 + n2, by rw [hn2, hn1, pow_add, mul_assoc]⟩, by rw [hsz, hocc]; omega,
        ?_⟩
      · obtain ⟨N1, hN1⟩ := hev1
        obtain ⟨N2, hN2⟩ := hev
        refine ⟨max N1 N2, fun n hn => ?_⟩
        have h1 : insert_entry hash n acc x = some acc1 := hN1 n (le_trans (le_max_left _ _) hn)
        have h2 := hN2 n (le_trans (le_max_right _ _) hn)
        simp only [reinsert, h1]
        exact h2
      · intro k v
        rw [hst k v, hP1.stored k v]
        constructor
        · rintro ((hs | ⟨rfl, rfl⟩) | ⟨c, hc⟩)
          · exact Or.inl hs
          · exact Or.inr ⟨x.cost, List.mem_cons_self _ _⟩
          · exact Or.inr ⟨c, List.mem_cons_of_mem _ hc⟩
        · rintro (hs | ⟨c, hc⟩)
          · exact Or.inl (Or.inl hs)
          · rcases List.mem_cons.1 hc with heq | hmem
            · have := Option.some.inj heq
              left; right
              rw [← this]
              exact ⟨rfl, rfl⟩
            · exact Or.inr ⟨c, hmem⟩

/-- The method `resize` returns a valid table of at least twice the capacity
holding exactly the pairs of the old table. -/
theorem resize_total (hash : K → Nat) (M D : Nat)
    (hins : ∀ (t : HashMap K V) (e : map_entry K V) (h : Nat), ScanInv hash t e h →
      HashBound hash M t → hash e.key ≤ M → M + t.size_ + 2 ≤ t.capacity_ + D →
      ∃ t1, Eventually (fun f => insert_loop hash f t e h) t1 ∧ Post hash t e t1)
    (t : HashMap K V) (hI : Inv hash t) (hB : HashBound hash M t)
    (hD : M + t.size_ + 1 ≤ t.capacity_ * 2 + D) :
    ∃ t1, Eventually (fun f => resize hash f t) t1 ∧ Inv hash t1 ∧
      (∃ n, t1.capacity_ = t.capacity_ * 2 ^ (n + 1)) ∧ t1.size_ = t.size_ ∧
      (∀ k v, Stored t1 k v ↔ Stored t k v) := by
  have htake : t.data_.take t.capacity_ = t.data_ :=
    List.take_of_length_le (by rw [hI.len])
  have hcap2 : 0 < t.capacity_ * 2 := by have := hI.cap_pos; omega
  have hnone : ∀ i, slot (⟨List.replicate (t.capacity_ * 2) none, 0, t.capacity_ * 2⟩ :
      HashMap K V) i = none := fun i => cell_replicate _ i
  obtain ⟨t1, hev, hI1, ⟨n, hn⟩, hsz, hst⟩ := reinsert_total hash M D hins t.data_
    ⟨List.replicate (t.capacity_ * 2) none, 0, t.capacity_ * 2⟩
    (inv_fresh hash _ hcap2)
    (fun i e h => by rw [hnone] at h; cases h)
    (fun x hx => by
      obtain ⟨i, hi⟩ := (mem_iff_cell t.data_ x).1 hx
      exact hB i x hi)
    (fun i j xi xj hi hj hk =>
      hI.uniq i j xi xj ((cell_eq_some_iff _ _ _).2 hi) ((cell_eq_some_iff _ _ _).2 hj) hk)
    (fun x _ hk => by
      obtain ⟨i, e, h, _⟩ := hk
      rw [hnone] at h; cases h)
    (by
      show M + 0 + occupied t.data_ + 1 ≤ t.capacity_ * 2 + D
      rw [← hI.size_eq]; omega)
  refine ⟨t1, ?_, hI1, ⟨n, ?_⟩, ?_, ?_⟩
  · obtain ⟨N, hN⟩ := hev
    refine ⟨N, fun m hm => ?_⟩
    have := hN m hm
    show resize_with (insert_entry hash m) t = some t1
    unfold resize_with
    rw [htake]
    exact this
  · rw [hn]
    show t.capacity_ * 2 * 2 ^ n = t.capacity_ * 2 ^ (n + 1)
    rw [pow_succ, mul_assoc, mul_comm 2 (2 ^ n)]
  · rw [hsz]
    show 0 + occupied t.data_ = t.size_
    rw [← hI.size_eq]; omega
  · intro k v
    rw [hst k v]
    constructor
    · rintro (⟨i, c, h⟩ | ⟨c, hc⟩)
      · rw [hnone] at h; cases h
      · obtain ⟨i, hi⟩ := (mem_iff_cell t.data_ _).1 hc
        exact ⟨i, c, hi⟩
    · rintro ⟨i, c, hi⟩
      exact Or.inr ⟨c, (mem_iff_cell t.data_ _).2 ⟨i, hi⟩⟩

/-! ## Robin Hood insertion: total correctness -/

/-- In a table with room for one more entry beyond every hash value, the probe
loop cannot run off the end. -/
theorem no_overflow (hash : K → Nat) (M : Nat) (t : HashMap K V) (e : map_entry K V)
    (hS : ScanInv hash t e t.capacity_) (he : hash e.key ≤ M)
    (hD : M + t.size_ + 2 ≤ t.capacity_) : False := by
  have hI := hS.inv
  have h1 := occupied_ge_range t.data_ (t.capacity_ - e.cost) t.capacity_
    (by rw [hI.len]) hS.filled
  have h2 := hS.home
  have h3 : hash e.key % t.capacity_ ≤ hash e.key := Nat.mod_le _ _
  have h4 := hS.cost_le
  rw [← hI.size_eq] at h1
  omega

/-- The loop of `insert_entry` returns, from every probe state, a valid table
holding the old pairs and the candidate. -/
theorem insert_loop_total (hash : K → Nat) (M : Nat) :
    ∀ (D : Nat) (t : HashMap K V) (e : map_entry K V) (h : Nat), ScanInv hash t e h →
      HashBound hash M t → hash e.key ≤ M → M + t.size_ + 2 ≤ t.capacity_ + D →
      ∃ t1, Eventually (fun f => insert_loop hash f t e h) t1 ∧ Post hash t e t1 := by
  intro D
  induction D with
  | zero =>
    intro t e h hS hB he hD
    exact scan_steps hash M 0
      (fun t e hS _ he hD => (no_overflow hash M t e hS he (by omega)).elim)
      (t.capacity_ - h) t e h (le_refl _) hS hB he hD
  | succ D ih =>
    intro t e h hS hB he hD
    refine scan_steps hash M (D + 1) ?_ (t.capacity_ - h) t e h (le_refl _) hS hB he hD
    intro t e hS hB he hD
    have hI := hS.inv
    have hpos := hI.cap_pos
    obtain ⟨t1, hev1, hI1, ⟨n, hn⟩, hsz1, hst1⟩ := resize_total hash M D ih t hI hB (by omega)
    have hge : t.capacity_ * 2 ≤ t1.capacity_ := by
      rw [hn]
      exact Nat.mul_le_mul_left _ (by
        rw [pow_succ]
        have := Nat.one_le_two_pow (n := n)
        omega)
    have hfresh : ¬ HasKey t1 e.key := by
      intro hk
      obtain ⟨v, hv⟩ := (hasKey_iff_stored t1 e.key).1 hk
      obtain ⟨i, c, hi⟩ := (hst1 e.key v).1 hv
      exact hS.fresh i _ hi rfl
    have hB1 : HashBound hash M t1 := by
      intro i x hx
      obtain ⟨j, c, hj⟩ := (hst1 x.key x.value).1 (stored_of_slot hx)
      exact hB j { key := x.key, value := x.value, cost := c } hj
    obtain ⟨t2, hev2, hP2⟩ := ih t1 { e with cost := 0 } (hash e.key % t1.capacity_)
      (scanInv_start hI1 e hfresh) hB1 he (by omega)
    refine ⟨t2, ?_, hP2.inv, ?_, by rw [hP2.size, hsz1], ?_⟩
    · obtain ⟨N1, hN1⟩ := hev1
      obtain ⟨N2, hN2⟩ := hev2
      refine ⟨max (N1 + 1) N2, fun m hm => ?_⟩
      obtain ⟨f, rfl⟩ : ∃ f, m = f + 1 := ⟨m - 1, by
        have := le_trans (le_max_left (N1 + 1) N2) hm
        omega⟩
      have hr : resize hash f t = some t1 := hN1 f (by
        have := le_trans (le_max_left (N1 + 1) N2) hm
        omega)
      show insert_loop hash (f + 1) t e t.capacity_ = some t2
      rw [insert_loop_overflow hash f t t1 e hr hI1.cap_pos]
      exact hN2 (f + 1) (le_trans (le_max_right _ _) hm)
    · obtain ⟨m, hm⟩ := hP2.cap
      exact ⟨n + 1 + m, by rw [hm, hn, pow_add (2 : Nat) (n + 1) m, mul_assoc]⟩
    · intro k v
      rw [hP2.stored k v, hst1 k v]

theorem exists_hash_bound (hash : K → Nat) (d : List (Option (map_entry K V))) :
    ∃ M, ∀ x, some x ∈ d → hash x.key ≤ M := by
  induction d with
  | nil => exact ⟨0, fun x hx => by simp at hx⟩
  | cons a d ih =>
    obtain ⟨M, hM⟩ := ih
    cases a with
    | none =>
      exact ⟨M, fun x hx => hM x (by simpa using hx)⟩
    | some y =>
      refine ⟨max M (hash y.key), fun x hx => ?_⟩
      rcases List.mem_cons.1 hx with heq | hmem
      · have := Option.some.inj heq
        rw [this]
        exact le_max_right _ _
      · exact le_trans (hM x hmem) (le_max_left _ _)

/-- The method `insert_entry` on a valid table and a key that is not stored. -/
theorem insert_entry_total (hash : K → Nat) {t : HashMap K V} (hI : Inv hash t)
    (e : map_entry K V) (hfresh : ¬ HasKey t e.key) :
    ∃ t1, Eventually (fun f => insert_entry hash f t e) t1 ∧ Post hash t e t1 ∧
      ∀ f r, insert_entry hash f t e = some r → r = t1 := by
  obtain ⟨M0, hM0⟩ := exists_hash_bound hash t.data_
  have hB : HashBound hash (max M0 (hash e.key)) t := by
    intro i x hx
    exact le_trans (hM0 x ((mem_iff_cell t.data_ x).2 ⟨i, hx⟩)) (le_max_left _ _)
  obtain ⟨t1, hev, hP⟩ := insert_loop_total hash (max M0 (hash e.key))
    (max M0 (hash e.key) + t.size_ + 2) t { e with cost := 0 } (hash e.key % t.capacity_)
    (scanInv_start hI e hfresh) hB (le_max_right _ _) (by omega)
  exact ⟨t1, hev, ⟨hP.inv, hP.cap, hP.size, hP.stored⟩,
    fun f r hr => eventually_unique hash hev hr⟩

/-! ## The public operations -/

theorem insert_present [DecidableEq K] {hash : K → Nat} {t : HashMap K V} (hI : Inv hash t)
    (f : Nat) (p : K × V) (hk : HasKey t p.1) : insert hash f t p = some t := by
  unfold insert
  simp [(find_ne_end_iff hI p.1).2 hk]

theorem insert_absent [DecidableEq K] {hash : K → Nat} {t : HashMap K V} (hI : Inv hash t)
    (f : Nat) (p : K × V) (hk : ¬ HasKey t p.1) :
    insert hash f t p = insert_entry hash f t { key := p.1, value := p.2, cost := 0 } := by
  unfold insert
  simp [find_miss hI hk]

theorem index_present [DecidableEq K] [Inhabited V] {hash : K → Nat} {t : HashMap K V}
    (hI : Inv hash t) (f : Nat) {i : Nat} {e : map_entry K V} (hs : slot t i = some e) :
    index hash f t e.key = some (t, i) := by
  unfold index
  simp [find_place_hit hI hs, misses_hit hI hs]

theorem index_absent [DecidableEq K] [Inhabited V] {hash : K → Nat} {t : HashMap K V}
    (hI : Inv hash t) (f : Nat) {k : K} (hk : ¬ HasKey t k) :
    index hash f t k
      = match insert_entry hash f t { key := k, value := default, cost := 0 } with
        | none => none
        | some t1 => some (t1, find_place hash t1 k) := by
  unfold index
  simp only [find_place_miss hI hk, if_true]
  rw [insert_absent hI f (k, default) hk]

theorem inv_empty (hash : K → Nat) : Inv hash (empty : HashMap K V) :=
  inv_fresh hash 1 (by omega)

theorem clear_cells (n : Nat) (d : List (Option (map_entry K V))) :
    ((List.range n).foldl (fun d i => d.set i none) d).length = d.length ∧
    ∀ i, cell ((List.range n).foldl (fun d i => d.set i none) d) i
      = if i < n then none else cell d i := by
  induction n with
  | zero => simp
  | succ n ih =>
    rw [List.range_succ, List.foldl_append]
    simp only [List.foldl_cons, List.foldl_nil, List.length_set]
    refine ⟨ih.1, fun i => ?_⟩
    rw [cell_set, ih.2 i]
    by_cases h1 : n = i
    · subst h1
      by_cases h2 : n < d.length
      · simp [ih.1, h2]
      · simp [ih.1, h2]
        exact cell_of_length_le d n (by omega)
    · by_cases h3 : i < n
      · have : i < n + 1 := by omega
        simp [h1, h3, this]
      · have : ¬ i < n + 1 := by omega
        simp [h1, h3, this]

theorem occupied_eq_zero (d : List (Option (map_entry K V))) (h : ∀ i, cell d i = none) :
    occupied d = 0 := by
  induction d with
  | nil => rfl
  | cons a d ih =>
    have h0 : a = none := by simpa [cell_cons_zero] using h 0
    have := ih (fun i => by simpa [cell_cons_succ] using h (i + 1))
    subst h0
    simp only [occupied, List.countP_cons] at this ⊢
    simp [this]

theorem slot_clear {hash : K → Nat} {t : HashMap K V} (hI : Inv hash t) (i : Nat) :
    slot (clear t) i = none := by
  show cell ((List.range t.capacity_).foldl (fun d i => d.set i none) t.data_) i = none
  rw [(clear_cells t.capacity_ t.data_).2 i]
  by_cases h : i < t.capacity_
  · simp [h]
  · simp only [h, if_false]
    exact cell_of_length_le _ _ (by rw [hI.len]; omega)

theorem inv_clear {hash : K → Nat} {t : HashMap K V} (hI : Inv hash t) :
    Inv hash (clear t) := by
  have hs := slot_clear hI
  refine ⟨?_, hI.cap_pos, ?_, ?_, ?_, ?_, ?_⟩
  · show ((List.range t.capacity_).foldl (fun d i => d.set i none) t.data_).length = t.capacity_
    rw [(clear_cells t.capacity_ t.data_).1, hI.len]
  · exact (occupied_eq_zero _ hs).symm
  · intro i e h; rw [hs] at h; cases h
  · intro i e h; rw [hs] at h; cases h
  · intro i j ei ej h; rw [hs] at h; cases h
  · intro i j ei ej h; rw [hs] at h; cases h

theorem slot_assign (t : HashMap K V) (i : Nat) (v : V) (j : Nat) :
    slot (assign t i v) j
      = if j = i then (slot t i).map (fun e => { e with value := v }) else slot t j := by
  unfold assign
  cases hs : slot t i with
  | none =>
    by_cases hj : j = i
    · subst hj; simp [hs]
    · simp [hj]
  | some e =>
    have hlen : i < t.data_.length := by
      by_contra hc
      have : slot t i = none := cell_of_length_le _ _ (by omega)
      rw [this] at hs; cases hs
    show cell (t.data_.set i _) j = _
    rw [cell_set]
    by_cases hj : j = i
    · subst hj; simp [hlen]
    · have : ¬ (i = j) := fun x => hj x.symm
      simp [hj, this]; rfl

theorem inv_assign {hash : K → Nat} {t : HashMap K V} (hI : Inv hash t) (i : Nat) (v : V) :
    Inv hash (assign t i v) := by
  have hsl := slot_assign t i v
  have horig : ∀ j x, slot (assign t i v) j = some x →
      ∃ x0, slot t j = some x0 ∧ x0.key = x.key ∧ x0.cost = x.cost := by
    intro j x hx
    rw [hsl] at hx
    by_cases hj : j = i
    · subst hj
      simp only [if_true] at hx
      cases hs : slot t j with
      | none => rw [hs] at hx; cases hx
      | some e =>
        rw [hs] at hx
        simp at hx
        subst hx
        exact ⟨e, rfl, rfl, rfl⟩
    · simp only [hj, if_false] at hx
      exact ⟨x, hx, rfl, rfl⟩
  have hkeep : ∀ j, slot t j ≠ none → slot (assign t i v) j ≠ none := by
    intro j hj
    rw [hsl]
    by_cases hji : j = i
    · subst hji
      cases hs : slot t j with
      | none => exact absurd hs hj
      | some e => simp
    · simpa [hji] using hj
  have hcap : (assign t i v).capacity_ = t.capacity_ := by
    unfold assign; cases slot t i <;> rfl
  have hsize : (assign t i v).size_ = t.size_ := by
    unfold assign; cases slot t i <;> rfl
  refine ⟨?_, by rw [hcap]; exact hI.cap_pos, ?_, ?_, ?_, ?_, ?_⟩
  · rw [hcap]
    unfold assign
    cases slot t i with
    | none => exact hI.len
    | some e => simp [hI.len]
  · rw [hsize, hI.size_eq]
    unfold assign
    cases hs : slot t i with
    | none => rfl
    | some e =>
      have hlen : i < t.data_.length := by
        by_contra hc
        have : slot t i = none := cell_of_length_le _ _ (by omega)
        rw [this] at hs; cases hs
      have := occupied_set t.data_ i (some { e with value := v }) hlen
      have hc : cell t.data_ i = some e := hs
      rw [hc] at this
      simp at this
      exact this.symm
  · intro j x hx
    obtain ⟨x0, h0, hk, hc⟩ := horig j x hx
    rw [hcap, ← hk, ← hc]
    exact hI.home j x0 h0
  · intro j x hx l hl1 hl2
    obtain ⟨x0, h0, hk, hc⟩ := horig j x hx
    exact hkeep l (hI.dense j x0 h0 l (by omega) hl2)
  · intro a b ea eb ha hb hab
    obtain ⟨x0, h0, _, hc⟩ := horig a ea ha
    obtain ⟨y0, g0, _, gc⟩ := horig b eb hb
    have := hI.sorted a b x0 y0 h0 g0 hab
    omega
  · intro a b ea eb ha hb hk
    obtain ⟨x0, h0, hk0, _⟩ := horig a ea ha
    obtain ⟨y0, g0, gk0, _⟩ := horig b eb hb
    exact hI.uniq a b x0 y0 h0 g0 (by rw [hk0, gk0, hk])

/-- The method `insert` with a key that is not stored: it returns, and its
result is a valid table with the new pair added. -/
theorem insert_total [DecidableEq K] (hash : K → Nat) {t : HashMap K V} (hI : Inv hash t)
    (k : K) (v : V) (hk : ¬ HasKey t k) :
    ∃ t1, Eventually (fun f => insert hash f t (k, v)) t1 ∧
      Post hash t { key := k, value := v, cost := 0 } t1 ∧
      ∀ f r, insert hash f t (k, v) = some r → r = t1 := by
  obtain ⟨t1, ⟨N, hN⟩, hP, hU⟩ :=
    insert_entry_total hash hI { key := k, value := v, cost := 0 } hk
  refine ⟨t1, ⟨N, fun n hn => ?_⟩, hP, fun f r hr => ?_⟩
  · show insert hash n t (k, v) = some t1
    rw [insert_absent hI n (k, v) hk]
    exact hN n hn
  · rw [insert_absent hI f (k, v) hk] at hr
    exact hU f r hr

theorem inv_insert [DecidableEq K] (hash : K → Nat) {t t1 : HashMap K V} (hI : Inv hash t)
    {f : Nat} {p : K × V} (h : insert hash f t p = some t1) : Inv hash t1 := by
  by_cases hk : HasKey t p.1
  · rw [insert_present hI f p hk] at h
    cases h
    exact hI
  · obtain ⟨t2, _, hP, hU⟩ := insert_total hash hI p.1 p.2 hk
    rw [hU f t1 h]
    exact hP.inv

theorem inv_erase [DecidableEq K] (hash : K → Nat) {t : HashMap K V} (hI : Inv hash t)
    (k : K) : Inv hash (erase hash t k) := by
  by_cases hk : HasKey t k
  · obtain ⟨i, e, hs, rfl⟩ := hk
    exact (erase_present hI hs).1
  · rw [erase_absent hI hk]
    exact hI

theorem inv_index [DecidableEq K] [Inhabited V] (hash : K → Nat) {t t1 : HashMap K V}
    (hI : Inv hash t) {f : Nat} {k : K} {i : Nat} (h : index hash f t k = some (t1, i)) :
    Inv hash t1 := by
  by_cases hk : HasKey t k
  · obtain ⟨j, e, hs, rfl⟩ := hk
    rw [index_present hI f hs] at h
    simp only [Option.some.injEq, Prod.mk.injEq] at h
    rw [← h.1]
    exact hI
  · rw [index_absent hI f hk] at h
    cases hi : insert_entry hash f t { key := k, value := default, cost := 0 } with
    | none => rw [hi] at h; cases h
    | some t2 =>
      rw [hi] at h
      simp only [Option.some.injEq, Prod.mk.injEq] at h
      rw [← h.1]
      obtain ⟨t3, _, hP, hU⟩ :=
        insert_entry_total hash hI { key := k, value := default, cost := 0 } hk
      rw [hU f t2 hi]
      exact hP.inv

/-- Every reachable table satisfies the representation invariant. -/
theorem inv_of_reachable [DecidableEq K] [Inhabited V] (hash : K → Nat) {t : HashMap K V}
    (hR : Reachable hash t) : Inv hash t := by
  induction hR with
  | empty => exact inv_empty hash
  | insert _ h ih => exact inv_insert hash ih h
  | erase k _ ih => exact inv_erase hash ih k
  | index _ h ih => exact inv_index hash ih h
  | assign v _ h ih => exact inv_assign (inv_index hash ih h) _ v
  | clear _ ih => exact inv_clear ih

/-! ## Lookup -/

theorem lookup_stored [DecidableEq K] {hash : K → Nat} {t : HashMap K V} (hI : Inv hash t)
    {k : K} {v : V} (hs : Stored t k v) :
    find hash t k ≠ end_ t ∧ deref t (find hash t k) = some (k, v) := by
  obtain ⟨i, c, hi⟩ := hs
  have hf : find hash t k = i := find_hit hI hi
  refine ⟨(find_ne_end_iff hI k).2 ⟨i, _, hi, rfl⟩, ?_⟩
  rw [hf]
  unfold deref
  rw [hi]
  rfl

theorem lookup_absent [DecidableEq K] {hash : K → Nat} {t : HashMap K V} (hI : Inv hash t)
    {k : K} (hk : ¬ HasKey t k) :
    find hash t k = end_ t ∧ deref t (find hash t k) = none := by
  have hf := find_miss hI hk
  refine ⟨hf, ?_⟩
  rw [hf, end_eq]
  unfold deref
  rw [slot_cap hI]
  rfl

/-- Two valid tables storing the same values under `k` answer `find k` alike. -/
theorem lookup_frame [DecidableEq K] {hash : K → Nat} {t t1 : HashMap K V} (hI : Inv hash t)
    (hI1 : Inv hash t1) {k : K} (hst : ∀ v, Stored t1 k v ↔ Stored t k v) :
    (find hash t1 k = end_ t1 ↔ find hash t k = end_ t) ∧
      deref t1 (find hash t1 k) = deref t (find hash t k) := by
  by_cases hk : HasKey t k
  · obtain ⟨v, hv⟩ := (hasKey_iff_stored t k).1 hk
    have h1 := lookup_stored hI hv
    have h2 := lookup_stored hI1 ((hst v).2 hv)
    exact ⟨⟨fun h => absurd h h2.1, fun h => absurd h h1.1⟩, by rw [h1.2, h2.2]⟩
  · have hk1 : ¬ HasKey t1 k := by
      intro h
      obtain ⟨v, hv⟩ := (hasKey_iff_stored t1 k).1 h
      exact hk ((hasKey_iff_stored t k).2 ⟨v, (hst v).1 hv⟩)
    have h1 := lookup_absent hI hk
    have h2 := lookup_absent hI1 hk1
    exact ⟨⟨fun _ => h1.1, fun _ => h2.1⟩, by rw [h1.2, h2.2]⟩

/-- The effect of `erase` on the stored pairs. -/
theorem erase_stored [DecidableEq K] {hash : K → Nat} {t : HashMap K V} (hI : Inv hash t)
    (k : K) :
    ¬ HasKey (erase hash t k) k ∧
      ∀ k1 v, k1 ≠ k → (Stored (erase hash t k) k1 v ↔ Stored t k1 v) := by
  by_cases hk : HasKey t k
  · obtain ⟨p, e, hp, rfl⟩ := hk
    obtain ⟨_, _, _, hback, hforth⟩ := erase_present hI hp
    refine ⟨?_, fun k1 v hne => ⟨?_, ?_⟩⟩
    · rintro ⟨i, x, hx, hxk⟩
      exact (hback i x hx).1 hxk
    · rintro ⟨i, c, hi⟩
      obtain ⟨_, i0, c0, _, h0⟩ := hback i _ hi
      exact ⟨i0, c0, h0⟩
    · rintro ⟨i, c, hi⟩
      obtain ⟨i1, c1, _, h1⟩ := hforth i _ hi hne
      exact ⟨i1, c1, h1⟩
  · rw [erase_absent hI hk]
    exact ⟨hk, fun _ _ _ => Iff.rfl⟩

theorem hasKey_iff_contains [DecidableEq K] (t : HashMap K V) (k : K) :
    HasKey t k ↔ contains_key t k = true := by
  unfold contains_key
  rw [List.any_eq_true]
  constructor
  · rintro ⟨i, e, hs, hk⟩
    exact ⟨some e, (mem_iff_cell t.data_ e).2 ⟨i, hs⟩, by simp [hk]⟩
  · rintro ⟨o, ho, hd⟩
    cases o with
    | none => simp at hd
    | some e =>
      obtain ⟨i, hi⟩ := (mem_iff_cell t.data_ e).1 ho
      exact ⟨i, e, hi, by simpa using hd⟩

/-- The effect of `insert` on the stored pairs. -/
theorem insert_stored [DecidableEq K] {hash : K → Nat} {t t1 : HashMap K V} (hI : Inv hash t)
    {f : Nat} {k : K} {v : V} (h : insert hash f t (k, v) = some t1) (k1 : K) (v1 : V) :
    Stored t1 k1 v1 ↔ (Stored t k1 v1 ∨ (¬ HasKey t k ∧ k1 = k ∧ v1 = v)) := by
  by_cases hk : HasKey t k
  · rw [insert_present hI f (k, v) hk] at h
    cases h
    simp [hk]
  · obtain ⟨t2, _, hP, hU⟩ := insert_total hash hI k v hk
    rw [hU f t1 h, hP.stored k1 v1]
    simp [hk]

/-- The method `insert` returns on every valid table, given enough fuel. -/
theorem insert_returns [DecidableEq K] (hash : K → Nat) {t : HashMap K V} (hI : Inv hash t)
    (p : K × V) : ∃ t1 N, ∀ f, N ≤ f → insert hash f t p = some t1 := by
  by_cases hk : HasKey t p.1
  · exact ⟨t, 0, fun f _ => insert_present hI f p hk⟩
  · obtain ⟨t1, ⟨N, hN⟩, _, _⟩ := insert_total hash hI p.1 p.2 hk
    exact ⟨t1, N, hN⟩

theorem resize_mono_le (hash : K → Nat) {f g : Nat} (hfg : f ≤ g) (t r : HashMap K V)
    (h : resize hash f t = some r) : resize hash g t = some r := by
  unfold resize resize_with at h ⊢
  exact reinsert_mono (fun t e r h => insert_entry_mono_le hash hfg t e r h) _ _ _ h

/-- The method `resize` on a valid table: it returns, and every table it
returns is valid, at least twice as large, and stores exactly the old pairs. -/
theorem resize_spec (hash : K → Nat) {t : HashMap K V} (hI : Inv hash t) :
    ∃ t1, Eventually (fun f => resize hash f t) t1 ∧ Inv hash t1 ∧
      (∃ n, t1.capacity_ = t.capacity_ * 2 ^ (n + 1)) ∧ t1.size_ = t.size_ ∧
      (∀ k v, Stored t1 k v ↔ Stored t k v) ∧
      ∀ f r, resize hash f t = some r → r = t1 := by
  obtain ⟨M, hM⟩ := exists_hash_bound hash t.data_
  have hB : HashBound hash M t :=
    fun i x hx => hM x ((mem_iff_cell t.data_ x).2 ⟨i, hx⟩)
  obtain ⟨t1, hev, hI1, hcap, hsz, hst⟩ := resize_total hash M (M + t.size_ + 1)
    (insert_loop_total hash M (M + t.size_ + 1)) t hI hB (by omega)
  refine ⟨t1, hev, hI1, hcap, hsz, hst, fun f r hr => ?_⟩
  obtain ⟨N, hN⟩ := hev
  have h1 := resize_mono_le hash (Nat.le_max_left f N) t r hr
  have h2 := hN (max f N) (Nat.le_max_right f N)
  simp only at h2
  rw [h1] at h2
  exact Option.some.inj h2

theorem insert_mono_le [DecidableEq K] (hash : K → Nat) {f g : Nat} (hfg : f ≤ g)
    (t : HashMap K V) (p : K × V) (r : HashMap K V) (h : insert hash f t p = some r) :
    insert hash g t p = some r := by
  unfold insert at h ⊢
  by_cases hc : find hash t p.1 ≠ end_ t
  · simpa [hc] using h
  · simp only [hc, if_false] at h ⊢
    exact insert_entry_mono_le hash hfg t _ r h

theorem insert_hasKey [DecidableEq K] {hash : K → Nat} {t t1 : HashMap K V} (hI : Inv hash t)
    {f : Nat} {k : K} {v : V} (h : insert hash f t (k, v) = some t1) (k1 : K) :
    HasKey t1 k1 ↔ (HasKey t k1 ∨ k1 = k) := by
  rw [hasKey_iff_stored, hasKey_iff_stored]
  constructor
  · rintro ⟨v1, hv1⟩
    rcases (insert_stored hI h k1 v1).1 hv1 with hs | ⟨_, hk, _⟩
    · exact Or.inl ⟨v1, hs⟩
    · exact Or.inr hk
  · rintro (⟨v1, hv1⟩ | rfl)
    · exact ⟨v1, (insert_stored hI h k1 v1).2 (Or.inl hv1)⟩
    · by_cases hk : HasKey t k1
      · obtain ⟨v1, hv1⟩ := (hasKey_iff_stored t k1).1 hk
        exact ⟨v1, (insert_stored hI h k1 v1).2 (Or.inl hv1)⟩
      · exact ⟨v, (insert_stored hI h k1 v).2 (Or.inr ⟨hk, rfl, rfl⟩)⟩

theorem insert_size [DecidableEq K] {hash : K → Nat} {t t1 : HashMap K V} (hI : Inv hash t)
    {f : Nat} {k : K} {v : V} (h : insert hash f t (k, v) = some t1) (hk : ¬ HasKey t k) :
    t1.size_ = t.size_ + 1 := by
  obtain ⟨t2, _, hP, hU⟩ := insert_total hash hI k v hk
  rw [hU f t1 h]
  exact hP.size

/-- Inserting a list of pairs with pairwise distinct keys, none of them stored:
the calls return, and the size grows by the length of the list. -/
theorem insert_list_spec [DecidableEq K] (hash : K → Nat) :
    ∀ (ps : List (K × V)) (t : HashMap K V), Inv hash t → (ps.map Prod.fst).Nodup →
      (∀ k, k ∈ ps.map Prod.fst → ¬ HasKey t k) →
      (∃ t1 N, ∀ f, N ≤ f → insert_list hash f t ps = some t1) ∧
      ∀ f t1, insert_list hash f t ps = some t1 →
        Inv hash t1 ∧ t1.size_ = t.size_ + ps.length ∧
        ∀ k, HasKey t1 k ↔ (HasKey t k ∨ k ∈ ps.map Prod.fst) := by
  intro ps
  induction ps with
  | nil =>
    intro t hI _ _
    refine ⟨⟨t, 0, fun f _ => rfl⟩, fun f t1 h => ?_⟩
    simp only [insert_list, Option.some.injEq] at h
    subst h
    exact ⟨hI, rfl, fun k => by simp⟩
  | cons p ps ih =>
    intro t hI hnd hfresh
    obtain ⟨k, v⟩ := p
    simp only [List.map_cons, List.nodup_cons] at hnd
    have hk : ¬ HasKey t k := hfresh k (by simp)
    obtain ⟨t2, ⟨N1, hN1⟩, hP, hU⟩ := insert_total hash hI k v hk
    have hins : insert hash N1 t (k, v) = some t2 := hN1 N1 (le_refl _)
    have hfresh2 : ∀ k1, k1 ∈ ps.map Prod.fst → ¬ HasKey t2 k1 := by
      intro k1 hk1 hh
      rcases (insert_hasKey hI hins k1).1 hh with h1 | h1
      · exact hfresh k1 (by simp only [List.map_cons, List.mem_cons]; exact Or.inr hk1) h1
      · subst h1; exact hnd.1 hk1
    obtain ⟨⟨t3, N2, hN2⟩, hall⟩ := ih t2 hP.inv hnd.2 hfresh2
    refine ⟨⟨t3, max N1 N2, fun f hf => ?_⟩, fun f t1 h => ?_⟩
    · simp only [insert_list, hN1 f (le_trans (le_max_left _ _) hf)]
      exact hN2 f (le_trans (le_max_right _ _) hf)
    · simp only [insert_list] at h
      cases hi : insert hash f t (k, v) with
      | none => rw [hi] at h; cases h
      | some r =>
        rw [hi] at h
        simp only at h
        have hr := hU f r hi
        subst hr
        obtain ⟨hI1, hsz, hkeys⟩ := hall f t1 h
        refine ⟨hI1, by rw [hsz, hP.size, List.length_cons]; omega, fun k1 => ?_⟩
        rw [hkeys k1, insert_hasKey hI hi k1]
        simp only [List.map_cons, List.mem_cons]
        tauto

/-- Erasing a list of pairwise distinct stored keys lowers the size by the
length of the list. -/
theorem erase_list_spec [DecidableEq K] (hash : K → Nat) :
    ∀ (ks : List K) (t : HashMap K V), Inv hash t → ks.Nodup → (∀ k, k ∈ ks → HasKey t k) →
      (erase_list hash t ks).size_ + ks.length = t.size_ := by
  intro ks
  induction ks with
  | nil => intro t _ _ _; rfl
  | cons k ks ih =>
    intro t hI hnd hall
    simp only [List.nodup_cons] at hnd
    obtain ⟨p, e, hp, hke⟩ := hall k (by simp)
    subst hke
    obtain ⟨hIe, _, hsz, _, _⟩ := erase_present hI hp
    have hall2 : ∀ k1, k1 ∈ ks → HasKey (erase hash t e.key) k1 := by
      intro k1 hk1
      have hne : k1 ≠ e.key := fun h => hnd.1 (h ▸ hk1)
      obtain ⟨v, hv⟩ := (hasKey_iff_stored t k1).1 (hall k1 (by simp [hk1]))
      exact (hasKey_iff_stored _ k1).2 ⟨v, ((erase_stored hI e.key).2 k1 v hne).2 hv⟩
    have := ih (erase hash t e.key) hIe hnd.2 hall2
    simp only [erase_list, List.length_cons]
    omega

theorem at_absent [DecidableEq K] {hash : K → Nat} {t : HashMap K V} (hI : Inv hash t)
    {k : K} (hk : ¬ HasKey t k) : at_ hash t k = Except.error Error.out_of_range := by
  unfold at_
  simp [find_place_miss hI hk]

theorem at_stored [DecidableEq K] {hash : K → Nat} {t : HashMap K V} (hI : Inv hash t)
    {k : K} {v : V} (hs : Stored t k v) : at_ hash t k = Except.ok (some v) := by
  obtain ⟨i, c, hi⟩ := hs
  have h1 : find_place hash t k = i := find_place_hit hI hi
  have h2 : misses t k i = false := misses_hit hI hi
  unfold at_
  simp [h1, h2, hi]

/-! ## The claims -/

/-- Claim C1. For every hash function, every reachable table, every key `k`
not stored in it and every value `v`: `insert(k, v)` returns (with enough
fuel, whatever resizes it triggers), and in every table it returns `find(k)`
is not `end()` and points to the pair `(k, v)`. -/
theorem C1_find_after_insert [DecidableEq K] [Inhabited V] (hash : K → Nat) (t : HashMap K V)
    (hR : Reachable hash t) (k : K) (v : V) (hk : ¬ HasKey t k) :
    (∃ t1 N, ∀ f, N ≤ f → insert hash f t (k, v) = some t1) ∧
    ∀ f t1, insert hash f t (k, v) = some t1 →
      find hash t1 k ≠ end_ t1 ∧ deref t1 (find hash t1 k) = some (k, v) := by
  have hI := inv_of_reachable hash hR
  obtain ⟨t2, ⟨N, hN⟩, hP, hU⟩ := insert_total hash hI k v hk
  refine ⟨⟨t2, N, hN⟩, fun f t1 h => ?_⟩
  rw [hU f t1 h]
  exact lookup_stored hP.inv ((hP.stored k v).2 (Or.inr ⟨rfl, rfl⟩))

/-- Instance of C1: with the identity hash, inserting key `3` into the table
holding key `1` (two nested resizes, capacity 1 to 4). -/
theorem C1_find_after_insert_witness :
    Reachable (fun k : Nat => k) (⟨[some ⟨1, 10, 0⟩], 1, 1⟩ : HashMap Nat Nat) ∧
    ¬ HasKey (⟨[some ⟨1, 10, 0⟩], 1, 1⟩ : HashMap Nat Nat) 3 ∧
    insert (fun k : Nat => k) 6 (⟨[some ⟨1, 10, 0⟩], 1, 1⟩ : HashMap Nat Nat) (3, 30)
      = some ⟨[none, some ⟨1, 10, 0⟩, none, some ⟨3, 30, 0⟩], 2, 4⟩ ∧
    deref (⟨[none, some ⟨1, 10, 0⟩, none, some ⟨3, 30, 0⟩], 2, 4⟩ : HashMap Nat Nat)
      (find (fun k : Nat => k) ⟨[none, some ⟨1, 10, 0⟩, none, some ⟨3, 30, 0⟩], 2, 4⟩ 3)
      = some (3, 30) :=
  have hR : Reachable (fun k : Nat => k) (⟨[some ⟨1, 10, 0⟩], 1, 1⟩ : HashMap Nat Nat) :=
    Reachable.insert (f := 1) (p := (1, 10)) Reachable.empty (by decide)
  have hk : ¬ HasKey (⟨[some ⟨1, 10, 0⟩], 1, 1⟩ : HashMap Nat Nat) 3 := by
    rw [hasKey_iff_contains]; decide
  ⟨hR, hk, by decide,
    ((C1_find_after_insert (fun k : Nat => k) _ hR 3 30 hk).2 6 _ (by decide)).2⟩

/-- Claim C2. For every hash function, every reachable table and every key
`k`: after `erase(k)`, `find(k)` is `end()`. -/
theorem C2_find_after_erase [DecidableEq K] [Inhabited V] (hash : K → Nat) (t : HashMap K V)
    (hR : Reachable hash t) (k : K) :
    find hash (erase hash t k) k = end_ (erase hash t k) := by
  have hI := inv_of_reachable hash hR
  exact (lookup_absent (inv_erase hash hI k) (erase_stored hI k).1).1

/-- Instance of C2: all keys hash to `0`; erasing the first key of the run
`1, 3` shifts `3` back to slot `0`, and `find(1)` is `end() = 2`. -/
theorem C2_find_after_erase_witness :
    Reachable (fun _ : Nat => 0) (⟨[some ⟨1, 10, 0⟩, some ⟨3, 30, 1⟩], 2, 2⟩ : HashMap Nat Nat) ∧
    erase (fun _ : Nat => 0) (⟨[some ⟨1, 10, 0⟩, some ⟨3, 30, 1⟩], 2, 2⟩ : HashMap Nat Nat) 1
      = ⟨[some ⟨3, 30, 0⟩, none], 1, 2⟩ ∧
    find (fun _ : Nat => 0)
      (erase (fun _ : Nat => 0) (⟨[some ⟨1, 10, 0⟩, some ⟨3, 30, 1⟩], 2, 2⟩ : HashMap Nat Nat) 1) 1
      = end_ (erase (fun _ : Nat => 0)
          (⟨[some ⟨1, 10, 0⟩, some ⟨3, 30, 1⟩], 2, 2⟩ : HashMap Nat Nat) 1) :=
  have h1 : Reachable (fun _ : Nat => 0) (⟨[some ⟨1, 10, 0⟩], 1, 1⟩ : HashMap Nat Nat) :=
    Reachable.insert (f := 1) (p := (1, 10)) Reachable.empty (by decide)
  have hR : Reachable (fun _ : Nat => 0)
      (⟨[some ⟨1, 10, 0⟩, some ⟨3, 30, 1⟩], 2, 2⟩ : HashMap Nat Nat) :=
    Reachable.insert (f := 4) (p := (3, 30)) h1 (by decide)
  ⟨hR, by decide, C2_find_after_erase (fun _ : Nat => 0) _ hR 1⟩

/-- Claim C3. For every reachable table and keys `k1 ≠ k`: `erase(k)` does not
change the lookup of `k1` (found after the erase iff found before, pointing to
the same pair), and a stored `k1` is located by `find_place` at an index no
larger than before.  The scenario of the claim holds for every hash function:
after inserting `(a, va)`, `(b, vb)`, `(c, vc)` with distinct keys into the
empty table and erasing `b`, `find(a)` and `find(c)` point to `(a, va)` and
`(c, vc)`. -/
theorem C3_erase_keeps_others [DecidableEq K] [Inhabited V] (hash : K → Nat) (t : HashMap K V)
    (hR : Reachable hash t) (k k1 : K) (hne : k1 ≠ k) :
    (find hash (erase hash t k) k1 = end_ (erase hash t k) ↔ find hash t k1 = end_ t) ∧
    deref (erase hash t k) (find hash (erase hash t k) k1) = deref t (find hash t k1) ∧
    (HasKey t k1 → find_place hash (erase hash t k) k1 ≤ find_place hash t k1) ∧
    (∀ (a b c : K) (va vb vc : V) (f1 f2 f3 : Nat) (ta tb tc : HashMap K V),
      a ≠ b → a ≠ c → b ≠ c →
      insert hash f1 empty (a, va) = some ta → insert hash f2 ta (b, vb) = some tb →
      insert hash f3 tb (c, vc) = some tc →
      deref (erase hash tc b) (find hash (erase hash tc b) a) = some (a, va) ∧
      deref (erase hash tc b) (find hash (erase hash tc b) c) = some (c, vc)) := by
  have hI := inv_of_reachable hash hR
  have hIe := inv_erase hash hI k
  have hfr := lookup_frame hI hIe (fun v => (erase_stored hI k).2 k1 v hne)
  refine ⟨hfr.1, hfr.2, ?_, ?_⟩
  · rintro ⟨i, x, hx, rfl⟩
    rw [find_place_hit hI hx]
    by_cases hk : HasKey t k
    · obtain ⟨p, e, hp, rfl⟩ := hk
      obtain ⟨_, _, _, _, hforth⟩ := erase_present hI hp
      obtain ⟨i1, c1, hle, h1⟩ := hforth i x hx hne
      have := find_place_hit (inv_erase hash hI e.key) h1
      simp only at this
      rw [this]
      exact hle
    · rw [erase_absent hI hk, find_place_hit hI hx]
  · intro a b c va vb vc f1 f2 f3 ta tb tc hab hac hbc h1 h2 h3
    have hI0 : Inv hash (empty : HashMap K V) := inv_empty hash
    have hIa := inv_insert hash hI0 h1
    have hIb := inv_insert hash hIa h2
    have hIc := inv_insert hash hIb h3
    have hno : ∀ x, ¬ HasKey (empty : HashMap K V) x := by
      rintro x ⟨i, e, hs, _⟩
      have : slot (empty : HashMap K V) i = none := cell_replicate 1 i
      rw [this] at hs; cases hs
    have ha1 : Stored ta a va := (insert_stored hI0 h1 a va).2 (Or.inr ⟨hno a, rfl, rfl⟩)
    have ha2 : Stored tb a va := (insert_stored hIa h2 a va).2 (Or.inl ha1)
    have ha3 : Stored tc a va := (insert_stored hIb h3 a va).2 (Or.inl ha2)
    have hcb : ¬ HasKey tb c := by
      intro hk
      obtain ⟨v, hv⟩ := (hasKey_iff_stored tb c).1 hk
      rcases (insert_stored hIa h2 c v).1 hv with hv1 | ⟨_, hcb, _⟩
      · rcases (insert_stored hI0 h1 c v).1 hv1 with hv0 | ⟨_, hca, _⟩
        · exact hno c ((hasKey_iff_stored _ c).2 ⟨v, hv0⟩)
        · exact hac hca.symm
      · exact hbc hcb.symm
    have hc3 : Stored tc c vc := (insert_stored hIb h3 c vc).2 (Or.inr ⟨hcb, rfl, rfl⟩)
    have hIe := inv_erase hash hIc b
    exact ⟨(lookup_stored hIe (((erase_stored hIc b).2 a va hab).2 ha3)).2,
      (lookup_stored hIe (((erase_stored hIc b).2 c vc (fun h => hbc h.symm)).2 hc3)).2⟩

/-- Instance of C3 (the scenario of the claim, all keys hashed to `0`): the run
`a, b, c` occupies slots `0, 1, 2`; erasing `b` moves `c` from slot `2` to
slot `1`, and `c` is still found with value `3`. -/
theorem C3_erase_keeps_others_witness :
    Reachable (fun _ : String => 0)
      (⟨[some ⟨"a", 1, 0⟩, some ⟨"b", 2, 1⟩, some ⟨"c", 3, 2⟩, none], 3, 4⟩ : HashMap String Nat) ∧
    find_place (fun _ : String => 0)
      (⟨[some ⟨"a", 1, 0⟩, some ⟨"b", 2, 1⟩, some ⟨"c", 3, 2⟩, none], 3, 4⟩ : HashMap String Nat)
      "c" = 2 ∧
    find_place (fun _ : String => 0) (erase (fun _ : String => 0)
      (⟨[some ⟨"a", 1, 0⟩, some ⟨"b", 2, 1⟩, some ⟨"c", 3, 2⟩, none], 3, 4⟩ : HashMap String Nat)
      "b") "c" = 1 ∧
    deref (erase (fun _ : String => 0)
      (⟨[some ⟨"a", 1, 0⟩, some ⟨"b", 2, 1⟩, some ⟨"c", 3, 2⟩, none], 3, 4⟩ : HashMap String Nat)
      "b")
      (find (fun _ : String => 0) (erase (fun _ : String => 0)
        (⟨[some ⟨"a", 1, 0⟩, some ⟨"b", 2, 1⟩, some ⟨"c", 3, 2⟩, none], 3, 4⟩ :
          HashMap String Nat) "b") "c")
      = deref
        (⟨[some ⟨"a", 1, 0⟩, some ⟨"b", 2, 1⟩, some ⟨"c", 3, 2⟩, none], 3, 4⟩ : HashMap String Nat)
        (find (fun _ : String => 0)
          (⟨[some ⟨"a", 1, 0⟩, some ⟨"b", 2, 1⟩, some ⟨"c", 3, 2⟩, none], 3, 4⟩ :
            HashMap String Nat) "c") :=
  have h1 : Reachable (fun _ : String => 0) (⟨[some ⟨"a", 1, 0⟩], 1, 1⟩ : HashMap String Nat) :=
    Reachable.insert (f := 1) (p := ("a", 1)) Reachable.empty (by decide)
  have h2 : Reachable (fun _ : String => 0)
      (⟨[some ⟨"a", 1, 0⟩, some ⟨"b", 2, 1⟩], 2, 2⟩ : HashMap String Nat) :=
    Reachable.insert (f := 4) (p := ("b", 2)) h1 (by decide)
  have h3 : Reachable (fun _ : String => 0)
      (⟨[some ⟨"a", 1, 0⟩, some ⟨"b", 2, 1⟩, some ⟨"c", 3, 2⟩, none], 3, 4⟩ :
        HashMap String Nat) :=
    Reachable.insert (f := 8) (p := ("c", 3)) h2 (by decide)
  ⟨h3, by decide, by decide,
    (C3_erase_keeps_others (fun _ : String => 0) _ h3 "b" "c" (by decide)).2.1⟩

/-- Claim C4. For every reachable table, key `k`, value `v` and key `k1 ≠ k`:
`insert(k, v)` returns, and in every table it returns the lookup of `k1` is
what it was (found iff it was found, pointing to the same pair), whatever
evictions and resizes happened.  Moreover `resize`, on every valid table,
returns, and every table it returns stores exactly the pairs stored before,
with the same size and number of occupied slots and no key in two slots. -/
theorem C4_insert_keeps_others [DecidableEq K] [Inhabited V] (hash : K → Nat) (t : HashMap K V)
    (hR : Reachable hash t) (k : K) (v : V) (k1 : K) (hne : k1 ≠ k) :
    (∃ t1 N, ∀ f, N ≤ f → insert hash f t (k, v) = some t1) ∧
    (∀ f t1, insert hash f t (k, v) = some t1 →
      (find hash t1 k1 = end_ t1 ↔ find hash t k1 = end_ t) ∧
      deref t1 (find hash t1 k1) = deref t (find hash t k1)) ∧
    (∀ t0 : HashMap K V, Inv hash t0 →
      (∃ t1 N, ∀ f, N ≤ f → resize hash f t0 = some t1) ∧
      ∀ f t1, resize hash f t0 = some t1 →
        (∀ k2 v2, Stored t1 k2 v2 ↔ Stored t0 k2 v2) ∧
        t1.size_ = t0.size_ ∧ occupied t1.data_ = occupied t0.data_ ∧
        (∀ i j ei ej, slot t1 i = some ei → slot t1 j = some ej → ei.key = ej.key → i = j)) := by
  have hI := inv_of_reachable hash hR
  refine ⟨insert_returns hash hI (k, v), fun f t1 h => ?_, fun t0 hI0 => ?_⟩
  · have hI1 := inv_insert hash hI h
    apply lookup_frame hI hI1
    intro v1
    rw [insert_stored hI h k1 v1]
    constructor
    · rintro (hs | ⟨_, hk, _⟩)
      · exact hs
      · exact absurd hk hne
    · exact Or.inl
  · obtain ⟨t2, ⟨N, hN⟩, hI2, _, hsz, hst, hU⟩ := resize_spec hash hI0
    refine ⟨⟨t2, N, hN⟩, fun f t1 h => ?_⟩
    rw [hU f t1 h]
    exact ⟨hst, hsz, by rw [← hI2.size_eq, ← hI0.size_eq, hsz], hI2.uniq⟩

/-- Instance of C4: with the identity hash, inserting key `3` into the table
holding key `1` resizes twice; key `1` keeps its pair. -/
theorem C4_insert_keeps_others_witness :
    Reachable (fun k : Nat => k) (⟨[some ⟨1, 10, 0⟩], 1, 1⟩ : HashMap Nat Nat) ∧
    insert (fun k : Nat => k) 6 (⟨[some ⟨1, 10, 0⟩], 1, 1⟩ : HashMap Nat Nat) (3, 30)
      = some ⟨[none, some ⟨1, 10, 0⟩, none, some ⟨3, 30, 0⟩], 2, 4⟩ ∧
    deref (⟨[none, some ⟨1, 10, 0⟩, none, some ⟨3, 30, 0⟩], 2, 4⟩ : HashMap Nat Nat)
      (find (fun k : Nat => k) ⟨[none, some ⟨1, 10, 0⟩, none, some ⟨3, 30, 0⟩], 2, 4⟩ 1)
      = deref (⟨[some ⟨1, 10, 0⟩], 1, 1⟩ : HashMap Nat Nat)
          (find (fun k : Nat => k) ⟨[some ⟨1, 10, 0⟩], 1, 1⟩ 1) :=
  have hR : Reachable (fun k : Nat => k) (⟨[some ⟨1, 10, 0⟩], 1, 1⟩ : HashMap Nat Nat) :=
    Reachable.insert (f := 1) (p := (1, 10)) Reachable.empty (by decide)
  ⟨hR, by decide,
    ((C4_insert_keeps_others (fun k : Nat => k) _ hR 3 30 1 (by decide)).2.1 6 _
      (by decide)).2⟩

/-- Claim C5. For every reachable table, every key `k` stored in it and every
value `v`: `insert(k, v)` returns the table unchanged (slot array, size and
capacity), whatever the fuel, and `find(k)` still points to the pair stored
before (first insert wins). -/
theorem C5_insert_existing_noop [DecidableEq K] [Inhabited V] (hash : K → Nat)
    (t : HashMap K V) (hR : Reachable hash t) (k : K) (hk : HasKey t k) (v : V) (f : Nat) :
    insert hash f t (k, v) = some t ∧
    ∀ v0, Stored t k v0 → deref t (find hash t k) = some (k, v0) := by
  have hI := inv_of_reachable hash hR
  exact ⟨insert_present hI f (k, v) hk, fun v0 h0 => (lookup_stored hI h0).2⟩

/-- Instance of C5: re-inserting key `1` with another value into a table that
holds `(1, 10)`. -/
theorem C5_insert_existing_noop_witness :
    Reachable (fun k : Nat => k) (⟨[some ⟨1, 10, 0⟩], 1, 1⟩ : HashMap Nat Nat) ∧
    HasKey (⟨[some ⟨1, 10, 0⟩], 1, 1⟩ : HashMap Nat Nat) 1 ∧
    insert (fun k : Nat => k) 0 (⟨[some ⟨1, 10, 0⟩], 1, 1⟩ : HashMap Nat Nat) (1, 99)
      = some ⟨[some ⟨1, 10, 0⟩], 1, 1⟩ :=
  have hR : Reachable (fun k : Nat => k) (⟨[some ⟨1, 10, 0⟩], 1, 1⟩ : HashMap Nat Nat) :=
    Reachable.insert (f := 1) (p := (1, 10)) Reachable.empty (by decide)
  have hk : HasKey (⟨[some ⟨1, 10, 0⟩], 1, 1⟩ : HashMap Nat Nat) 1 :=
    ⟨0, ⟨1, 10, 0⟩, rfl, rfl⟩
  ⟨hR, hk, (C5_insert_existing_noop (fun k : Nat => k) _ hR 1 hk 99 0).1⟩

/-- Claim C6. In every table reachable from the empty table by `insert`,
`erase`, `operator[]` and `clear`, for every hash function, no two distinct
occupied slots hold equal keys. -/
theorem C6_keys_unique [DecidableEq K] [Inhabited V] (hash : K → Nat) (t : HashMap K V)
    (hR : Reachable hash t) (i j : Nat) (ei ej : map_entry K V)
    (hi : slot t i = some ei) (hj : slot t j = some ej) (hk : ei.key = ej.key) : i = j :=
  (inv_of_reachable hash hR).uniq i j ei ej hi hj hk

/-- Instance of C6: in the table holding keys `1` and `3`, both hashed to `0`,
the slot holding key `1` is slot `0`. -/
theorem C6_keys_unique_witness :
    Reachable (fun _ : Nat => 0) (⟨[some ⟨1, 10, 0⟩, some ⟨3, 30, 1⟩], 2, 2⟩ : HashMap Nat Nat) ∧
    slot (⟨[some ⟨1, 10, 0⟩, some ⟨3, 30, 1⟩], 2, 2⟩ : HashMap Nat Nat) 0 = some ⟨1, 10, 0⟩ ∧
    find_place (fun _ : Nat => 0)
      (⟨[some ⟨1, 10, 0⟩, some ⟨3, 30, 1⟩], 2, 2⟩ : HashMap Nat Nat) 1 = 0 :=
  have h1 : Reachable (fun _ : Nat => 0) (⟨[some ⟨1, 10, 0⟩], 1, 1⟩ : HashMap Nat Nat) :=
    Reachable.insert (f := 1) (p := (1, 10)) Reachable.empty (by decide)
  have hR : Reachable (fun _ : Nat => 0)
      (⟨[some ⟨1, 10, 0⟩, some ⟨3, 30, 1⟩], 2, 2⟩ : HashMap Nat Nat) :=
    Reachable.insert (f := 4) (p := (3, 30)) h1 (by decide)
  ⟨hR, rfl,
    C6_keys_unique (fun _ : Nat => 0) _ hR
      (find_place (fun _ : Nat => 0)
        (⟨[some ⟨1, 10, 0⟩, some ⟨3, 30, 1⟩], 2, 2⟩ : HashMap Nat Nat) 1) 0
      ⟨1, 10, 0⟩ ⟨1, 10, 0⟩ (by decide) (by decide) rfl⟩

/-- Claim C7. In every reachable table `size_` equals the number of occupied
slots of the slot array and is at most `capacity_`; and for every list of `n`
pairs with pairwise distinct keys and every list of `m` pairwise distinct keys
among them, inserting the pairs into the empty table returns, and erasing the
keys from the result leaves `size_ = n - m`. -/
theorem C7_size_accounting [DecidableEq K] [Inhabited V] (hash : K → Nat) (t : HashMap K V)
    (hR : Reachable hash t) :
    t.size_ = occupied t.data_ ∧ t.size_ ≤ t.capacity_ ∧
    ∀ (ps : List (K × V)) (ks : List K), (ps.map Prod.fst).Nodup → ks.Nodup →
      (∀ k, k ∈ ks → k ∈ ps.map Prod.fst) →
      (∃ t1 N, ∀ f, N ≤ f → insert_list hash f empty ps = some t1) ∧
      ∀ f t1, insert_list hash f empty ps = some t1 →
        t1.size_ = ps.length ∧ (erase_list hash t1 ks).size_ = ps.length - ks.length := by
  have hI := inv_of_reachable hash hR
  refine ⟨hI.size_eq, ?_, ?_⟩
  · rw [hI.size_eq, ← hI.len]
    exact occupied_le_length _
  · intro ps ks hps hks hsub
    have hI0 : Inv hash (empty : HashMap K V) := inv_empty hash
    have hno : ∀ x, ¬ HasKey (empty : HashMap K V) x := by
      rintro x ⟨i, e, hs, _⟩
      have : slot (empty : HashMap K V) i = none := cell_replicate 1 i
      rw [this] at hs; cases hs
    obtain ⟨hex, hall⟩ := insert_list_spec hash ps empty hI0 hps (fun k _ => hno k)
    refine ⟨hex, fun f t1 h => ?_⟩
    obtain ⟨hI1, hsz, hkeys⟩ := hall f t1 h
    have hsz1 : t1.size_ = ps.length := by
      rw [hsz]
      show 0 + ps.length = ps.length
      omega
    have := erase_list_spec hash ks t1 hI1 hks
      (fun k hk => (hkeys k).2 (Or.inr (hsub k hk)))
    exact ⟨hsz1, by omega⟩

/-- Instance of C7: keys `1`, `3`, `7` inserted with the identity hash, then
`3` erased: the size is `3 - 1`. -/
theorem C7_size_accounting_witness :
    Reachable (fun k : Nat => k) (⟨[some ⟨1, 10, 0⟩], 1, 1⟩ : HashMap Nat Nat) ∧
    insert_list (fun k : Nat => k) 12 (empty : HashMap Nat Nat) [(1, 10), (3, 30), (7, 70)]
      = some ⟨[none, some ⟨1, 10, 0⟩, none, some ⟨3, 30, 0⟩, none, none, none,
          some ⟨7, 70, 0⟩], 3, 8⟩ ∧
    (erase_list (fun k : Nat => k)
      (⟨[none, some ⟨1, 10, 0⟩, none, some ⟨3, 30, 0⟩, none, none, none,
          some ⟨7, 70, 0⟩], 3, 8⟩ : HashMap Nat Nat) [3]).size_ = 3 - 1 :=
  have hR : Reachable (fun k : Nat => k) (⟨[some ⟨1, 10, 0⟩], 1, 1⟩ : HashMap Nat Nat) :=
    Reachable.insert (f := 1) (p := (1, 10)) Reachable.empty (by decide)
  ⟨hR, by decide,
    (((C7_size_accounting (fun k : Nat => k) _ hR).2.2 [(1, 10), (3, 30), (7, 70)] [3]
      (by decide) (by decide) (by decide)).2 12 _ (by decide)).2⟩

/-- Claim C8. For every reachable table and key `k`: `at(k)` throws
`out_of_range` if and only if `k` is not stored, and returns the stored value
of `k` when it is.  The method is `const`: it is a function of the table and
returns no new table, so it never inserts. -/
theorem C8_at [DecidableEq K] [Inhabited V] (hash : K → Nat) (t : HashMap K V)
    (hR : Reachable hash t) (k : K) :
    (at_ hash t k = Except.error Error.out_of_range ↔ ¬ HasKey t k) ∧
    ∀ v, Stored t k v → at_ hash t k = Except.ok (some v) := by
  have hI := inv_of_reachable hash hR
  refine ⟨⟨fun h hk => ?_, at_absent hI⟩, fun v hv => at_stored hI hv⟩
  obtain ⟨v, hv⟩ := (hasKey_iff_stored t k).1 hk
  rw [at_stored hI hv] at h
  cases h

/-- Instance of C8: in the table holding `(1, 10)`, `at(1)` is `10` and `at(2)`
throws. -/
theorem C8_at_witness :
    Reachable (fun k : Nat => k) (⟨[some ⟨1, 10, 0⟩], 1, 1⟩ : HashMap Nat Nat) ∧
    at_ (fun k : Nat => k) (⟨[some ⟨1, 10, 0⟩], 1, 1⟩ : HashMap Nat Nat) 1
      = Except.ok (some 10) ∧
    at_ (fun k : Nat => k) (⟨[some ⟨1, 10, 0⟩], 1, 1⟩ : HashMap Nat Nat) 2
      = Except.error Error.out_of_range :=
  have hR : Reachable (fun k : Nat => k) (⟨[some ⟨1, 10, 0⟩], 1, 1⟩ : HashMap Nat Nat) :=
    Reachable.insert (f := 1) (p := (1, 10)) Reachable.empty (by decide)
  ⟨hR, (C8_at (fun k : Nat => k) _ hR 1).2 10 ⟨0, 0, rfl⟩,
    (C8_at (fun k : Nat => k) _ hR 2).1.2 (by rw [hasKey_iff_contains]; decide)⟩

/-- Claim C9. For every reachable table and key `k`: `operator[](k)` returns
(with enough fuel), so it never fails.  If `k` is absent, the returned
reference is to a slot holding `k` with the default value, the size has grown
by exactly 1, and after assigning `w` through the reference `at(k)` is `w`,
for every `w` (such as `5`).  If `k` is present, the table is unchanged and
the reference is to the slot holding the pair of `k`. -/
theorem C9_index_operator [DecidableEq K] [Inhabited V] (hash : K → Nat) (t : HashMap K V)
    (hR : Reachable hash t) (k : K) :
    (∃ r N, ∀ f, N ≤ f → index hash f t k = some r) ∧
    (¬ HasKey t k → ∀ f t1 i, index hash f t k = some (t1, i) →
      deref t1 i = some (k, default) ∧ t1.size_ = t.size_ + 1 ∧
      ∀ w, (assign t1 i w).size_ = t.size_ + 1 ∧
        at_ hash (assign t1 i w) k = Except.ok (some w)) ∧
    (∀ v, Stored t k v → ∀ f, ∃ i, index hash f t k = some (t, i) ∧
      deref t i = some (k, v)) := by
  have hI := inv_of_reachable hash hR
  refine ⟨?_, fun hk f t1 i h => ?_, fun v hv f => ?_⟩
  · by_cases hk : HasKey t k
    · obtain ⟨i, e, hs, rfl⟩ := hk
      exact ⟨(t, i), 0, fun f _ => index_present hI f hs⟩
    · obtain ⟨t1, ⟨N, hN⟩, _, _⟩ :=
        insert_entry_total hash hI { key := k, value := default, cost := 0 } hk
      refine ⟨(t1, find_place hash t1 k), N, fun f hf => ?_⟩
      rw [index_absent hI f hk]
      have := hN f hf
      simp only at this
      rw [this]
  · rw [index_absent hI f hk] at h
    cases hi : insert_entry hash f t { key := k, value := default, cost := 0 } with
    | none => rw [hi] at h; cases h
    | some t2 =>
      rw [hi] at h
      simp only [Option.some.injEq, Prod.mk.injEq] at h
      obtain ⟨h1, h2⟩ := h
      subst h1
      obtain ⟨t3, _, hP, hU⟩ :=
        insert_entry_total hash hI { key := k, value := default, cost := 0 } hk
      have h3 := hU f t2 hi
      subst h3
      obtain ⟨j, c, hj⟩ := (hP.stored k default).2 (Or.inr ⟨rfl, rfl⟩)
      have hfp : find_place hash t2 k = j := find_place_hit hP.inv hj
      rw [hfp] at h2
      subst h2
      have hsz : t2.size_ = t.size_ + 1 := hP.size
      refine ⟨by unfold deref; rw [hj]; rfl, hsz, fun w => ⟨?_, ?_⟩⟩
      · have : (assign t2 j w).size_ = t2.size_ := by
          unfold assign; cases slot t2 j <;> rfl
        rw [this, hsz]
      · apply at_stored (inv_assign hP.inv j w)
        refine ⟨j, c, ?_⟩
        rw [slot_assign, hj]
        simp
  · obtain ⟨i, c, hi⟩ := hv
    refine ⟨i, index_present hI f hi, ?_⟩
    unfold deref
    rw [hi]
    rfl

/-- Instance of C9: `m[2] = 5` on the table holding `(1, 10)`, identity hash:
the table is resized to capacity 2, key `2` lands in slot `0`, and `at(2)` is
`5` afterwards. -/
theorem C9_index_operator_witness :
    Reachable (fun k : Nat => k) (⟨[some ⟨1, 10, 0⟩], 1, 1⟩ : HashMap Nat Nat) ∧
    index (fun k : Nat => k) 6 (⟨[some ⟨1, 10, 0⟩], 1, 1⟩ : HashMap Nat Nat) 2
      = some (⟨[some ⟨2, 0, 0⟩, some ⟨1, 10, 0⟩], 2, 2⟩, 0) ∧
    at_ (fun k : Nat => k)
      (assign (⟨[some ⟨2, 0, 0⟩, some ⟨1, 10, 0⟩], 2, 2⟩ : HashMap Nat Nat) 0 5) 2
      = Except.ok (some 5) :=
  have hR : Reachable (fun k : Nat => k) (⟨[some ⟨1, 10, 0⟩], 1, 1⟩ : HashMap Nat Nat) :=
    Reachable.insert (f := 1) (p := (1, 10)) Reachable.empty (by decide)
  ⟨hR, by decide,
    (((C9_index_operator (fun k : Nat => k) _ hR 2).2.1
      (by rw [hasKey_iff_contains]; decide) 6 _ 0 (by decide)).2.2 5).2⟩

/-- Claim C10. For every reachable table and key `k`: `erase(k)` leaves the
table (slot array, size and capacity) unchanged when `k` is not stored, and
erasing `k` twice gives the same table as erasing it once. -/
theorem C10_erase_idempotent [DecidableEq K] [Inhabited V] (hash : K → Nat) (t : HashMap K V)
    (hR : Reachable hash t) (k : K) :
    (¬ HasKey t k → erase hash t k = t) ∧
    erase hash (erase hash t k) k = erase hash t k := by
  have hI := inv_of_reachable hash hR
  exact ⟨fun hk => erase_absent hI hk,
    erase_absent (inv_erase hash hI k) (erase_stored hI k).1⟩

/-- Instance of C10: erasing key `1` twice from the table holding keys `1` and
`3`, both hashed to `0`. -/
theorem C10_erase_idempotent_witness :
    Reachable (fun _ : Nat => 0) (⟨[some ⟨1, 10, 0⟩, some ⟨3, 30, 1⟩], 2, 2⟩ : HashMap Nat Nat) ∧
    erase (fun _ : Nat => 0) (⟨[some ⟨1, 10, 0⟩, some ⟨3, 30, 1⟩], 2, 2⟩ : HashMap Nat Nat) 1
      = ⟨[some ⟨3, 30, 0⟩, none], 1, 2⟩ ∧
    erase (fun _ : Nat => 0)
      (erase (fun _ : Nat => 0)
        (⟨[some ⟨1, 10, 0⟩, some ⟨3, 30, 1⟩], 2, 2⟩ : HashMap Nat Nat) 1) 1
      = erase (fun _ : Nat => 0)
        (⟨[some ⟨1, 10, 0⟩, some ⟨3, 30, 1⟩], 2, 2⟩ : HashMap Nat Nat) 1 :=
  have h1 : Reachable (fun _ : Nat => 0) (⟨[some ⟨1, 10, 0⟩], 1, 1⟩ : HashMap Nat Nat) :=
    Reachable.insert (f := 1) (p := (1, 10)) Reachable.empty (by decide)
  have hR : Reachable (fun _ : Nat => 0)
      (⟨[some ⟨1, 10, 0⟩, some ⟨3, 30, 1⟩], 2, 2⟩ : HashMap Nat Nat) :=
    Reachable.insert (f := 4) (p := (3, 30)) h1 (by decide)
  ⟨hR, by decide, (C10_erase_idempotent (fun _ : Nat => 0) _ hR 1).2⟩

/-! ## Capacity -/

/-- If the probe scan reaches an empty slot before index `capacity_`, the
insertion loop returns a table of the same capacity. -/
theorem cap_of_no_overflow (hash : K → Nat) :
    ∀ (n : Nat) (t : HashMap K V) (e : map_entry K V) (h : Nat),
      probe_overflows n t e h = false →
      ∀ f r, insert_loop hash f t e h = some r → r.capacity_ = t.capacity_ := by
  intro n
  induction n with
  | zero => intro t e h hp; simp [probe_overflows] at hp
  | succ n ih =>
    intro t e h hp f r hr
    cases f with
    | zero => simp [insert_loop] at hr
    | succ f =>
      by_cases hcap : h = t.capacity_
      · simp [probe_overflows, hcap] at hp
      · cases hs : slot t h with
        | none =>
          rw [insert_loop_place hash f t e h hcap hs] at hr
          cases hr
          rfl
        | some occ =>
          by_cases hc : occ.cost < e.cost
          · rw [insert_loop_swap hash f t e occ h hcap hs hc] at hr
            simp only [probe_overflows, hcap, if_false, hs, hc, if_true] at hp
            exact ih _ _ _ hp f r hr
          · rw [insert_loop_pass hash f t e occ h hcap hs hc] at hr
            simp only [probe_overflows, hcap, if_false, hs, hc] at hp
            exact ih _ _ _ hp f r hr

/-- If the probe scan reaches index `capacity_`, the insertion loop returns a
table whose capacity is the old one times a positive power of two. -/
theorem cap_of_overflow (hash : K → Nat) :
    ∀ (n : Nat) (t : HashMap K V) (e : map_entry K V) (h : Nat), ScanInv hash t e h →
      t.capacity_ - h < n → probe_overflows n t e h = true →
      ∀ f r, insert_loop hash f t e h = some r →
        ∃ m, r.capacity_ = t.capacity_ * 2 ^ (m + 1) := by
  intro n
  induction n with
  | zero => intro t e h _ hn; omega
  | succ n ih =>
    intro t e h hS hn hp f r hr
    cases f with
    | zero => simp [insert_loop] at hr
    | succ f =>
      by_cases hcap : h = t.capacity_
      · subst hcap
        have hI := hS.inv
        obtain ⟨t1, _, hI1, ⟨m1, hm1⟩, _, hst1, hU1⟩ := resize_spec hash hI
        cases hres : resize hash f t with
        | none => rw [insert_loop_overflow_none hash f t e hres] at hr; cases hr
        | some t2 =>
          have ht2 := hU1 f t2 hres
          subst ht2
          rw [insert_loop_overflow hash f t t2 e hres hI1.cap_pos] at hr
          have hfresh : ¬ HasKey t2 e.key := by
            intro hk
            obtain ⟨v, hv⟩ := (hasKey_iff_stored t2 e.key).1 hk
            obtain ⟨i, c, hi⟩ := (hst1 e.key v).1 hv
            exact hS.fresh i _ hi rfl
          obtain ⟨t3, _, hP, hU⟩ := insert_entry_total hash hI1 e hfresh
          have hr3 := hU (f + 1) r hr
          subst hr3
          obtain ⟨m2, hm2⟩ := hP.cap
          refine ⟨m1 + m2, ?_⟩
          rw [hm2, hm1, mul_assoc, ← pow_add]
          congr 2
          omega
      · have hlt : h < t.capacity_ := by have := hS.h_le; omega
        cases hs : slot t h with
        | none => simp [probe_overflows, hcap, hs] at hp
        | some occ =>
          by_cases hc : occ.cost < e.cost
          · rw [insert_loop_swap hash f t e occ h hcap hs hc] at hr
            simp only [probe_overflows, hcap, if_false, hs, hc, if_true] at hp
            exact ih _ _ _ (scanInv_swap hS hs hc)
              (by show t.capacity_ - (h + 1) < n; omega) hp f r hr
          · rw [insert_loop_pass hash f t e occ h hcap hs hc] at hr
            simp only [probe_overflows, hcap, if_false, hs, hc] at hp
            exact ih _ _ _ (scanInv_pass hS hs hc) (by omega) hp f r hr

theorem insert_cap [DecidableEq K] {hash : K → Nat} {t t1 : HashMap K V} (hI : Inv hash t)
    {f : Nat} {p : K × V} (h : insert hash f t p = some t1) :
    ∃ n, t1.capacity_ = t.capacity_ * 2 ^ n := by
  by_cases hk : HasKey t p.1
  · rw [insert_present hI f p hk] at h
    cases h
    exact ⟨0, by simp⟩
  · obtain ⟨t2, _, hP, hU⟩ := insert_total hash hI p.1 p.2 hk
    rw [hU f t1 h]
    exact hP.cap

theorem erase_cap [DecidableEq K] {hash : K → Nat} {t : HashMap K V} (hI : Inv hash t)
    (k : K) : (erase hash t k).capacity_ = t.capacity_ := by
  by_cases hk : HasKey t k
  · obtain ⟨i, e, hs, rfl⟩ := hk
    exact (erase_present hI hs).2.1
  · rw [erase_absent hI hk]

theorem index_cap [DecidableEq K] [Inhabited V] {hash : K → Nat} {t t1 : HashMap K V}
    (hI : Inv hash t) {f : Nat} {k : K} {i : Nat} (h : index hash f t k = some (t1, i)) :
    ∃ n, t1.capacity_ = t.capacity_ * 2 ^ n := by
  by_cases hk : HasKey t k
  · obtain ⟨j, e, hs, rfl⟩ := hk
    rw [index_present hI f hs] at h
    simp only [Option.some.injEq, Prod.mk.injEq] at h
    rw [← h.1]
    exact ⟨0, by simp⟩
  · rw [index_absent hI f hk] at h
    cases hi : insert_entry hash f t { key := k, value := default, cost := 0 } with
    | none => rw [hi] at h; cases h
    | some t2 =>
      rw [hi] at h
      simp only [Option.some.injEq, Prod.mk.injEq] at h
      rw [← h.1]
      obtain ⟨t3, _, hP, hU⟩ :=
        insert_entry_total hash hI { key := k, value := default, cost := 0 } hk
      rw [hU f t2 hi]
      exact hP.cap

theorem assign_cap (t : HashMap K V) (i : Nat) (v : V) :
    (assign t i v).capacity_ = t.capacity_ := by
  unfold assign; cases slot t i <;> rfl

/-- The capacity of a reachable table is a power of two. -/
theorem cap_pow_of_reachable [DecidableEq K] [Inhabited V] (hash : K → Nat) {t : HashMap K V}
    (hR : Reachable hash t) : ∃ n, t.capacity_ = 2 ^ n := by
  induction hR with
  | empty => exact ⟨0, rfl⟩
  | insert hR h ih =>
    obtain ⟨n, hn⟩ := ih
    obtain ⟨m, hm⟩ := insert_cap (inv_of_reachable hash hR) h
    exact ⟨n + m, by rw [hm, hn, pow_add]⟩
  | erase k hR ih =>
    obtain ⟨n, hn⟩ := ih
    exact ⟨n, by rw [erase_cap (inv_of_reachable hash hR) k, hn]⟩
  | index hR h ih =>
    obtain ⟨n, hn⟩ := ih
    obtain ⟨m, hm⟩ := index_cap (inv_of_reachable hash hR) h
    exact ⟨n + m, by rw [hm, hn, pow_add]⟩
  | assign v hR h ih =>
    obtain ⟨n, hn⟩ := ih
    obtain ⟨m, hm⟩ := index_cap (inv_of_reachable hash hR) h
    exact ⟨n + m, by rw [assign_cap, hm, hn, pow_add]⟩
  | clear hR ih => exact ih

/-- Claim C11. The empty table has capacity 1 and the capacity of every
reachable table is a power of two.  On a reachable table `erase`, `clear` and
an assignment through a reference keep the capacity (`find` and `at` are
`const` and return no table), and `insert` and `operator[]` multiply it by a
power of two, so no operation decreases it.  An `insert` changes the capacity
exactly when the key is absent and the probe scan of `insert_entry` reaches
index `capacity_`; it keeps it when the key is present or an empty slot is
reached first. -/
theorem C11_capacity [DecidableEq K] [Inhabited V] (hash : K → Nat) (t : HashMap K V)
    (hR : Reachable hash t) :
    (empty : HashMap K V).capacity_ = 1 ∧
    (∃ n, t.capacity_ = 2 ^ n) ∧
    (∀ k, (erase hash t k).capacity_ = t.capacity_) ∧
    (clear t).capacity_ = t.capacity_ ∧
    (∀ i v, (assign t i v).capacity_ = t.capacity_) ∧
    (∀ f p t1, insert hash f t p = some t1 → ∃ n, t1.capacity_ = t.capacity_ * 2 ^ n) ∧
    (∀ f k t1 i, index hash f t k = some (t1, i) →
      ∃ n, t1.capacity_ = t.capacity_ * 2 ^ n) ∧
    (∀ f k v t1, insert hash f t (k, v) = some t1 →
      (t1.capacity_ ≠ t.capacity_ ↔
        (¬ HasKey t k ∧ insert_overflows hash t k v = true))) := by
  have hI := inv_of_reachable hash hR
  refine ⟨rfl, cap_pow_of_reachable hash hR, fun k => erase_cap hI k, rfl,
    fun i v => assign_cap t i v, fun f p t1 h => insert_cap hI h,
    fun f k t1 i h => index_cap hI h, fun f k v t1 h => ⟨fun hne => ?_, fun hov => ?_⟩⟩
  · by_cases hk : HasKey t k
    · rw [insert_present hI f (k, v) hk] at h
      cases h
      exact absurd rfl hne
    · refine ⟨hk, ?_⟩
      rw [insert_absent hI f (k, v) hk] at h
      cases hov : insert_overflows hash t k v with
      | true => rfl
      | false =>
        exact absurd (cap_of_no_overflow hash _ t _ _ hov f t1 h) hne
  · obtain ⟨hk, hov⟩ := hov
    rw [insert_absent hI f (k, v) hk] at h
    obtain ⟨m, hm⟩ := cap_of_overflow hash (t.capacity_ + 1) t _ _
      (scanInv_start hI { key := k, value := v, cost := 0 } hk) (by omega) hov f t1 h
    have hpos := hI.cap_pos
    have h2 : 2 ≤ 2 ^ (m + 1) := by
      rw [pow_succ]
      have := Nat.one_le_two_pow (n := m)
      omega
    have := Nat.mul_le_mul_left t.capacity_ h2
    omega

/-- Instance of C11: with the identity hash, inserting key `3` into the table
of capacity 1 holding key `1` reaches index `capacity_` and gives capacity
`4 = 1 * 2 ^ 2`. -/
theorem C11_capacity_witness :
    Reachable (fun k : Nat => k) (⟨[some ⟨1, 10, 0⟩], 1, 1⟩ : HashMap Nat Nat) ∧
    insert (fun k : Nat => k) 6 (⟨[some ⟨1, 10, 0⟩], 1, 1⟩ : HashMap Nat Nat) (3, 30)
      = some ⟨[none, some ⟨1, 10, 0⟩, none, some ⟨3, 30, 0⟩], 2, 4⟩ ∧
    (¬ HasKey (⟨[some ⟨1, 10, 0⟩], 1, 1⟩ : HashMap Nat Nat) 3 ∧
      insert_overflows (fun k : Nat => k) (⟨[some ⟨1, 10, 0⟩], 1, 1⟩ : HashMap Nat Nat) 3 30
        = true) :=
  have hR : Reachable (fun k : Nat => k) (⟨[some ⟨1, 10, 0⟩], 1, 1⟩ : HashMap Nat Nat) :=
    Reachable.insert (f := 1) (p := (1, 10)) Reachable.empty (by decide)
  ⟨hR, by decide,
    ((C11_capacity (fun k : Nat => k) _ hR).2.2.2.2.2.2.2 6 3 30
      ⟨[none, some ⟨1, 10, 0⟩, none, some ⟨3, 30, 0⟩], 2, 4⟩ (by decide)).1 (by decide)⟩

/-! ## Iteration -/

theorem occupied_from_zero (t : HashMap K V) : occupied_from t 0 = occupied_indices t := by
  unfold occupied_from occupied_indices
  rw [List.range_eq_range']
  rfl

theorem occupied_from_cap (t : HashMap K V) : occupied_from t t.capacity_ = [] := by
  unfold occupied_from
  simp

theorem occupied_from_none (t : HashMap K V) (i : Nat) (hi : i < t.capacity_)
    (hs : slot t i = none) : occupied_from t i = occupied_from t (i + 1) := by
  unfold occupied_from
  have : t.capacity_ - i = (t.capacity_ - (i + 1)) + 1 := by omega
  rw [this, List.range'_succ]
  simp [List.filter_cons, hs]

theorem occupied_from_some (t : HashMap K V) (i : Nat) (hi : i < t.capacity_)
    (e : map_entry K V) (hs : slot t i = some e) :
    occupied_from t i = i :: occupied_from t (i + 1) := by
  unfold occupied_from
  have : t.capacity_ - i = (t.capacity_ - (i + 1)) + 1 := by omega
  rw [this, List.range'_succ]
  simp [List.filter_cons, hs]

/-- The skipping loop started at `i ≤ capacity_` stops at the next occupied
slot, or at `capacity_` when there is none. -/
theorem skip_empty_spec (t : HashMap K V) :
    ∀ (n i : Nat), t.capacity_ - i ≤ n → i ≤ t.capacity_ →
      i ≤ skip_empty t n i ∧ skip_empty t n i ≤ t.capacity_ ∧
      (skip_empty t n i = t.capacity_ ∨ ∃ e, slot t (skip_empty t n i) = some e) ∧
      occupied_from t i = occupied_from t (skip_empty t n i) := by
  intro n
  induction n with
  | zero =>
    intro i hn hi
    have : i = t.capacity_ := by omega
    subst this
    exact ⟨le_refl _, le_refl _, Or.inl rfl, rfl⟩
  | succ n ih =>
    intro i hn hi
    by_cases hlt : i < t.capacity_
    · cases hs : slot t i with
      | none =>
        have hsk : skip_empty t (n + 1) i = skip_empty t n (i + 1) := by
          simp [skip_empty, hlt, hs]
        rw [hsk]
        obtain ⟨h1, h2, h3, h4⟩ := ih (i + 1) (by omega) (by omega)
        exact ⟨by omega, h2, h3, by rw [occupied_from_none t i hlt hs, h4]⟩
      | some e =>
        have hsk : skip_empty t (n + 1) i = i := by
          simp [skip_empty, hlt, hs]
        rw [hsk]
        exact ⟨le_refl _, hi, Or.inr ⟨e, hs⟩, rfl⟩
    · have hsk : skip_empty t (n + 1) i = i := by
        simp [skip_empty, hlt]
      rw [hsk]
      exact ⟨le_refl _, hi, Or.inl (by omega), rfl⟩

/-- From an iterator that is `end()` or points to an occupied slot, the
traversal visits the occupied slots from there on, and reaches `end()` exactly
when it is allowed as many increments as there are such slots. -/
theorem traverse_spec (t : HashMap K V) :
    ∀ (n i : Nat), i ≤ t.capacity_ → (i = t.capacity_ ∨ ∃ e, slot t i = some e) →
      traverse t n i
        = if (occupied_from t i).length ≤ n then some (occupied_from t i) else none := by
  intro n
  induction n with
  | zero =>
    intro i hi hset
    by_cases hc : i = t.capacity_
    · subst hc
      simp [traverse, end_eq, occupied_from_cap]
    · rcases hset with h | ⟨e, he⟩
      · exact absurd h hc
      · rw [occupied_from_some t i (by omega) e he]
        simp [traverse, end_eq, hc]
  | succ n ih =>
    intro i hi hset
    by_cases hc : i = t.capacity_
    · subst hc
      simp [traverse, end_eq, occupied_from_cap]
    · rcases hset with h | ⟨e, he⟩
      · exact absurd h hc
      · have hlt : i < t.capacity_ := by omega
        obtain ⟨_, h2, h3, h4⟩ := skip_empty_spec t (t.capacity_ - (i + 1)) (i + 1)
          (le_refl _) (by omega)
        have hnext : iterator_next t i = skip_empty t (t.capacity_ - (i + 1)) (i + 1) := rfl
        rw [← hnext] at h2 h3 h4
        have := ih (iterator_next t i) h2 h3
        rw [occupied_from_some t i hlt e he, h4]
        simp only [traverse, end_eq, hc, if_false, this, List.length_cons]
        by_cases hl : (occupied_from t (iterator_next t i)).length ≤ n
        · simp [hl]
        · simp [hl]

theorem occupied_indices_length_aux (d : List (Option (map_entry K V))) :
    ((List.range d.length).filter fun j => (cell d j).isSome).length = occupied d := by
  induction d with
  | nil => rfl
  | cons x d ih =>
    rw [List.length_cons, List.range_succ_eq_map, List.filter_cons, List.filter_map,
      cell_cons_zero]
    have hcomp : ((fun j => (cell (x :: d) j).isSome) ∘ Nat.succ)
        = fun j => (cell d j).isSome := by
      funext j
      simp [Function.comp, cell_cons_succ]
    rw [hcomp]
    cases x with
    | none =>
      simp only [Option.isSome_none, List.length_map, occupied, List.countP_cons] at ih ⊢
      simpa using ih
    | some e =>
      simp only [Option.isSome_some, if_true, List.length_cons, List.length_map, occupied,
        List.countP_cons] at ih ⊢
      simpa using ih

theorem occupied_indices_length {hash : K → Nat} {t : HashMap K V} (hI : Inv hash t) :
    (occupied_indices t).length = t.size_ := by
  rw [hI.size_eq, ← occupied_indices_length_aux t.data_, hI.len]
  rfl

theorem mem_occupied_indices (t : HashMap K V) (i : Nat) :
    i ∈ occupied_indices t ↔ (i < t.capacity_ ∧ ∃ e, slot t i = some e) := by
  unfold occupied_indices
  rw [List.mem_filter, List.mem_range]
  constructor
  · rintro ⟨h1, h2⟩
    cases hs : slot t i with
    | none => simp [hs] at h2
    | some e => exact ⟨h1, e, rfl⟩
  · rintro ⟨h1, e, he⟩
    exact ⟨h1, by simp [he]⟩

/-- The method `begin()` on a valid table: the first occupied slot, and the
traversal from it. -/
theorem traverse_begin {hash : K → Nat} {t : HashMap K V} (hI : Inv hash t) (n : Nat) :
    traverse t n (begin_ t) = if t.size_ ≤ n then some (occupied_indices t) else none := by
  obtain ⟨_, h2, h3, h4⟩ := skip_empty_spec t (t.capacity_ - 0) 0 (le_refl _) (Nat.zero_le _)
  have hb : begin_ t = skip_empty t (t.capacity_ - 0) 0 := rfl
  rw [← hb] at h2 h3 h4
  rw [traverse_spec t n (begin_ t) h2 h3, ← h4, occupied_from_zero,
    occupied_indices_length hI]

theorem begin_eq_end_iff {hash : K → Nat} {t : HashMap K V} (hI : Inv hash t) :
    begin_ t = end_ t ↔ t.size_ = 0 := by
  obtain ⟨_, h2, h3, h4⟩ := skip_empty_spec t (t.capacity_ - 0) 0 (le_refl _) (Nat.zero_le _)
  have hb : begin_ t = skip_empty t (t.capacity_ - 0) 0 := rfl
  rw [← hb] at h2 h3 h4
  rw [occupied_from_zero] at h4
  rw [end_eq, ← occupied_indices_length hI, h4]
  constructor
  · intro h
    rw [h, occupied_from_cap]
    rfl
  · intro h
    by_contra hne
    rcases h3 with h3 | ⟨e, he⟩
    · exact hne h3
    · rw [occupied_from_some t (begin_ t) (by omega) e he] at h
      simp at h

/-- Claim C12. For every reachable table: the traversal from `begin()` by
repeated `++` reaches `end()` exactly when it is allowed `size()` increments or
more, and the iterators it visits are the indices of the occupied slots in
strictly ascending order (empty slots are skipped).  Every stored pair is
dereferenced at exactly one visited iterator, every visited iterator
dereferences to a stored pair, and `begin() == end()` iff the table is
empty. -/
theorem C12_iteration [DecidableEq K] [Inhabited V] (hash : K → Nat) (t : HashMap K V)
    (hR : Reachable hash t) :
    (∀ n, traverse t n (begin_ t)
      = if t.size_ ≤ n then some (occupied_indices t) else none) ∧
    (occupied_indices t).Pairwise (fun a b => a < b) ∧
    (∀ i, i ∈ occupied_indices t ↔ (i < t.capacity_ ∧ ∃ e, slot t i = some e)) ∧
    (occupied_indices t).length = t.size_ ∧
    (∀ k v, Stored t k v → ∃ i, i ∈ occupied_indices t ∧ deref t i = some (k, v) ∧
      ∀ j, j ∈ occupied_indices t → deref t j = some (k, v) → j = i) ∧
    (∀ i, i ∈ occupied_indices t → ∃ k v, deref t i = some (k, v) ∧ Stored t k v) ∧
    (begin_ t = end_ t ↔ t.size_ = 0) := by
  have hI := inv_of_reachable hash hR
  refine ⟨traverse_begin hI, ?_, mem_occupied_indices t, occupied_indices_length hI, ?_, ?_,
    begin_eq_end_iff hI⟩
  · exact (List.pairwise_lt_range t.capacity_).sublist (List.filter_sublist _)
  · rintro k v ⟨i, c, hi⟩
    refine ⟨i, (mem_occupied_indices t i).2 ⟨slot_lt_of_some hI hi, _, hi⟩, ?_, ?_⟩
    · unfold deref; rw [hi]; rfl
    · intro j hj hd
      obtain ⟨_, e, he⟩ := (mem_occupied_indices t j).1 hj
      unfold deref at hd
      rw [he] at hd
      simp only [Option.map_some', Option.some.injEq, Prod.mk.injEq] at hd
      exact hI.uniq j i e _ he hi hd.1
  · intro i hi
    obtain ⟨_, e, he⟩ := (mem_occupied_indices t i).1 hi
    exact ⟨e.key, e.value, by unfold deref; rw [he]; rfl, stored_of_slot he⟩

/-- Instance of C12: the table of capacity 4 holding keys `1` and `3` in slots
`1` and `3`: two increments from `begin()` reach `end()` and visit `[1, 3]`;
one increment does not reach `end()`. -/
theorem C12_iteration_witness :
    Reachable (fun k : Nat => k)
      (⟨[none, some ⟨1, 10, 0⟩, none, some ⟨3, 30, 0⟩], 2, 4⟩ : HashMap Nat Nat) ∧
    traverse (⟨[none, some ⟨1, 10, 0⟩, none, some ⟨3, 30, 0⟩], 2, 4⟩ : HashMap Nat Nat) 2
      (begin_ (⟨[none, some ⟨1, 10, 0⟩, none, some ⟨3, 30, 0⟩], 2, 4⟩ : HashMap Nat Nat))
      = some [1, 3] ∧
    traverse (⟨[none, some ⟨1, 10, 0⟩, none, some ⟨3, 30, 0⟩], 2, 4⟩ : HashMap Nat Nat) 1
      (begin_ (⟨[none, some ⟨1, 10, 0⟩, none, some ⟨3, 30, 0⟩], 2, 4⟩ : HashMap Nat Nat))
      = none ∧
    (occupied_indices
      (⟨[none, some ⟨1, 10, 0⟩, none, some ⟨3, 30, 0⟩], 2, 4⟩ : HashMap Nat Nat)).length = 2 :=
  have h1 : Reachable (fun k : Nat => k) (⟨[some ⟨1, 10, 0⟩], 1, 1⟩ : HashMap Nat Nat) :=
    Reachable.insert (f := 1) (p := (1, 10)) Reachable.empty (by decide)
  have hR : Reachable (fun k : Nat => k)
      (⟨[none, some ⟨1, 10, 0⟩, none, some ⟨3, 30, 0⟩], 2, 4⟩ : HashMap Nat Nat) :=
    Reachable.insert (f := 6) (p := (3, 30)) h1 (by decide)
  ⟨hR, by decide, by decide, (C12_iteration (fun k : Nat => k) _ hR).2.2.2.1⟩

/-! ## Clear -/

theorem list_eq_of_cells (d1 d2 : List (Option (map_entry K V))) (hl : d1.length = d2.length)
    (hc : ∀ i, cell d1 i = cell d2 i) : d1 = d2 := by
  apply List.ext_getElem hl
  intro n h1 h2
  have := hc n
  unfold cell at this
  rw [List.getElem?_eq_getElem h1, List.getElem?_eq_getElem h2] at this
  simpa using this

/-- On a valid table `clear` gives the freshly allocated table of the same
capacity. -/
theorem clear_eq {hash : K → Nat} {t : HashMap K V} (hI : Inv hash t) :
    clear t = ⟨List.replicate t.capacity_ none, 0, t.capacity_⟩ := by
  have hd : (List.range t.capacity_).foldl (fun d i => d.set i none) t.data_
      = List.replicate t.capacity_ none := by
    apply list_eq_of_cells
    · rw [(clear_cells t.capacity_ t.data_).1, hI.len]
      simp
    · intro i
      rw [cell_replicate]
      exact slot_clear hI i
  show (⟨_, 0, t.capacity_⟩ : HashMap K V) = _
  rw [hd]

/-- Claim C13. For every reachable table: `clear()` makes every slot empty,
sets the size to 0 and keeps the capacity; the result is the freshly allocated
table of that capacity, so later inserts behave as on a fresh table; `find(k)`
is `end()` for every key, and the result is again a valid, reachable table. -/
theorem C13_clear [DecidableEq K] [Inhabited V] (hash : K → Nat) (t : HashMap K V)
    (hR : Reachable hash t) :
    (∀ i, slot (clear t) i = none) ∧ (clear t).size_ = 0 ∧
    (clear t).capacity_ = t.capacity_ ∧
    (∀ k, find hash (clear t) k = end_ (clear t)) ∧
    Inv hash (clear t) ∧ Reachable hash (clear t) ∧
    clear t = ⟨List.replicate t.capacity_ none, 0, t.capacity_⟩ ∧
    (∀ f ps, insert_list hash f (clear t) ps
      = insert_list hash f ⟨List.replicate t.capacity_ none, 0, t.capacity_⟩ ps) := by
  have hI := inv_of_reachable hash hR
  have hIc := inv_clear hI
  refine ⟨slot_clear hI, rfl, rfl, fun k => ?_, hIc, Reachable.clear hR, clear_eq hI,
    fun f ps => by rw [clear_eq hI]⟩
  apply find_miss hIc
  rintro ⟨i, e, hs, _⟩
  rw [slot_clear hI i] at hs
  cases hs

/-- Instance of C13: clearing the table of capacity 2 holding keys `1` and
`3`. -/
theorem C13_clear_witness :
    Reachable (fun _ : Nat => 0) (⟨[some ⟨1, 10, 0⟩, some ⟨3, 30, 1⟩], 2, 2⟩ : HashMap Nat Nat) ∧
    clear (⟨[some ⟨1, 10, 0⟩, some ⟨3, 30, 1⟩], 2, 2⟩ : HashMap Nat Nat)
      = ⟨[none, none], 0, 2⟩ ∧
    find (fun _ : Nat => 0)
      (clear (⟨[some ⟨1, 10, 0⟩, some ⟨3, 30, 1⟩], 2, 2⟩ : HashMap Nat Nat)) 3
      = end_ (clear (⟨[some ⟨1, 10, 0⟩, some ⟨3, 30, 1⟩], 2, 2⟩ : HashMap Nat Nat)) :=
  have h1 : Reachable (fun _ : Nat => 0) (⟨[some ⟨1, 10, 0⟩], 1, 1⟩ : HashMap Nat Nat) :=
    Reachable.insert (f := 1) (p := (1, 10)) Reachable.empty (by decide)
  have hR : Reachable (fun _ : Nat => 0)
      (⟨[some ⟨1, 10, 0⟩, some ⟨3, 30, 1⟩], 2, 2⟩ : HashMap Nat Nat) :=
    Reachable.insert (f := 4) (p := (3, 30)) h1 (by decide)
  ⟨hR, by decide, (C13_clear (fun _ : Nat => 0) _ hR).2.2.2.1 3⟩

/-! ## The structural invariants -/

/-- In a table without holes in probe paths, sortedness of the home indices
follows from its instance for adjacent slots. -/
theorem sorted_of_adjacent (t : HashMap K V)
    (hcost : ∀ i e, slot t i = some e → e.cost ≤ i)
    (hdense : ∀ i e, slot t i = some e → ∀ j, i - e.cost ≤ j → j ≤ i → slot t j ≠ none)
    (hadj : ∀ i ei ej, slot t i = some ei → slot t (i + 1) = some ej → ej.cost ≤ ei.cost + 1) :
    ∀ (d i : Nat) (ei ej : map_entry K V), slot t i = some ei → slot t (i + d + 1) = some ej →
      i - ei.cost ≤ i + d + 1 - ej.cost := by
  intro d
  induction d with
  | zero =>
    intro i ei ej hi hj
    have h1 := hadj i ei ej hi hj
    have h2 := hcost i ei hi
    omega
  | succ d ih =>
    intro i ei ej hi hj
    have h2 := hcost i ei hi
    have h3 := hcost _ ej hj
    cases hm : slot t (i + d + 1) with
    | none =>
      by_contra hcon
      exact hdense _ ej hj (i + d + 1) (by omega) (by omega) hm
    | some em =>
      have h4 := ih i ei em hi hm
      have h5 := hadj (i + d + 1) em ej hm hj
      have h6 := hcost _ em hm
      omega

/-- Claim C15. In every reachable table, every occupied slot `i` holding key
`k` with cost `c` satisfies `c ≤ i` and `i - c = hash(k) % capacity`.  The
same holds in every table returned by `resize`, by `insert` (Robin Hood swaps
included) and by `erase` (backward shift) on a reachable table. -/
theorem C15_cost_is_distance [DecidableEq K] [Inhabited V] (hash : K → Nat) (t : HashMap K V)
    (hR : Reachable hash t) :
    (∀ i e, slot t i = some e → e.cost ≤ i ∧ i - e.cost = hash e.key % t.capacity_) ∧
    (∀ f t1, resize hash f t = some t1 →
      ∀ i e, slot t1 i = some e → e.cost ≤ i ∧ i - e.cost = hash e.key % t1.capacity_) ∧
    (∀ f p t1, insert hash f t p = some t1 →
      ∀ i e, slot t1 i = some e → e.cost ≤ i ∧ i - e.cost = hash e.key % t1.capacity_) ∧
    (∀ k i e, slot (erase hash t k) i = some e →
      e.cost ≤ i ∧ i - e.cost = hash e.key % (erase hash t k).capacity_) := by
  have hI := inv_of_reachable hash hR
  refine ⟨hI.home, fun f t1 h => ?_, fun f p t1 h => (inv_insert hash hI h).home,
    fun k => (inv_erase hash hI k).home⟩
  obtain ⟨t2, _, hI2, _, _, _, hU⟩ := resize_spec hash hI
  rw [hU f t1 h]
  exact hI2.home

/-- Instance of C15: all keys hashed to `0`; key `3` sits in slot `1` with cost
`1`, and `1 - 1 = 0 % 2`. -/
theorem C15_cost_is_distance_witness :
    Reachable (fun _ : Nat => 0) (⟨[some ⟨1, 10, 0⟩, some ⟨3, 30, 1⟩], 2, 2⟩ : HashMap Nat Nat) ∧
    ((⟨3, 30, 1⟩ : map_entry Nat Nat).cost ≤ 1 ∧
      1 - (⟨3, 30, 1⟩ : map_entry Nat Nat).cost
        = (fun _ : Nat => 0) (⟨3, 30, 1⟩ : map_entry Nat Nat).key
          % (⟨[some ⟨1, 10, 0⟩, some ⟨3, 30, 1⟩], 2, 2⟩ : HashMap Nat Nat).capacity_) :=
  have h1 : Reachable (fun _ : Nat => 0) (⟨[some ⟨1, 10, 0⟩], 1, 1⟩ : HashMap Nat Nat) :=
    Reachable.insert (f := 1) (p := (1, 10)) Reachable.empty (by decide)
  have hR : Reachable (fun _ : Nat => 0)
      (⟨[some ⟨1, 10, 0⟩, some ⟨3, 30, 1⟩], 2, 2⟩ : HashMap Nat Nat) :=
    Reachable.insert (f := 4) (p := (3, 30)) h1 (by decide)
  ⟨hR, (C15_cost_is_distance (fun _ : Nat => 0) _ hR).1 1 ⟨3, 30, 1⟩ rfl⟩

/-- Claim C16. In every reachable table, for every occupied slot `i` with cost
`c`, all slots `i - c, ..., i` are occupied, and `find_place` of the key
stored in slot `i` returns exactly `i`, which is `c` steps after the home
index of the key.  The same holds after every `erase`. -/
theorem C16_no_holes [DecidableEq K] [Inhabited V] (hash : K → Nat) (t : HashMap K V)
    (hR : Reachable hash t) :
    (∀ i e, slot t i = some e →
      (∀ j, i - e.cost ≤ j → j ≤ i → slot t j ≠ none) ∧
      find_place hash t e.key = i ∧ i = hash e.key % t.capacity_ + e.cost) ∧
    (∀ k i e, slot (erase hash t k) i = some e →
      (∀ j, i - e.cost ≤ j → j ≤ i → slot (erase hash t k) j ≠ none) ∧
      find_place hash (erase hash t k) e.key = i ∧
      i = hash e.key % (erase hash t k).capacity_ + e.cost) := by
  have hI := inv_of_reachable hash hR
  have key : ∀ t0 : HashMap K V, Inv hash t0 → ∀ i e, slot t0 i = some e →
      (∀ j, i - e.cost ≤ j → j ≤ i → slot t0 j ≠ none) ∧
      find_place hash t0 e.key = i ∧ i = hash e.key % t0.capacity_ + e.cost := by
    intro t0 h0 i e he
    have := h0.home i e he
    exact ⟨h0.dense i e he, find_place_hit h0 he, by omega⟩
  exact ⟨key t hI, fun k => key _ (inv_erase hash hI k)⟩

/-- Instance of C16: all keys hashed to `0`; key `3` in slot `1` with cost `1`
is found by `find_place` at index `1`. -/
theorem C16_no_holes_witness :
    Reachable (fun _ : Nat => 0) (⟨[some ⟨1, 10, 0⟩, some ⟨3, 30, 1⟩], 2, 2⟩ : HashMap Nat Nat) ∧
    find_place (fun _ : Nat => 0)
      (⟨[some ⟨1, 10, 0⟩, some ⟨3, 30, 1⟩], 2, 2⟩ : HashMap Nat Nat)
      (⟨3, 30, 1⟩ : map_entry Nat Nat).key = 1 :=
  have h1 : Reachable (fun _ : Nat => 0) (⟨[some ⟨1, 10, 0⟩], 1, 1⟩ : HashMap Nat Nat) :=
    Reachable.insert (f := 1) (p := (1, 10)) Reachable.empty (by decide)
  have hR : Reachable (fun _ : Nat => 0)
      (⟨[some ⟨1, 10, 0⟩, some ⟨3, 30, 1⟩], 2, 2⟩ : HashMap Nat Nat) :=
    Reachable.insert (f := 4) (p := (3, 30)) h1 (by decide)
  ⟨hR, ((C16_no_holes (fun _ : Nat => 0) _ hR).1 1 ⟨3, 30, 1⟩ rfl).2.1⟩

/-- Claim C17, as stated, fails.  With keys `0, 1, 2` hashed to `0` and key
`3` hashed to `2`, the table after inserting `0, 1, 2, 3` has costs
`0, 1, 2, 1`: the entry in slot `3` has home `2`, and on the scan from `2` to
`3` the earlier slot `2` has cost `2`, strictly greater than cost `1` of the
later slot `3`. -/
theorem C17_balance_counterexample :
    Reachable (fun k : Nat => if k < 3 then 0 else 2)
      (⟨[some ⟨0, 0, 0⟩, some ⟨1, 1, 1⟩, some ⟨2, 2, 2⟩, some ⟨3, 3, 1⟩], 4, 4⟩ :
        HashMap Nat Nat) ∧
    ¬ (∀ (i : Nat) (e : map_entry Nat Nat),
        slot (⟨[some ⟨0, 0, 0⟩, some ⟨1, 1, 1⟩, some ⟨2, 2, 2⟩, some ⟨3, 3, 1⟩], 4, 4⟩ :
          HashMap Nat Nat) i = some e →
        ∀ (a b : Nat) (ea eb : map_entry Nat Nat), i - e.cost ≤ a → a < b → b ≤ i →
          slot (⟨[some ⟨0, 0, 0⟩, some ⟨1, 1, 1⟩, some ⟨2, 2, 2⟩, some ⟨3, 3, 1⟩], 4, 4⟩ :
            HashMap Nat Nat) a = some ea →
          slot (⟨[some ⟨0, 0, 0⟩, some ⟨1, 1, 1⟩, some ⟨2, 2, 2⟩, some ⟨3, 3, 1⟩], 4, 4⟩ :
            HashMap Nat Nat) b = some eb →
          ea.cost ≤ eb.cost) :=
  have h1 : Reachable (fun k : Nat => if k < 3 then 0 else 2)
      (⟨[some ⟨0, 0, 0⟩], 1, 1⟩ : HashMap Nat Nat) :=
    Reachable.insert (f := 1) (p := (0, 0)) Reachable.empty (by decide)
  have h2 : Reachable (fun k : Nat => if k < 3 then 0 else 2)
      (⟨[some ⟨0, 0, 0⟩, some ⟨1, 1, 1⟩], 2, 2⟩ : HashMap Nat Nat) :=
    Reachable.insert (f := 3) (p := (1, 1)) h1 (by decide)
  have h3 : Reachable (fun k : Nat => if k < 3 then 0 else 2)
      (⟨[some ⟨0, 0, 0⟩, some ⟨1, 1, 1⟩, some ⟨2, 2, 2⟩, none], 3, 4⟩ : HashMap Nat Nat) :=
    Reachable.insert (f := 5) (p := (2, 2)) h2 (by decide)
  have h4 : Reachable (fun k : Nat => if k < 3 then 0 else 2)
      (⟨[some ⟨0, 0, 0⟩, some ⟨1, 1, 1⟩, some ⟨2, 2, 2⟩, some ⟨3, 3, 1⟩], 4, 4⟩ :
        HashMap Nat Nat) :=
    Reachable.insert (f := 2) (p := (3, 3)) h3 (by decide)
  ⟨h4, fun h => absurd
    (h 3 ⟨3, 3, 1⟩ rfl 2 3 ⟨2, 2, 2⟩ ⟨3, 3, 1⟩ (by decide) (by decide) (by decide) rfl rfl)
    (by decide)⟩

/-- Claim C17, amended.  In every reachable table, for every stored entry `e`
in slot `i` and all indices `a < b` within `[home(e), i]`: both slots are
occupied, their home indices are ordered, `home(a) ≤ home(b) ≤ home(e)`, so
the cost rises by at most `b - a` from `a` to `b` (it may drop), and every
slot of the scan holds a cost at least its distance from `home(e)`. -/
theorem C17_balance_amended [DecidableEq K] [Inhabited V] (hash : K → Nat) (t : HashMap K V)
    (hR : Reachable hash t) (i : Nat) (e : map_entry K V) (he : slot t i = some e)
    (a b : Nat) (ha : i - e.cost ≤ a) (hab : a < b) (hb : b ≤ i) :
    ∃ ea eb, slot t a = some ea ∧ slot t b = some eb ∧
      a - ea.cost ≤ b - eb.cost ∧ b - eb.cost ≤ i - e.cost ∧
      eb.cost ≤ ea.cost + (b - a) ∧
      a - (i - e.cost) ≤ ea.cost ∧ b - (i - e.cost) ≤ eb.cost := by
  have hI := inv_of_reachable hash hR
  have hda := hI.dense i e he a ha (by omega)
  have hdb := hI.dense i e he b (by omega) hb
  cases hsa : slot t a with
  | none => exact absurd hsa hda
  | some ea =>
    cases hsb : slot t b with
    | none => exact absurd hsb hdb
    | some eb =>
      have h1 := hI.sorted a b ea eb hsa hsb hab
      have h2 : b - eb.cost ≤ i - e.cost := by
        by_cases hbi : b = i
        · subst hbi
          rw [he] at hsb
          cases hsb
          exact le_refl _
        · exact hI.sorted b i eb e hsb he (by omega)
      have h3 := (hI.home a ea hsa).1
      have h4 := (hI.home b eb hsb).1
      have h5 := (hI.home i e he).1
      exact ⟨ea, eb, rfl, rfl, h1, h2, by omega, by omega, by omega⟩

/-- Instance of the amended C17 on the table of the counterexample: on the
scan from home `2` to slot `3` the cost drops from `2` to `1`, and the home
indices `0` and `2` are ordered. -/
theorem C17_balance_amended_witness :
    Reachable (fun k : Nat => if k < 3 then 0 else 2)
      (⟨[some ⟨0, 0, 0⟩, some ⟨1, 1, 1⟩, some ⟨2, 2, 2⟩, some ⟨3, 3, 1⟩], 4, 4⟩ :
        HashMap Nat Nat) ∧
    ∃ ea eb : map_entry Nat Nat,
      slot (⟨[some ⟨0, 0, 0⟩, some ⟨1, 1, 1⟩, some ⟨2, 2, 2⟩, some ⟨3, 3, 1⟩], 4, 4⟩ :
        HashMap Nat Nat) 2 = some ea ∧
      slot (⟨[some ⟨0, 0, 0⟩, some ⟨1, 1, 1⟩, some ⟨2, 2, 2⟩, some ⟨3, 3, 1⟩], 4, 4⟩ :
        HashMap Nat Nat) 3 = some eb ∧
      2 - ea.cost ≤ 3 - eb.cost ∧ 3 - eb.cost ≤ 3 - (⟨3, 3, 1⟩ : map_entry Nat Nat).cost ∧
      eb.cost ≤ ea.cost + (3 - 2) ∧
      2 - (3 - (⟨3, 3, 1⟩ : map_entry Nat Nat).cost) ≤ ea.cost ∧
      3 - (3 - (⟨3, 3, 1⟩ : map_entry Nat Nat).cost) ≤ eb.cost :=
  have h1 : Reachable (fun k : Nat => if k < 3 then 0 else 2)
      (⟨[some ⟨0, 0, 0⟩], 1, 1⟩ : HashMap Nat Nat) :=
    Reachable.insert (f := 1) (p := (0, 0)) Reachable.empty (by decide)
  have h2 : Reachable (fun k : Nat => if k < 3 then 0 else 2)
      (⟨[some ⟨0, 0, 0⟩, some ⟨1, 1, 1⟩], 2, 2⟩ : HashMap Nat Nat) :=
    Reachable.insert (f := 3) (p := (1, 1)) h1 (by decide)
  have h3 : Reachable (fun k : Nat => if k < 3 then 0 else 2)
      (⟨[some ⟨0, 0, 0⟩, some ⟨1, 1, 1⟩, some ⟨2, 2, 2⟩, none], 3, 4⟩ : HashMap Nat Nat) :=
    Reachable.insert (f := 5) (p := (2, 2)) h2 (by decide)
  have h4 : Reachable (fun k : Nat => if k < 3 then 0 else 2)
      (⟨[some ⟨0, 0, 0⟩, some ⟨1, 1, 1⟩, some ⟨2, 2, 2⟩, some ⟨3, 3, 1⟩], 4, 4⟩ :
        HashMap Nat Nat) :=
    Reachable.insert (f := 2) (p := (3, 3)) h3 (by decide)
  ⟨h4, C17_balance_amended (fun k : Nat => if k < 3 then 0 else 2) _ h4 3 ⟨3, 3, 1⟩ rfl 2 3
    (by decide) (by decide) (by decide)⟩

/-- Claim C19. In every reachable table the home indices `i - cost(i)` are
sorted: for occupied slots `i < j`, `home(i) ≤ home(j)`; and for adjacent
occupied slots `i` and `i + 1`, `cost(i + 1) ≤ cost(i) + 1`.  The two forms
are equivalent in every table whose costs are at most the index and whose
probe paths have no holes.  Both hold again after `insert` (strict `<` swap)
and after `erase` (backward shift stopping at cost 0). -/
theorem C19_homes_sorted [DecidableEq K] [Inhabited V] (hash : K → Nat) (t : HashMap K V)
    (hR : Reachable hash t) :
    (∀ i j ei ej, slot t i = some ei → slot t j = some ej → i < j →
      i - ei.cost ≤ j - ej.cost) ∧
    (∀ i ei ej, slot t i = some ei → slot t (i + 1) = some ej → ej.cost ≤ ei.cost + 1) ∧
    (∀ t0 : HashMap K V, (∀ i e, slot t0 i = some e → e.cost ≤ i) →
      (∀ i e, slot t0 i = some e → ∀ j, i - e.cost ≤ j → j ≤ i → slot t0 j ≠ none) →
      ((∀ i ei ej, slot t0 i = some ei → slot t0 (i + 1) = some ej → ej.cost ≤ ei.cost + 1) ↔
       (∀ i j ei ej, slot t0 i = some ei → slot t0 j = some ej → i < j →
          i - ei.cost ≤ j - ej.cost))) ∧
    (∀ f p t1, insert hash f t p = some t1 →
      ∀ i j ei ej, slot t1 i = some ei → slot t1 j = some ej → i < j →
        i - ei.cost ≤ j - ej.cost) ∧
    (∀ k i j ei ej, slot (erase hash t k) i = some ei → slot (erase hash t k) j = some ej →
      i < j → i - ei.cost ≤ j - ej.cost) := by
  have hI := inv_of_reachable hash hR
  refine ⟨hI.sorted, fun i ei ej hi hj => ?_, fun t0 hcost hdense => ⟨fun hadj => ?_,
    fun hsort => ?_⟩, fun f p t1 h => (inv_insert hash hI h).sorted,
    fun k => (inv_erase hash hI k).sorted⟩
  · have h1 := hI.sorted i (i + 1) ei ej hi hj (by omega)
    have h2 := (hI.home i ei hi).1
    have h3 := (hI.home (i + 1) ej hj).1
    omega
  · intro i j ei ej hi hj hij
    obtain ⟨d, rfl⟩ : ∃ d, j = i + d + 1 := ⟨j - i - 1, by omega⟩
    exact sorted_of_adjacent t0 hcost hdense hadj d i ei ej hi hj
  · intro i ei ej hi hj
    have h1 := hsort i (i + 1) ei ej hi hj (by omega)
    have h2 := hcost i ei hi
    have h3 := hcost (i + 1) ej hj
    omega

/-- Instance of C19 on the table with keys `0, 1, 2` hashed to `0` and key `3`
hashed to `2`: slots `2` and `3` have home indices `0 ≤ 2`. -/
theorem C19_homes_sorted_witness :
    Reachable (fun k : Nat => if k < 3 then 0 else 2)
      (⟨[some ⟨0, 0, 0⟩, some ⟨1, 1, 1⟩, some ⟨2, 2, 2⟩, some ⟨3, 3, 1⟩], 4, 4⟩ :
        HashMap Nat Nat) ∧
    2 - (⟨2, 2, 2⟩ : map_entry Nat Nat).cost ≤ 3 - (⟨3, 3, 1⟩ : map_entry Nat Nat).cost :=
  have h1 : Reachable (fun k : Nat => if k < 3 then 0 else 2)
      (⟨[some ⟨0, 0, 0⟩], 1, 1⟩ : HashMap Nat Nat) :=
    Reachable.insert (f := 1) (p := (0, 0)) Reachable.empty (by decide)
  have h2 : Reachable (fun k : Nat => if k < 3 then 0 else 2)
      (⟨[some ⟨0, 0, 0⟩, some ⟨1, 1, 1⟩], 2, 2⟩ : HashMap Nat Nat) :=
    Reachable.insert (f := 3) (p := (1, 1)) h1 (by decide)
  have h3 : Reachable (fun k : Nat => if k < 3 then 0 else 2)
      (⟨[some ⟨0, 0, 0⟩, some ⟨1, 1, 1⟩, some ⟨2, 2, 2⟩, none], 3, 4⟩ : HashMap Nat Nat) :=
    Reachable.insert (f := 5) (p := (2, 2)) h2 (by decide)
  have h4 : Reachable (fun k : Nat => if k < 3 then 0 else 2)
      (⟨[some ⟨0, 0, 0⟩, some ⟨1, 1, 1⟩, some ⟨2, 2, 2⟩, some ⟨3, 3, 1⟩], 4, 4⟩ :
        HashMap Nat Nat) :=
    Reachable.insert (f := 2) (p := (3, 3)) h3 (by decide)
  ⟨h4, (C19_homes_sorted (fun k : Nat => if k < 3 then 0 else 2) _ h4).1 2 3 ⟨2, 2, 2⟩
    ⟨3, 3, 1⟩ rfl rfl (by decide)⟩

/-! ## The exact effect of the backward shift -/

theorem slot_shift_step_len (t : HashMap K V) (g : Nat) (e : map_entry K V)
    (hg : g + 1 < t.data_.length) (j : Nat) :
    slot (shift_step t (g + 1) e) j
      = if j = g + 1 then none
        else if j = g then some { e with cost := e.cost - 1 } else slot t j :=
  cell_shift t.data_ g j _ hg

/-- The shift loop does nothing when it starts at a stop index. -/
theorem shift_back_loop_stop (n : Nat) (t : HashMap K V) (i : Nat)
    (hstop : i = t.capacity_ ∨ slot t i = none ∨ ∃ e, slot t i = some e ∧ e.cost = 0) :
    shift_back_loop n t i = t := by
  cases n with
  | zero => rfl
  | succ n =>
    rw [shift_back_loop]
    rcases hstop with h | h | ⟨e, he, hc⟩
    · simp [h]
    · simp [h]
    · simp [he, hc]

/-- The shift loop started right after a gap `g`, where `q` is the first stop
index after the gap: the entries of `g + 1, ..., q - 1` move one slot back with
their cost lowered by one, slot `q - 1` becomes empty, all else is unchanged. -/
theorem shift_back_loop_exact :
    ∀ (n : Nat) (t : HashMap K V) (g q : Nat), t.data_.length = t.capacity_ → g < q →
      q ≤ t.capacity_ → t.capacity_ - (g + 1) ≤ n → slot t g = none →
      (∀ j, g < j → j < q → ∃ e, slot t j = some e ∧ 0 < e.cost) →
      (q = t.capacity_ ∨ slot t q = none ∨ ∃ e, slot t q = some e ∧ e.cost = 0) →
      (shift_back_loop n t (g + 1)).capacity_ = t.capacity_ ∧
      (shift_back_loop n t (g + 1)).size_ = t.size_ ∧
      ∀ j, slot (shift_back_loop n t (g + 1)) j
        = if g ≤ j ∧ j + 1 < q then
            (slot t (j + 1)).map fun e => ({ e with cost := e.cost - 1 } : map_entry K V)
          else if j + 1 = q then none else slot t j := by
  intro n
  induction n with
  | zero =>
    intro t g q hlen hgq hq hn hgap hmid hstop
    have hq1 : q = g + 1 := by omega
    subst hq1
    refine ⟨rfl, rfl, fun j => ?_⟩
    show slot t j = _
    have h1 : ¬ (g ≤ j ∧ j + 1 < g + 1) := by omega
    rw [if_neg h1]
    by_cases hj : j = g
    · subst hj
      rw [if_pos rfl, hgap]
    · have h2 : ¬ (j + 1 = g + 1) := by omega
      rw [if_neg h2]
  | succ n ih =>
    intro t g q hlen hgq hq hn hgap hmid hstop
    by_cases hq1 : q = g + 1
    · subst hq1
      rw [shift_back_loop_stop (n + 1) t (g + 1) hstop]
      refine ⟨rfl, rfl, fun j => ?_⟩
      have h1 : ¬ (g ≤ j ∧ j + 1 < g + 1) := by omega
      rw [if_neg h1]
      by_cases hj : j = g
      · subst hj
        rw [if_pos rfl, hgap]
      · have h2 : ¬ (j + 1 = g + 1) := by omega
        rw [if_neg h2]
    · obtain ⟨e, he, hc⟩ := hmid (g + 1) (by omega) (by omega)
      have hlt : g + 1 < t.capacity_ := by omega
      have hg : g + 1 < t.data_.length := by rw [hlen]; exact hlt
      have hstep : shift_back_loop (n + 1) t (g + 1)
          = shift_back_loop n (shift_step t (g + 1) e) (g + 1 + 1) := by
        rw [shift_back_loop]
        simp [hlt, he, hc]
      have hsl := slot_shift_step_len t g e hg
      have hcap1 : (shift_step t (g + 1) e).capacity_ = t.capacity_ := rfl
      have hsize1 : (shift_step t (g + 1) e).size_ = t.size_ := rfl
      have hlen1 : (shift_step t (g + 1) e).data_.length = (shift_step t (g + 1) e).capacity_ := by
        show (((t.data_.set _ _).set _ _).set _ _).length = t.capacity_
        simp [hlen]
      obtain ⟨h1, h2, h3⟩ := ih (shift_step t (g + 1) e) (g + 1) q hlen1 (by omega)
        (by rw [hcap1]; exact hq) (by rw [hcap1]; omega)
        (by rw [hsl]; simp)
        (fun j hj1 hj2 => by
          rw [hsl]
          have a1 : j ≠ g + 1 := by omega
          have a2 : j ≠ g := by omega
          simp only [a1, a2, if_false]
          exact hmid j (by omega) hj2)
        (by
          rw [hcap1, hsl]
          have a1 : q ≠ g + 1 := by omega
          have a2 : q ≠ g := by omega
          simp only [a1, a2, if_false]
          exact hstop)
      rw [hstep]
      refine ⟨by rw [h1, hcap1], by rw [h2, hsize1], fun j => ?_⟩
      rw [h3 j]
      by_cases hjg : j = g
      · subst hjg
        have b1 : ¬ (j + 1 ≤ j ∧ j + 1 < q) := by omega
        have b2 : ¬ (j + 1 = q) := by omega
        have b3 : j ≤ j ∧ j + 1 < q := by omega
        rw [if_neg b1, if_neg b2, if_pos b3, hsl, he]
        have a1 : j ≠ j + 1 := by omega
        rw [if_neg a1, if_pos rfl]
        rfl
      · by_cases hjr : g + 1 ≤ j ∧ j + 1 < q
        · have b3 : g ≤ j ∧ j + 1 < q := by omega
          rw [if_pos hjr, if_pos b3, hsl]
          have a1 : j + 1 ≠ g + 1 := by omega
          have a2 : j + 1 ≠ g := by omega
          rw [if_neg a1, if_neg a2]
        · have b3 : ¬ (g ≤ j ∧ j + 1 < q) := by omega
          rw [if_neg hjr, if_neg b3]
          by_cases hjq : j + 1 = q
          · rw [if_pos hjq, if_pos hjq]
          · rw [if_neg hjq, if_neg hjq, hsl]
            have a1 : j ≠ g + 1 := by omega
            rw [if_neg a1, if_neg hjg]

/-- Claim C18. For every reachable table and stored key `k` in slot `p`, let
`q` be the least index `> p` that equals the capacity, or whose slot is empty,
or whose slot has cost 0 (such an index exists).  After `erase(k)`: every slot
`j` with `p ≤ j < q - 1` holds the entry formerly in slot `j + 1`, with the
same key and value and the cost lowered by exactly 1; slot `q - 1` is empty;
every slot `< p` or `≥ q` is unchanged; the size is lowered by exactly 1 and
the capacity is unchanged. -/
theorem C18_erase_exact [DecidableEq K] [Inhabited V] (hash : K → Nat) (t : HashMap K V)
    (hR : Reachable hash t) (p : Nat) (e : map_entry K V) (hp : slot t p = some e) (q : Nat)
    (hpq : p < q)
    (hstop : q = t.capacity_ ∨ slot t q = none ∨ ∃ x, slot t q = some x ∧ x.cost = 0)
    (hmin : ∀ j, p < j → j < q → j ≠ t.capacity_ ∧ ∃ x, slot t j = some x ∧ 0 < x.cost) :
    (∀ j, p ≤ j → j + 1 < q → ∃ x, slot t (j + 1) = some x ∧ 0 < x.cost ∧
      slot (erase hash t e.key) j = some { key := x.key, value := x.value, cost := x.cost - 1 }) ∧
    slot (erase hash t e.key) (q - 1) = none ∧
    (∀ j, j < p ∨ q ≤ j → slot (erase hash t e.key) j = slot t j) ∧
    (erase hash t e.key).size_ + 1 = t.size_ ∧
    (erase hash t e.key).capacity_ = t.capacity_ ∧
    (∃ q0, p < q0 ∧
      (q0 = t.capacity_ ∨ slot t q0 = none ∨ ∃ x, slot t q0 = some x ∧ x.cost = 0) ∧
      ∀ j, p < j → j < q0 → j ≠ t.capacity_ ∧ ∃ x, slot t j = some x ∧ 0 < x.cost) := by
  have hI := inv_of_reachable hash hR
  have hlt := slot_lt_of_some hI hp
  have hlen : p < t.data_.length := by rw [hI.len]; exact hlt
  have hq : q ≤ t.capacity_ := by
    by_contra hcon
    exact (hmin t.capacity_ hlt (by omega)).1 rfl
  have hE : erase hash t e.key
      = shift_back_loop (t.capacity_ - (p + 1))
          { t with size_ := t.size_ - 1, data_ := t.data_.set p none } (p + 1) := by
    unfold erase
    simp only [find_place_hit hI hp, misses_hit hI hp]
    rfl
  have hs : ∀ j, slot { t with size_ := t.size_ - 1, data_ := t.data_.set p none } j
      = if j = p then none else slot t j := by
    intro j
    show cell (t.data_.set p none) j = _
    rw [cell_set]
    by_cases hj : j = p
    · subst hj; simp [hlen]
    · have : ¬ (p = j) := fun h => hj h.symm
      simp [hj, this]; rfl
  obtain ⟨h1, h2, h3⟩ := shift_back_loop_exact (t.capacity_ - (p + 1))
    { t with size_ := t.size_ - 1, data_ := t.data_.set p none } p q
    (by show (t.data_.set p none).length = t.capacity_; simp [hI.len]) hpq hq (le_refl _)
    (by rw [hs]; simp)
    (fun j hj1 hj2 => by
      rw [hs, if_neg (by omega)]
      exact (hmin j hj1 hj2).2)
    (by
      rw [hs, if_neg (by omega)]
      exact hstop)
  rw [← hE] at h1 h2 h3
  have hsz := (erase_present hI hp).2.2.1
  refine ⟨fun j hj1 hj2 => ?_, ?_, fun j hj => ?_, hsz, h1, ?_⟩
  · obtain ⟨x, hx, hc⟩ := (hmin (j + 1) (by omega) hj2).2
    refine ⟨x, hx, hc, ?_⟩
    rw [h3 j, if_pos ⟨hj1, hj2⟩, hs, if_neg (by omega), hx]
    rfl
  · rw [h3 (q - 1), if_neg (by omega), if_pos (by omega)]
  · rw [h3 j, if_neg (by omega), if_neg (by omega), hs, if_neg (by omega)]
  · have hex : ∃ q0, p < q0 ∧
        (q0 = t.capacity_ ∨ slot t q0 = none ∨ ∃ x, slot t q0 = some x ∧ x.cost = 0) :=
      ⟨q, hpq, hstop⟩
    classical
    refine ⟨Nat.find hex, (Nat.find_spec hex).1, (Nat.find_spec hex).2, fun j hj1 hj2 => ?_⟩
    have hnot := Nat.find_min hex hj2
    refine ⟨fun hc => hnot ⟨hj1, Or.inl hc⟩, ?_⟩
    cases hsj : slot t j with
    | none => exact absurd ⟨hj1, Or.inr (Or.inl hsj)⟩ hnot
    | some x =>
      refine ⟨x, rfl, ?_⟩
      by_contra hc0
      exact hnot ⟨hj1, Or.inr (Or.inr ⟨x, hsj, by omega⟩)⟩

/-- Instance of C18: all keys hashed to `0`, the run `1, 3, 7` in slots
`0, 1, 2` of a table of capacity 4; erasing key `3` (`p = 1`, `q = 3`) moves
key `7` to slot `1` with cost `1` and empties slot `2`. -/
theorem C18_erase_exact_witness :
    Reachable (fun _ : Nat => 0)
      (⟨[some ⟨1, 10, 0⟩, some ⟨3, 30, 1⟩, some ⟨7, 70, 2⟩, none], 3, 4⟩ : HashMap Nat Nat) ∧
    erase (fun _ : Nat => 0)
      (⟨[some ⟨1, 10, 0⟩, some ⟨3, 30, 1⟩, some ⟨7, 70, 2⟩, none], 3, 4⟩ : HashMap Nat Nat) 3
      = ⟨[some ⟨1, 10, 0⟩, some ⟨7, 70, 1⟩, none, none], 2, 4⟩ ∧
    slot (erase (fun _ : Nat => 0)
      (⟨[some ⟨1, 10, 0⟩, some ⟨3, 30, 1⟩, some ⟨7, 70, 2⟩, none], 3, 4⟩ : HashMap Nat Nat)
      (⟨3, 30, 1⟩ : map_entry Nat Nat).key) (3 - 1) = none :=
  have h1 : Reachable (fun _ : Nat => 0) (⟨[some ⟨1, 10, 0⟩], 1, 1⟩ : HashMap Nat Nat) :=
    Reachable.insert (f := 1) (p := (1, 10)) Reachable.empty (by decide)
  have h2 : Reachable (fun _ : Nat => 0)
      (⟨[some ⟨1, 10, 0⟩, some ⟨3, 30, 1⟩], 2, 2⟩ : HashMap Nat Nat) :=
    Reachable.insert (f := 4) (p := (3, 30)) h1 (by decide)
  have h3 : Reachable (fun _ : Nat => 0)
      (⟨[some ⟨1, 10, 0⟩, some ⟨3, 30, 1⟩, some ⟨7, 70, 2⟩, none], 3, 4⟩ : HashMap Nat Nat) :=
    Reachable.insert (f := 8) (p := (7, 70)) h2 (by decide)
  ⟨h3, by decide,
    (C18_erase_exact (fun _ : Nat => 0) _ h3 1 ⟨3, 30, 1⟩ rfl 3 (by decide)
      (Or.inr (Or.inl rfl))
      (fun j hj1 hj2 => by
        have hj : j = 2 := by omega
        subst hj
        exact ⟨by decide, ⟨7, 70, 2⟩, rfl, by decide⟩)).2.1⟩

/-! ## Insertion without collisions -/

/-- Re-inserting, under the identity hash, a list of cells whose entries have
cost 0 and keys equal to their position counted from `base`, into a table
whose slots from `base` on are empty: the cells are copied to the slots
`base, base + 1, ...`. -/
theorem reinsert_diag (f : Nat) :
    ∀ (l : List (Option (map_entry Nat V))) (acc : HashMap Nat V) (base : Nat),
      acc.data_.length = acc.capacity_ → base + l.length ≤ acc.capacity_ →
      (∀ j, base ≤ j → slot acc j = none) →
      (∀ i x, cell l i = some x → x.key = base + i ∧ x.cost = 0) →
      ∃ r, reinsert (insert_entry (fun k : Nat => k) (f + 1)) l acc = some r ∧
        r.capacity_ = acc.capacity_ ∧ r.data_.length = acc.capacity_ ∧
        r.size_ = acc.size_ + occupied l ∧
        ∀ j, slot r j
          = if base ≤ j ∧ j < base + l.length then cell l (j - base) else slot acc j := by
  intro l
  induction l with
  | nil =>
    intro acc base hlen _ _ _
    refine ⟨acc, rfl, rfl, hlen, by simp [occupied], fun j => ?_⟩
    rw [if_neg (by simp)]
  | cons a rest ih =>
    intro acc base hlen hb hnone hcells
    simp only [List.length_cons] at hb
    cases a with
    | none =>
      obtain ⟨r, hr, hc, hl, hs, hsl⟩ := ih acc (base + 1) hlen (by omega)
        (fun j hj => hnone j (by omega))
        (fun i x hx => by
          have := hcells (i + 1) x (by rw [cell_cons_succ]; exact hx)
          exact ⟨by omega, this.2⟩)
      refine ⟨r, by simpa [reinsert] using hr, hc, hl, by rw [hs]; simp [occupied],
        fun j => ?_⟩
      rw [hsl j]
      simp only [List.length_cons]
      by_cases hj : j = base
      · subst hj
        rw [if_neg (by omega), if_pos (by omega), Nat.sub_self, cell_cons_zero]
        exact hnone j (le_refl _)
      · by_cases hr1 : base + 1 ≤ j ∧ j < base + 1 + rest.length
        · rw [if_pos hr1, if_pos (by omega)]
          have : j - base = (j - (base + 1)) + 1 := by omega
          rw [this, cell_cons_succ]
        · rw [if_neg hr1, if_neg (by omega)]
    | some x =>
      obtain ⟨hxk, hxc⟩ := hcells 0 x (cell_cons_zero _ _)
      have hx0 : ({ x with cost := 0 } : map_entry Nat V) = x := by
        cases x
        simp only [map_entry.mk.injEq, true_and] at hxc ⊢
        exact hxc.symm
      have hhome : (fun k : Nat => k) x.key % acc.capacity_ = base := by
        show x.key % acc.capacity_ = base
        rw [hxk]
        exact Nat.mod_eq_of_lt (by omega)
      have hins : insert_entry (fun k : Nat => k) (f + 1) acc x
          = some ⟨acc.data_.set base (some x), acc.size_ + 1, acc.capacity_⟩ := by
        unfold insert_entry
        rw [hhome, hx0]
        exact insert_loop_place _ f acc x base (by omega) (hnone base (le_refl _))
      have hsl1 := slot_put acc base (acc.size_ + 1) x (by rw [hlen]; omega)
      obtain ⟨r, hr, hc, hl, hs, hsl⟩ := ih
        (⟨acc.data_.set base (some x), acc.size_ + 1, acc.capacity_⟩ : HashMap Nat V)
        (base + 1) (by simp [hlen]) (by show base + 1 + rest.length ≤ acc.capacity_; omega)
        (fun j hj => by
          rw [hsl1 j, if_neg (by omega)]
          exact hnone j (by omega))
        (fun i y hy => by
          have := hcells (i + 1) y (by rw [cell_cons_succ]; exact hy)
          exact ⟨by omega, this.2⟩)
      refine ⟨r, by simp only [reinsert, hins]; exact hr, hc, hl, ?_, fun j => ?_⟩
      · rw [hs]
        show acc.size_ + 1 + occupied rest = acc.size_ + occupied (some x :: rest)
        simp [occupied]
        omega
      · rw [hsl j]
        simp only [List.length_cons]
        by_cases hj : j = base
        · subst hj
          rw [if_neg (by omega), if_pos (by omega), Nat.sub_self, cell_cons_zero, hsl1 j,
            if_pos rfl]
        · by_cases hr1 : base + 1 ≤ j ∧ j < base + 1 + rest.length
          · rw [if_pos hr1, if_pos (by omega)]
            have : j - base = (j - (base + 1)) + 1 := by omega
            rw [this, cell_cons_succ]
          · rw [if_neg hr1, if_neg (by omega), hsl1 j, if_neg hj]

/-- Under the identity hash, `resize` of a table whose entries all sit in the
slot numbered by their key copies the slots into the first half of the new
array, with a single doubling. -/
theorem resize_diag (f : Nat) (t : HashMap Nat V) (hlen : t.data_.length = t.capacity_)
    (hdiag : ∀ i e, slot t i = some e → e.key = i ∧ e.cost = 0) :
    ∃ r, resize (fun k : Nat => k) (f + 1) t = some r ∧ r.capacity_ = t.capacity_ * 2 ∧
      r.data_.length = t.capacity_ * 2 ∧ r.size_ = occupied t.data_ ∧
      ∀ j, slot r j = if j < t.capacity_ then slot t j else none := by
  have htake : t.data_.take t.capacity_ = t.data_ :=
    List.take_of_length_le (by rw [hlen])
  obtain ⟨r, hr, hc, hl, hs, hsl⟩ := reinsert_diag f t.data_
    (⟨List.replicate (t.capacity_ * 2) none, 0, t.capacity_ * 2⟩ : HashMap Nat V) 0
    (by simp) (by show 0 + t.data_.length ≤ t.capacity_ * 2; omega)
    (fun j _ => cell_replicate _ j)
    (fun i x hx => by
      have := hdiag i x hx
      exact ⟨by omega, this.2⟩)
  refine ⟨r, ?_, hc, hl, by rw [hs]; show 0 + occupied t.data_ = _; omega, fun j => ?_⟩
  · show resize_with (insert_entry (fun k : Nat => k) (f + 1)) t = some r
    unfold resize_with
    rw [htake]
    exact hr
  · rw [hsl j, hlen]
    by_cases hj : j < t.capacity_
    · rw [if_pos (by omega), if_pos hj, Nat.sub_zero]
      rfl
    · rw [if_neg (by omega), if_neg hj]
      exact cell_replicate _ j

/-- Inserting key `2^(n+1) - 1` into a table of capacity `2^n` whose last slot
holds key `2^n - 1`: the probe starts in the last slot, runs off the end, the
table is resized once, and the key lands in the last slot of the new array. -/
theorem pow_step {n : Nat} {t : HashMap Nat V} (hT : PowTable n t) (w : V) :
    ∃ t1, insert (fun k : Nat => k) 3 t (2 ^ (n + 1) - 1, w) = some t1 ∧
      PowTable (n + 1) t1 := by
  have hI := hT.inv
  have hc := hT.cap
  have hpos : 0 < 2 ^ n := Nat.pos_pow_of_pos n (by omega)
  have hk2 : 2 ^ (n + 1) = 2 ^ n + 2 ^ n := by rw [pow_succ]; omega
  have hkey : ¬ HasKey t (2 ^ (n + 1) - 1) := by
    rintro ⟨i, e, hs, hk⟩
    have h1 := (hT.diag i e hs).1
    have h2 := slot_lt_of_some hI hs
    omega
  obtain ⟨w0, hlast⟩ := hT.last
  obtain ⟨r, hr, hrc, hrl, hrs, hrsl⟩ := resize_diag 0 t hI.len hT.diag
  have hmod1 : (2 ^ (n + 1) - 1) % t.capacity_ = 2 ^ n - 1 := by
    rw [hc]
    have : 2 ^ (n + 1) - 1 = (2 ^ n - 1) + 2 ^ n := by omega
    rw [this, Nat.add_mod_right]
    exact Nat.mod_eq_of_lt (by omega)
  have hmod2 : (2 ^ (n + 1) - 1) % r.capacity_ = 2 ^ (n + 1) - 1 := by
    rw [hrc, hc]
    exact Nat.mod_eq_of_lt (by omega)
  have hrk : slot r (2 ^ (n + 1) - 1) = none := by
    rw [hrsl, if_neg (by omega)]
  have hins : insert (fun k : Nat => k) 3 t (2 ^ (n + 1) - 1, w)
      = some ⟨r.data_.set (2 ^ (n + 1) - 1) (some ⟨2 ^ (n + 1) - 1, w, 0⟩), r.size_ + 1,
          r.capacity_⟩ := by
    rw [insert_absent hI 3 (2 ^ (n + 1) - 1, w) hkey]
    show insert_loop _ 3 t ⟨2 ^ (n + 1) - 1, w, 0⟩ ((2 ^ (n + 1) - 1) % t.capacity_) = _
    rw [hmod1, insert_loop_pass _ 2 t _ ⟨2 ^ n - 1, w0, 0⟩ (2 ^ n - 1) (by omega) hlast
      (by simp)]
    have hcap : 2 ^ n - 1 + 1 = t.capacity_ := by omega
    rw [hcap, insert_loop_overflow _ 1 t r _ hr (by omega)]
    show insert_loop _ 2 r ⟨2 ^ (n + 1) - 1, w, 0⟩ ((2 ^ (n + 1) - 1) % r.capacity_) = _
    rw [hmod2]
    exact insert_loop_place _ 1 r _ _ (by omega) hrk
  refine ⟨_, hins, inv_insert _ hI hins, by show r.capacity_ = _; omega, ?_, ?_, ?_⟩
  · show r.size_ + 1 = n + 1
    rw [hrs, ← hI.size_eq, hT.size]
  · intro j e hj
    rw [slot_put r (2 ^ (n + 1) - 1) (r.size_ + 1) _ (by omega)] at hj
    by_cases hjk : j = 2 ^ (n + 1) - 1
    · rw [if_pos hjk] at hj
      cases hj
      exact ⟨hjk.symm, rfl⟩
    · rw [if_neg hjk, hrsl] at hj
      by_cases hjc : j < t.capacity_
      · rw [if_pos hjc] at hj
        exact hT.diag j e hj
      · rw [if_neg hjc] at hj
        cases hj
  · refine ⟨w, ?_⟩
    rw [slot_put r (2 ^ (n + 1) - 1) (r.size_ + 1) _ (by omega), if_pos rfl]

theorem insert_list_append [DecidableEq K] (hash : K → Nat) (f : Nat) :
    ∀ (l1 l2 : List (K × V)) (t : HashMap K V),
      insert_list hash f t (l1 ++ l2)
        = match insert_list hash f t l1 with
          | none => none
          | some t1 => insert_list hash f t1 l2 := by
  intro l1
  induction l1 with
  | nil => intro l2 t; rfl
  | cons p l1 ih =>
    intro l2 t
    simp only [List.cons_append, insert_list]
    cases insert hash f t p with
    | none => rfl
    | some t1 => exact ih l2 t1

theorem insert_list_mono_le [DecidableEq K] (hash : K → Nat) {f g : Nat} (hfg : f ≤ g) :
    ∀ (ps : List (K × V)) (t r : HashMap K V),
      insert_list hash f t ps = some r → insert_list hash g t ps = some r := by
  intro ps
  induction ps with
  | nil => intro t r h; exact h
  | cons p ps ih =>
    intro t r h
    simp only [insert_list] at h ⊢
    cases hi : insert hash f t p with
    | none => rw [hi] at h; cases h
    | some t1 =>
      rw [hi] at h
      rw [insert_mono_le hash hfg t p t1 hi]
      exact ih t1 r h

theorem pow_pairs_succ (v : Nat → V) (n : Nat) :
    pow_pairs v (n + 1) = pow_pairs v n ++ [(2 ^ (n + 1) - 1, v n)] := by
  unfold pow_pairs
  rw [List.range_succ, List.map_append]
  rfl

theorem pow_insert_first (v : Nat → V) :
    insert (fun k : Nat => k) 1 (empty : HashMap Nat V) (1, v 0)
      = some ⟨[some ⟨1, v 0, 0⟩], 1, 1⟩ := by
  simp [insert, find, find_place, find_place_loop, empty, slot, cell, misses, iterator_at,
    skip_empty, end_, insert_entry, insert_loop]

theorem pow_insert_second (v : Nat → V) :
    insert (fun k : Nat => k) 6 (⟨[some ⟨1, v 0, 0⟩], 1, 1⟩ : HashMap Nat V) (3, v 1)
      = some ⟨[none, some ⟨1, v 0, 0⟩, none, some ⟨3, v 1, 0⟩], 2, 4⟩ := by
  simp [insert, find, find_place, find_place_loop, slot, cell, misses, iterator_at,
    skip_empty, end_, insert_entry, insert_loop, resize_with, reinsert]

theorem pow_table_two (v : Nat → V) :
    PowTable 2 (⟨[none, some ⟨1, v 0, 0⟩, none, some ⟨3, v 1, 0⟩], 2, 4⟩ : HashMap Nat V) := by
  refine ⟨inv_insert _ (inv_insert _ (inv_empty _) (pow_insert_first v)) (pow_insert_second v),
    rfl, rfl, ?_, ⟨v 1, rfl⟩⟩
  intro i e hi
  match i with
  | 0 => simp [slot, cell] at hi
  | 1 => simp [slot, cell] at hi; subst hi; exact ⟨rfl, rfl⟩
  | 2 => simp [slot, cell] at hi
  | 3 => simp [slot, cell] at hi; subst hi; exact ⟨rfl, rfl⟩
  | j + 4 => simp [slot, cell] at hi

/-- The tables built from the keys `2^1 - 1, ..., 2^n - 1`, for `n ≥ 2`. -/
theorem pow_tables (v : Nat → V) (n : Nat) (hn : 2 ≤ n) :
    ∃ t N, PowTable n t ∧
      ∀ f, N ≤ f → insert_list (fun k : Nat => k) f empty (pow_pairs v n) = some t := by
  induction n, hn using Nat.le_induction with
  | base =>
    refine ⟨_, 6, pow_table_two v, fun f hf => ?_⟩
    apply insert_list_mono_le _ hf
    show insert_list _ 6 empty [(1, v 0), (3, v 1)] = _
    simp only [insert_list, insert_mono_le _ (by omega : 1 ≤ 6) _ _ _ (pow_insert_first v),
      pow_insert_second v]
  | succ n hn ih =>
    obtain ⟨t, N, hT, hN⟩ := ih
    obtain ⟨t1, hins, hT1⟩ := pow_step hT (v n)
    refine ⟨t1, max N 3, hT1, fun f hf => ?_⟩
    rw [pow_pairs_succ, insert_list_append, hN f (le_trans (le_max_left _ _) hf)]
    simp only [insert_list,
      insert_mono_le _ (le_trans (le_max_right N 3) hf) _ _ _ hins]

/-- Claim C20. With the identity hash on natural-number keys, inserting the
keys `2^1 - 1, 2^2 - 1, ..., 2^n - 1` in this order into the empty table
returns, for every `n ≥ 2`, and yields a table with size `n` and capacity
exactly `2^n`.  After the first insert the capacity is 1; the second insert,
of key `3`, takes it from 1 to 4 in a single call; and for every `m ≥ 1` the
probe scan of the next key `2^(m+1) - 1` reaches index `capacity_`, so every
insert after the first resizes. -/
theorem C20_capacity_exponential (v : Nat → V) (n : Nat) (hn : 2 ≤ n) :
    (∃ t N, ∀ f, N ≤ f →
      insert_list (fun k : Nat => k) f (empty : HashMap Nat V) (pow_pairs v n) = some t) ∧
    (∀ f t, insert_list (fun k : Nat => k) f (empty : HashMap Nat V) (pow_pairs v n) = some t →
      t.size_ = n ∧ t.capacity_ = 2 ^ n) ∧
    (∀ f t, insert_list (fun k : Nat => k) f (empty : HashMap Nat V) (pow_pairs v 1) = some t →
      t.size_ = 1 ∧ t.capacity_ = 1) ∧
    (∀ f t1, insert (fun k : Nat => k) f (⟨[some ⟨1, v 0, 0⟩], 1, 1⟩ : HashMap Nat V) (3, v 1)
      = some t1 → t1.size_ = 2 ∧ t1.capacity_ = 4) ∧
    (∀ m, 1 ≤ m → ∀ f t,
      insert_list (fun k : Nat => k) f (empty : HashMap Nat V) (pow_pairs v m) = some t →
      insert_overflows (fun k : Nat => k) t (2 ^ (m + 1) - 1) (v m) = true) := by
  have huniq : ∀ (m : Nat) (t : HashMap Nat V) (N : Nat),
      (∀ f, N ≤ f → insert_list (fun k : Nat => k) f (empty : HashMap Nat V) (pow_pairs v m)
        = some t) →
      ∀ f r, insert_list (fun k : Nat => k) f (empty : HashMap Nat V) (pow_pairs v m) = some r →
        r = t := by
    intro m t N hN f r hr
    have h1 := insert_list_mono_le _ (Nat.le_max_left f N) _ _ _ hr
    rw [hN (max f N) (Nat.le_max_right f N)] at h1
    exact (Option.some.inj h1).symm
  have hfirst : ∀ f, 1 ≤ f →
      insert_list (fun k : Nat => k) f (empty : HashMap Nat V) (pow_pairs v 1)
        = some ⟨[some ⟨1, v 0, 0⟩], 1, 1⟩ := by
    intro f hf
    show insert_list _ f empty [(1, v 0)] = _
    simp only [insert_list, insert_mono_le _ hf _ _ _ (pow_insert_first v)]
  have hI1 : Inv (fun k : Nat => k) (⟨[some ⟨1, v 0, 0⟩], 1, 1⟩ : HashMap Nat V) :=
    inv_insert _ (inv_empty _) (pow_insert_first v)
  obtain ⟨t, N, hT, hN⟩ := pow_tables v n hn
  refine ⟨⟨t, N, hN⟩, fun f r hr => ?_, fun f r hr => ?_, fun f t1 h => ?_,
    fun m hm f r hr => ?_⟩
  · rw [huniq n t N hN f r hr]
    exact ⟨hT.size, hT.cap⟩
  · rw [huniq 1 _ 1 hfirst f r hr]
    exact ⟨rfl, rfl⟩
  · have h1 := insert_mono_le _ (Nat.le_max_left f 6) _ _ _ h
    have h2 := insert_mono_le _ (Nat.le_max_right f 6) _ _ _ (pow_insert_second v)
    rw [h1] at h2
    rw [Option.some.inj h2]
    exact ⟨rfl, rfl⟩
  · cases hov : insert_overflows (fun k : Nat => k) r (2 ^ (m + 1) - 1) (v m) with
    | true => rfl
    | false =>
      exfalso
      by_cases hm1 : m = 1
      · subst hm1
        rw [huniq 1 _ 1 hfirst f r hr] at hov
        simp [insert_overflows, probe_overflows, slot, cell] at hov
      · obtain ⟨t2, N2, hT2, hN2⟩ := pow_tables v m (by omega)
        have hr2 := huniq m t2 N2 hN2 f r hr
        subst hr2
        obtain ⟨t3, hins, hT3⟩ := pow_step hT2 (v m)
        have hkey : ¬ HasKey r (2 ^ (m + 1) - 1) := by
          rintro ⟨i, e, hs, hk⟩
          have h1 := (hT2.diag i e hs).1
          have h2 := slot_lt_of_some hT2.inv hs
          have h3 := hT2.cap
          have h4 : 2 ^ (m + 1) = 2 ^ m + 2 ^ m := by rw [pow_succ]; omega
          omega
        rw [insert_absent hT2.inv 3 _ hkey] at hins
        have hcap := cap_of_no_overflow _ _ r _ _ hov 3 t3 hins
        have h3 := hT2.cap
        have h4 := hT3.cap
        have h5 : 2 ^ (m + 1) = 2 ^ m + 2 ^ m := by rw [pow_succ]; omega
        have h6 : 0 < 2 ^ m := Nat.pos_pow_of_pos m (by omega)
        omega

/-- Instance of C20 for `n = 3`: the keys `1, 3, 7` give size 3 and capacity
`8 = 2 ^ 3`. -/
theorem C20_capacity_exponential_witness :
    (2 ≤ 3) ∧
    insert_list (fun k : Nat => k) 12 (empty : HashMap Nat Nat)
        (pow_pairs (fun i => 10 * i) 3)
      = some ⟨[none, some ⟨1, 0, 0⟩, none, some ⟨3, 10, 0⟩, none, none, none,
          some ⟨7, 20, 0⟩], 3, 8⟩ ∧
    ((⟨[none, some ⟨1, 0, 0⟩, none, some ⟨3, 10, 0⟩, none, none, none,
          some ⟨7, 20, 0⟩], 3, 8⟩ : HashMap Nat Nat).size_ = 3 ∧
      (⟨[none, some ⟨1, 0, 0⟩, none, some ⟨3, 10, 0⟩, none, none, none,
          some ⟨7, 20, 0⟩], 3, 8⟩ : HashMap Nat Nat).capacity_ = 2 ^ 3) :=
  ⟨by decide, by decide,
    (C20_capacity_exponential (fun i => 10 * i) 3 (by decide)).2.1 12 _ (by decide)⟩

/-! ## The checked operations agree with the unchecked ones -/

theorem read_slot_ok (t : HashMap K V) (i : Nat) (h : i < t.data_.length) :
    read_slot t i = Except.ok (slot t i) := by
  simp [read_slot, h]

theorem write_slot_ok (t : HashMap K V) (i : Nat) (x : Option (map_entry K V))
    (h : i < t.data_.length) :
    write_slot t i x = Except.ok { t with data_ := t.data_.set i x } := by
  simp [write_slot, h]

theorem home_index_ok (hash : K → Nat) (t : HashMap K V) (key : K) (h : 0 < t.capacity_) :
    home_index hash t key = Except.ok (hash key % t.capacity_) := by
  have : t.capacity_ ≠ 0 := by omega
  simp [home_index, this]

theorem find_place_loop_le [DecidableEq K] (t : HashMap K V) (key : K) :
    ∀ n h, h ≤ t.capacity_ → find_place_loop t key n h ≤ t.capacity_ := by
  intro n
  induction n with
  | zero => intro h hh; exact hh
  | succ n ih =>
    intro h hh
    rw [find_place_loop]
    by_cases hc : h = t.capacity_
    · simp [hc]
    · rw [if_neg hc]
      cases hs : slot t h with
      | none => exact hh
      | some e =>
        by_cases hk : e.key = key
        · simp [hk]; exact hh
        · simp only [hk, if_false]
          exact ih (h + 1) (by omega)

theorem find_place_le [DecidableEq K] {hash : K → Nat} {t : HashMap K V} (hI : Inv hash t)
    (key : K) : find_place hash t key ≤ t.capacity_ :=
  find_place_loop_le t key _ _ (le_of_lt (Nat.mod_lt _ hI.cap_pos))

theorem find_place_loop_checked_eq [DecidableEq K] (t : HashMap K V) (key : K)
    (hlen : t.data_.length = t.capacity_) :
    ∀ n h, h ≤ t.capacity_ → t.capacity_ - h < n →
      find_place_loop_checked t key n h = Except.ok (find_place_loop t key n h) := by
  intro n
  induction n with
  | zero => intro h _ hn; omega
  | succ n ih =>
    intro h hh hn
    rw [find_place_loop_checked, find_place_loop]
    by_cases hc : h = t.capacity_
    · rw [if_pos hc, if_pos hc]
    · rw [if_neg hc, if_neg hc, read_slot_ok t h (by omega)]
      cases hs : slot t h with
      | none => rfl
      | some e =>
        by_cases hk : e.key = key
        · simp [hk]
        · simp only [hk, if_false]
          exact ih (h + 1) (by omega) (by omega)

theorem find_place_checked_eq [DecidableEq K] {hash : K → Nat} {t : HashMap K V}
    (hI : Inv hash t) (key : K) :
    find_place_checked hash t key = Except.ok (find_place hash t key) := by
  unfold find_place_checked find_place
  rw [home_index_ok hash t key hI.cap_pos]
  exact find_place_loop_checked_eq t key hI.len _ _ (le_of_lt (Nat.mod_lt _ hI.cap_pos))
    (by omega)

theorem misses_checked_eq [DecidableEq K] (t : HashMap K V) (key : K) (ind : Nat)
    (hlen : t.data_.length = t.capacity_) (hind : ind ≤ t.capacity_) :
    misses_checked t key ind = Except.ok (misses t key ind) := by
  unfold misses_checked misses
  by_cases hc : ind = t.capacity_
  · simp [hc]
  · rw [if_neg hc, read_slot_ok t ind (by omega)]
    cases hs : slot t ind with
    | none => simp [hc]
    | some e => simp [hc]

theorem skip_empty_checked_eq (t : HashMap K V) (hlen : t.data_.length = t.capacity_) :
    ∀ n i, t.capacity_ - i ≤ n →
      skip_empty_checked t n i = Except.ok (skip_empty t n i) := by
  intro n
  induction n with
  | zero =>
    intro i hn
    have : ¬ i < t.capacity_ := by omega
    simp [skip_empty_checked, skip_empty, this]
  | succ n ih =>
    intro i hn
    rw [skip_empty_checked, skip_empty]
    by_cases hc : i < t.capacity_
    · rw [if_pos hc, if_pos hc, read_slot_ok t i (by omega)]
      cases hs : slot t i with
      | none => exact ih (i + 1) (by omega)
      | some e => rfl
    · rw [if_neg hc, if_neg hc]

theorem find_checked_eq [DecidableEq K] {hash : K → Nat} {t : HashMap K V} (hI : Inv hash t)
    (key : K) : find_checked hash t key = Except.ok (find hash t key) := by
  unfold find_checked find
  rw [find_place_checked_eq hI key]
  simp only
  rw [misses_checked_eq t key _ hI.len (find_place_le hI key)]
  simp only
  exact skip_empty_checked_eq t hI.len _ _ (le_refl _)

theorem shift_step_checked_eq (t : HashMap K V) (i : Nat) (e : map_entry K V) (hi : 1 ≤ i)
    (hlen : i < t.data_.length) :
    shift_step_checked t i e = Except.ok (shift_step t i e) := by
  have h0 : i ≠ 0 := by omega
  unfold shift_step_checked shift_step
  simp only
  rw [write_slot_ok t i _ hlen]
  simp only [h0, if_false]
  rw [write_slot_ok _ (i - 1) _ (by simp; omega)]
  simp only
  rw [write_slot_ok _ i _ (by simp; omega)]

theorem shift_back_loop_checked_eq :
    ∀ (n : Nat) (t : HashMap K V) (i : Nat), t.data_.length = t.capacity_ → 1 ≤ i →
      t.capacity_ - i ≤ n →
      shift_back_loop_checked n t i = Except.ok (shift_back_loop n t i) := by
  intro n
  induction n with
  | zero =>
    intro t i _ _ hn
    have : ¬ i < t.capacity_ := by omega
    simp [shift_back_loop_checked, shift_back_loop, this]
  | succ n ih =>
    intro t i hlen hi hn
    rw [shift_back_loop_checked, shift_back_loop]
    by_cases hc : i < t.capacity_
    · rw [if_pos hc, if_pos hc, read_slot_ok t i (by omega)]
      cases hs : slot t i with
      | none => rfl
      | some e =>
        by_cases hcost : 0 < e.cost
        · simp only [hcost, if_true]
          rw [shift_step_checked_eq t i e hi (by omega)]
          simp only
          exact ih (shift_step t i e) (i + 1)
            (by show (((t.data_.set _ _).set _ _).set _ _).length = t.capacity_; simp [hlen])
            (by omega) (by show t.capacity_ - (i + 1) ≤ n; omega)
        · simp only [hcost, if_false]
    · rw [if_neg hc, if_neg hc]

theorem size_pos_of_slot {hash : K → Nat} {t : HashMap K V} (hI : Inv hash t) {i : Nat}
    {e : map_entry K V} (hs : slot t i = some e) : 0 < t.size_ := by
  have hlen : i < t.data_.length := by rw [hI.len]; exact slot_lt_of_some hI hs
  have := occupied_set t.data_ i none hlen
  have hc : cell t.data_ i = some e := hs
  rw [hc] at this
  simp at this
  rw [hI.size_eq]; omega

theorem erase_checked_eq [DecidableEq K] {hash : K → Nat} {t : HashMap K V} (hI : Inv hash t)
    (key : K) : erase_checked hash t key = Except.ok (erase hash t key) := by
  unfold erase_checked erase
  rw [find_place_checked_eq hI key]
  simp only
  rw [misses_checked_eq t key _ hI.len (find_place_le hI key)]
  cases hm : misses t key (find_place hash t key) with
  | true => simp
  | false =>
    obtain ⟨e, hs, _, hne⟩ := misses_false_hasKey hm
    have hlt := slot_lt_of_some hI hs
    have hsz := size_pos_of_slot hI hs
    have h0 : t.size_ ≠ 0 := by omega
    simp only [h0, if_false, Bool.false_eq_true]
    rw [write_slot_ok _ _ _ (by show find_place hash t key < t.data_.length; rw [hI.len]; exact hlt)]
    simp only
    exact shift_back_loop_checked_eq _ _ _ (by simp [hI.len]) (by omega) (le_refl _)

theorem reinsert_checked_eq
    {ins : HashMap K V → map_entry K V → Option (HashMap K V)}
    {insc : HashMap K V → map_entry K V → Except Fault (HashMap K V)}
    (hins : ∀ t e r, t.data_.length = t.capacity_ → 0 < t.capacity_ → ins t e = some r →
      insc t e = Except.ok r ∧ r.data_.length = r.capacity_ ∧ 0 < r.capacity_) :
    ∀ (l : List (Option (map_entry K V))) (acc r : HashMap K V),
      acc.data_.length = acc.capacity_ → 0 < acc.capacity_ → reinsert ins l acc = some r →
      reinsert_checked insc l acc = Except.ok r ∧ r.data_.length = r.capacity_ ∧
        0 < r.capacity_ := by
  intro l
  induction l with
  | nil =>
    intro acc r hl hc h
    simp only [reinsert, Option.some.injEq] at h
    subst h
    exact ⟨rfl, hl, hc⟩
  | cons a rest ih =>
    intro acc r hl hc h
    cases a with
    | none =>
      simp only [reinsert] at h
      simp only [reinsert_checked]
      exact ih acc r hl hc h
    | some e =>
      simp only [reinsert] at h
      cases hi : ins acc e with
      | none => rw [hi] at h; cases h
      | some t1 =>
        rw [hi] at h
        obtain ⟨h1, h2, h3⟩ := hins acc e t1 hl hc hi
        simp only [reinsert_checked, h1]
        exact ih t1 r h2 h3 h

/-- Whenever the insertion loop returns a table, the checked loop returns the
same table: no access was out of bounds and no modulus was zero. -/
theorem insert_loop_checked_eq (hash : K → Nat) :
    ∀ (f : Nat) (t : HashMap K V) (e : map_entry K V) (h : Nat) (r : HashMap K V),
      t.data_.length = t.capacity_ → 0 < t.capacity_ → h ≤ t.capacity_ →
      insert_loop hash f t e h = some r →
      insert_loop_checked hash f t e h = Except.ok r ∧ r.data_.length = r.capacity_ ∧
        0 < r.capacity_ := by
  intro f
  induction f with
  | zero => intro t e h r _ _ _ hr; simp [insert_loop] at hr
  | succ f ih =>
    intro t e h r hl hc hh hr
    have hbody : ∀ (t : HashMap K V) (e : map_entry K V) (h : Nat),
        t.data_.length = t.capacity_ → 0 < t.capacity_ → h < t.capacity_ →
        probe_body hash f t e h = some r →
        probe_body_checked (insert_loop_checked hash f) t e h = Except.ok r ∧
          r.data_.length = r.capacity_ ∧ 0 < r.capacity_ := by
      intro t e h hl hc hh hb
      unfold probe_body at hb
      unfold probe_body_checked
      rw [read_slot_ok t h (by omega)]
      cases hs : slot t h with
      | none =>
        rw [hs] at hb
        simp only [Option.some.injEq] at hb
        subst hb
        simp only
        rw [write_slot_ok _ h _ (by show h < t.data_.length; omega)]
        exact ⟨rfl, by simp [hl], hc⟩
      | some occ =>
        rw [hs] at hb
        simp only at hb ⊢
        by_cases hcost : occ.cost < e.cost
        · simp only [hcost, if_true] at hb ⊢
          rw [write_slot_ok t h _ (by omega)]
          simp only
          exact ih _ _ _ r (by simp [hl]) hc (by show h + 1 ≤ t.capacity_; omega) hb
        · simp only [hcost, if_false] at hb ⊢
          exact ih _ _ _ r hl hc (by omega) hb
    by_cases hcap : h = t.capacity_
    · subst hcap
      cases hres : resize hash f t with
      | none => rw [insert_loop_overflow_none hash f t e hres] at hr; cases hr
      | some t1 =>
        rw [insert_loop_overflow_body hash f t t1 e hres] at hr
        have hrc : resize_with_checked
            (fun t1 e1 =>
              match home_index hash t1 e1.key with
              | Except.error x => Except.error x
              | Except.ok h1 => insert_loop_checked hash f t1 { e1 with cost := 0 } h1) t
            = Except.ok t1 ∧ t1.data_.length = t1.capacity_ ∧ 0 < t1.capacity_ := by
          unfold resize resize_with at hres
          unfold resize_with_checked
          rw [if_pos (by omega)]
          apply reinsert_checked_eq _ _ _ _ (by simp) (by show 0 < t.capacity_ * 2; omega) hres
          intro t2 e2 r2 hl2 hc2 hi2
          rw [home_index_ok hash t2 e2.key hc2]
          exact ih t2 _ _ r2 hl2 hc2 (le_of_lt (Nat.mod_lt _ hc2)) hi2
        obtain ⟨h1, h2, h3⟩ := hrc
        rw [insert_loop_checked]
        simp only [if_true, h1]
        rw [home_index_ok hash t1 e.key h3]
        exact hbody t1 _ _ h2 h3 (Nat.mod_lt _ h3) hr
    · rw [insert_loop_body hash f t e h hcap] at hr
      rw [insert_loop_checked, if_neg hcap]
      exact hbody t e h hl hc (by omega) hr

theorem insert_entry_checked_eq {hash : K → Nat} {t : HashMap K V} (hI : Inv hash t)
    {f : Nat} {e : map_entry K V} {r : HashMap K V} (h : insert_entry hash f t e = some r) :
    insert_entry_checked hash f t e = Except.ok r := by
  unfold insert_entry_checked
  rw [home_index_ok hash t e.key hI.cap_pos]
  exact (insert_loop_checked_eq hash f t _ _ r hI.len hI.cap_pos
    (le_of_lt (Nat.mod_lt _ hI.cap_pos)) h).1

theorem insert_checked_eq [DecidableEq K] {hash : K → Nat} {t : HashMap K V}
    (hI : Inv hash t) {f : Nat} {p : K × V} {r : HashMap K V}
    (h : insert hash f t p = some r) : insert_checked hash f t p = Except.ok r := by
  unfold insert_checked
  rw [find_checked_eq hI p.1]
  simp only
  rw [skip_empty_checked_eq t hI.len _ _ (le_refl _)]
  simp only
  have hend : skip_empty t (t.capacity_ - t.capacity_) t.capacity_ = end_ t := rfl
  rw [hend]
  unfold insert at h
  by_cases hc : find hash t p.1 ≠ end_ t
  · rw [if_pos hc] at h ⊢
    rw [Option.some.inj h]
  · rw [if_neg hc] at h ⊢
    exact insert_entry_checked_eq hI h

theorem index_checked_eq [DecidableEq K] [Inhabited V] {hash : K → Nat} {t : HashMap K V}
    (hI : Inv hash t) {f : Nat} {k : K} {t1 : HashMap K V} {i : Nat}
    (h : index hash f t k = some (t1, i)) :
    index_checked hash f t k = Except.ok (t1, i) := by
  have hI1 := inv_index hash hI h
  unfold index at h
  unfold index_checked
  rw [find_place_checked_eq hI k]
  simp only
  rw [misses_checked_eq t k _ hI.len (find_place_le hI k)]
  simp only at h ⊢
  have hres : (if misses t k (find_place hash t k) = true
        then insert_checked hash f t (k, default) else Except.ok t) = Except.ok t1 ∧
      i = find_place hash t1 k ∧ HasKey t1 k := by
    cases hm : misses t k (find_place hash t k) with
    | true =>
      rw [hm] at h
      simp only [if_true] at h ⊢
      cases hi : insert hash f t (k, default) with
      | none => rw [hi] at h; cases h
      | some t2 =>
        rw [hi] at h
        simp only [Option.some.injEq, Prod.mk.injEq] at h
        obtain ⟨h1, h2⟩ := h
        subst h1
        exact ⟨insert_checked_eq hI hi, h2.symm,
          (insert_hasKey hI hi k).2 (Or.inr rfl)⟩
    | false =>
      rw [hm] at h
      simp only [Bool.false_eq_true, if_false, Option.some.injEq, Prod.mk.injEq] at h ⊢
      obtain ⟨h1, h2⟩ := h
      subst h1
      obtain ⟨e, hs, hk, _⟩ := misses_false_hasKey hm
      exact ⟨rfl, h2.symm, ⟨_, e, hs, hk⟩⟩
  obtain ⟨h1, h2, ⟨j, e, hs, hk⟩⟩ := hres
  rw [h1]
  simp only
  rw [find_place_checked_eq hI1 k]
  simp only
  have hj : find_place hash t1 k = j := by
    rw [← hk]; exact find_place_hit hI1 hs
  rw [hj, read_slot_ok t1 j (by rw [hI1.len]; exact slot_lt_of_some hI1 hs), hs]
  simp only
  rw [h2, hj]

/-- Claim C14. For every hash function (degenerate ones included), every
reachable table and every key: the capacity is positive and is the length of
the slot array; `find` and `erase`, run with every slot access, modulus and
unsigned decrement checked, return without fault the results of the unchecked
methods; and `insert` and `operator[]`, run checked, return without fault
whenever they are given enough fuel, so `insert_entry` resizes only finitely
often, nested resizes included. -/
theorem C14_totality [DecidableEq K] [Inhabited V] (hash : K → Nat) (t : HashMap K V)
    (hR : Reachable hash t) :
    (0 < t.capacity_ ∧ t.data_.length = t.capacity_) ∧
    (∀ k, find_checked hash t k = Except.ok (find hash t k)) ∧
    (∀ k, erase_checked hash t k = Except.ok (erase hash t k)) ∧
    (∀ p, ∃ t1 N, ∀ f, N ≤ f →
      insert_checked hash f t p = Except.ok t1 ∧ insert hash f t p = some t1) ∧
    (∀ k, ∃ r N, ∀ f, N ≤ f →
      index_checked hash f t k = Except.ok r ∧ index hash f t k = some r) := by
  have hI := inv_of_reachable hash hR
  refine ⟨⟨hI.cap_pos, hI.len⟩, find_checked_eq hI, erase_checked_eq hI, fun p => ?_,
    fun k => ?_⟩
  · obtain ⟨t1, N, hN⟩ := insert_returns hash hI p
    exact ⟨t1, N, fun f hf => ⟨insert_checked_eq hI (hN f hf), hN f hf⟩⟩
  · by_cases hk : HasKey t k
    · obtain ⟨i, e, hs, rfl⟩ := hk
      exact ⟨(t, i), 0, fun f _ =>
        ⟨index_checked_eq hI (index_present hI f hs), index_present hI f hs⟩⟩
    · obtain ⟨t1, ⟨N, hN⟩, _, _⟩ :=
        insert_entry_total hash hI { key := k, value := default, cost := 0 } hk
      refine ⟨(t1, find_place hash t1 k), N, fun f hf => ?_⟩
      have hidx : index hash f t k = some (t1, find_place hash t1 k) := by
        rw [index_absent hI f hk]
        have := hN f hf
        simp only at this
        rw [this]
      exact ⟨index_checked_eq hI hidx, hidx⟩

/-- Instance of C14 with all keys hashed to `0`: on the full table holding
keys `1` and `3`, the checked `insert` of key `7` runs off the end, resizes
and returns; the checked `erase` of key `1` shifts key `3` back. -/
theorem C14_totality_witness :
    Reachable (fun _ : Nat => 0) (⟨[some ⟨1, 10, 0⟩, some ⟨3, 30, 1⟩], 2, 2⟩ : HashMap Nat Nat) ∧
    insert_checked (fun _ : Nat => 0) 8
      (⟨[some ⟨1, 10, 0⟩, some ⟨3, 30, 1⟩], 2, 2⟩ : HashMap Nat Nat) (7, 70)
      = Except.ok ⟨[some ⟨1, 10, 0⟩, some ⟨3, 30, 1⟩, some ⟨7, 70, 2⟩, none], 3, 4⟩ ∧
    erase_checked (fun _ : Nat => 0)
      (⟨[some ⟨1, 10, 0⟩, some ⟨3, 30, 1⟩], 2, 2⟩ : HashMap Nat Nat) 1
      = Except.ok (erase (fun _ : Nat => 0)
          (⟨[some ⟨1, 10, 0⟩, some ⟨3, 30, 1⟩], 2, 2⟩ : HashMap Nat Nat) 1) :=
  have h1 : Reachable (fun _ : Nat => 0) (⟨[some ⟨1, 10, 0⟩], 1, 1⟩ : HashMap Nat Nat) :=
    Reachable.insert (f := 1) (p := (1, 10)) Reachable.empty (by decide)
  have hR : Reachable (fun _ : Nat => 0)
      (⟨[some ⟨1, 10, 0⟩, some ⟨3, 30, 1⟩], 2, 2⟩ : HashMap Nat Nat) :=
    Reachable.insert (f := 4) (p := (3, 30)) h1 (by decide)
  ⟨hR, rfl, (C14_totality (fun _ : Nat => 0) _ hR).2.2.1 1⟩

end HashTable
